import Mathlib

/-!
# Proof-of-work subsystem of veil (`src/pow.cpp`) and two zerocoin helpers

A shallow embedding of the difficulty retargeter (`DarkGravityWave`,
`GetNextWorkRequired`), of the three verifiers (`CheckProofOfWork`,
`CheckProgProofOfWork`, `CheckRandomXProofOfWork`) and of the RandomX key cache, then of
the class template `CLRUCache` (`veil/zerocoin/lrucache.h`) and of the blocks-per-cycle
accessors of `Precompute` (`veil/zerocoin/precompute.cpp`), followed by the theorems that
settle the claims made about them.

Conventions of the embedding:

* `uint256` and `arith_uint256` values are natural numbers; every operation of
  `arith_uint256` reduces its result modulo `2 ^ 256`;
* `unsigned int` / `uint32_t` values are natural numbers, `int64_t` values are
  integers; where the C++ would leave the range of the type the embedding either
  reduces explicitly or returns `none` (undefined behaviour, a failed `assert`, a
  null dereference, a thrown `uint_error`);
* `arith_uint256` multiplies by a scalar through `operator*=(uint32_t)`: an `int64_t`
  factor is converted to 32 bits (the integral conversion is preferred to the
  user-defined conversion to `arith_uint256`), while division converts its
  `int64_t` operand to `uint64_t` and then to `arith_uint256`;
* a `const CBlockIndex*` is the list of block indices reachable through `pprev`,
  newest first; `nullptr` is the empty list.
* a `std::list` is the list of its nodes, front first, each node at an address of its
  own; an iterator of the list is the address of the node it points to. A
  `std::unordered_map` is the list of its entries, one for each key.
-/

set_option maxRecDepth 8000

namespace Pow

/-! ## Compact targets -/

/-- The result of `arith_uint256::SetCompact(nCompact, &fNegative, &fOverflow)`. -/
structure Decoded where
  bnTarget : Nat
  fNegative : Bool
  fOverflow : Bool
deriving DecidableEq, Repr

/-- Modelled from the spec: `arith_uint256::SetCompact` is declared in
`arith_uint256.h`, which is not under `src/`. Spec §3, §4.1 and §6: byte 0 of the
32-bit word is the exponent, the low 23 bits are the mantissa, bit 23 is the sign
bit; the magnitude is the mantissa shifted by `8 * (exponent - 3)` bits, kept in 256
bits; `negative` reports the sign bit of a non-zero mantissa and `overflow` a
shifted non-zero mantissa that does not fit in 256 bits. -/
def SetCompact (nCompact : Nat) : Decoded :=
  let nSize := nCompact >>> 24
  let nWord0 := nCompact &&& 0x007fffff
  let nWord := if nSize ≤ 3 then nWord0 >>> (8 * (3 - nSize)) else nWord0
  let value := if nSize ≤ 3 then nWord else (nWord <<< (8 * (nSize - 3))) % 2 ^ 256
  { bnTarget := value
    fNegative := decide (nWord ≠ 0) && decide (nCompact &&& 0x00800000 ≠ 0)
    fOverflow := decide (nWord ≠ 0) &&
      (decide (nSize > 34) || (decide (nWord > 0xff) && decide (nSize > 33)) ||
        (decide (nWord > 0xffff) && decide (nSize > 32))) }

/-- Number of binary digits of `x`, counting at most `fuel` of them. -/
def bitsAux : Nat → Nat → Nat
  | 0, _ => 0
  | fuel + 1, x => if x = 0 then 0 else bitsAux fuel (x / 2) + 1

/-- Modelled from the spec: `arith_uint256::bits()` (not under `src/`): the position
of the highest set bit of a 256-bit number plus one, `0` for zero. -/
def bits (x : Nat) : Nat := bitsAux 256 x

/-- Modelled from the spec: `arith_uint256::GetCompact()` is declared in
`arith_uint256.h`, which is not under `src/`. Spec §4.1: the inverse of the decoder,
in normalised form: the smallest exponent whose three mantissa bytes hold the top of
the magnitude, moved up by one byte when the mantissa would otherwise set the sign
bit. -/
def GetCompact (x : Nat) : Nat :=
  let nSize := (bits x + 7) / 8
  let nCompact :=
    if nSize ≤ 3 then ((x % 2 ^ 64) <<< (8 * (3 - nSize))) % 2 ^ 32
    else ((x >>> (8 * (nSize - 3))) % 2 ^ 64) % 2 ^ 32
  let normalise := decide (nCompact &&& 0x00800000 ≠ 0)
  let nCompact := if normalise then nCompact >>> 8 else nCompact
  let nSize := if normalise then nSize + 1 else nSize
  nCompact ||| (nSize <<< 24)

/-- The value a size byte and a mantissa stand for, before reduction to 256 bits. -/
def compactValue (s m : Nat) : Nat :=
  if s ≤ 3 then m / 2 ^ (8 * (3 - s)) else m * 2 ^ (8 * (s - 3))

/-- Modelled from the spec: `UintToArith256` (arith_uint256.h, not under `src/`). Spec
§4.3: a hash is read as a 256-bit unsigned magnitude. -/
def UintToArith256 (h : Nat) : Nat := h % 2 ^ 256

/-- The validity predicate of spec §4.1 (`is_valid`): the word decodes
non-negative, non-overflowed, non-zero and not above `powLimit`. -/
def is_valid (bits powLimit : Nat) : Bool :=
  !(SetCompact bits).fNegative && !(SetCompact bits).fOverflow &&
    decide ((SetCompact bits).bnTarget ≠ 0) &&
    decide ((SetCompact bits).bnTarget ≤ UintToArith256 powLimit)

/-! ## Consensus parameters and block indices -/

/-- Modelled from the spec: `Consensus::Params` (consensus/params.h, not under `src/`),
the fields `pow.cpp` reads, typed as in spec §3 and §6. -/
structure Consensus.Params where
  powLimit : Nat
  fPowNoRetargeting : Bool
  nDgwPastBlocks : Nat
  nPowTargetSpacing : Int
  nProgPowTargetSpacing : Int
deriving DecidableEq, Repr

/-- Modelled from the spec: `CBlockIndex` (chain.h, not under `src/`), the fields and
accessors `pow.cpp` reads (the `BlockRef` of spec §3); the `pprev` link is the tail of the
list the index heads. -/
structure CBlockIndex where
  nHeight : Nat
  nTime : Nat
  nBits : Nat
  IsProofOfStake : Bool
  IsProgProofOfWork : Bool
  GetBlockHash : Nat
deriving DecidableEq, Repr

/-- Modelled from the spec: `CBlockIndex::GetBlockTime` (chain.h, not under `src/`), the
`time` of spec §6: the 32-bit `nTime` as an `int64_t`. -/
def CBlockIndex.GetBlockTime (b : CBlockIndex) : Int := ((b.nTime % 2 ^ 32 : Nat) : Int)

/-! ## The retargeter -/

/-- Conversion of a signed integer to `unsigned int` / `uint32_t`. -/
def toUInt32 (i : Int) : Nat := (i % 2 ^ 32).toNat

/-- Conversion of an `unsigned int` to `int`. -/
def toInt32 (n : Nat) : Int :=
  if n % 2 ^ 32 < 2 ^ 31 then ((n % 2 ^ 32 : Nat) : Int) else ((n % 2 ^ 32 : Nat) : Int) - 2 ^ 32

/-- Whether an integer is a value of `int64_t`. -/
def inInt64 (x : Int) : Bool := decide (-(2 ^ 63) ≤ x) && decide (x < 2 ^ 63)

/-- The variables of `DarkGravityWave` that are live when its loop is left
through its condition. -/
structure DgwWindow where
  pindex : List CBlockIndex
  pindexLastMatchingProof : List CBlockIndex
  bnPastTargetAvg : Nat
deriving DecidableEq, Repr

/-- The loop of `DarkGravityWave`, `pow.cpp` lines 132-153, from the test of its
condition on. `none` is the `return bnPowLimit.GetCompact()` of line 135. After
`++nCountBlocks` reaches `nDgwPastBlocks` the condition fails at once, so that
iteration leaves the loop. `nCountBlocks + 1` does not wrap: `nCountBlocks` is below
the 32-bit `nDgwPastBlocks`. -/
def DarkGravityWave.loop (nDgwPastBlocks : Nat) (fProofOfStake fProgPow : Bool) :
    List CBlockIndex → List CBlockIndex → Nat → Nat → Option DgwWindow
  | [], pindexLastMatchingProof, bnPastTargetAvg, nCountBlocks =>
    if nCountBlocks < nDgwPastBlocks then none
    else some { pindex := [], pindexLastMatchingProof := pindexLastMatchingProof,
                bnPastTargetAvg := bnPastTargetAvg }
  | pindex :: pprev, pindexLastMatchingProof, bnPastTargetAvg, nCountBlocks =>
    if nCountBlocks < nDgwPastBlocks then
      if pindex.IsProofOfStake != fProofOfStake then
        DarkGravityWave.loop nDgwPastBlocks fProofOfStake fProgPow pprev
          pindexLastMatchingProof bnPastTargetAvg nCountBlocks
      else if pindex.IsProgProofOfWork != fProgPow then
        DarkGravityWave.loop nDgwPastBlocks fProofOfStake fProgPow pprev
          pindexLastMatchingProof bnPastTargetAvg nCountBlocks
      else
        let pindexLastMatchingProof :=
          if pindexLastMatchingProof.isEmpty then pindex :: pprev else pindexLastMatchingProof
        let bnTarget := (SetCompact pindex.nBits).bnTarget
        let bnPastTargetAvg :=
          ((bnPastTargetAvg * nCountBlocks % 2 ^ 256 + bnTarget) % 2 ^ 256) / (nCountBlocks + 1)
        let nCountBlocks := nCountBlocks + 1
        if nCountBlocks ≠ nDgwPastBlocks then
          DarkGravityWave.loop nDgwPastBlocks fProofOfStake fProgPow pprev
            pindexLastMatchingProof bnPastTargetAvg nCountBlocks
        else
          some { pindex := pindex :: pprev, pindexLastMatchingProof := pindexLastMatchingProof,
                 bnPastTargetAvg := bnPastTargetAvg }
    else
      some { pindex := pindex :: pprev, pindexLastMatchingProof := pindexLastMatchingProof,
             bnPastTargetAvg := bnPastTargetAvg }

/-- The value of `bnNew` at line 184 of `pow.cpp`: the part of `DarkGravityWave`
after its loop, lines 155-182. `none` is a null dereference (line 168), a signed
overflow (lines 169-174) or the `uint_error` thrown by a division by zero
(line 178). Line 177 multiplies through `operator*=(uint32_t)`, line 178 divides by the
`arith_uint256` made from the `uint64_t` conversion of `nTargetTimespan`. -/
def DarkGravityWave.bnNew (pindexLast : List CBlockIndex) (params : Consensus.Params)
    (fProgPow : Bool) (w : DgwWindow) : Option Nat :=
  let bnPowLimit := UintToArith256 params.powLimit
  let bnNew := w.bnPastTargetAvg
  let pindexLastMatchingProof :=
    if !w.pindexLastMatchingProof.isEmpty then pindexLast else w.pindexLastMatchingProof
  let nPowSpacing := if fProgPow then params.nProgPowTargetSpacing else params.nPowTargetSpacing
  match pindexLastMatchingProof, w.pindex with
  | last :: _, pindex :: _ =>
    let nActualTimespan := last.GetBlockTime - pindex.GetBlockTime
    let nTargetTimespan := (params.nDgwPastBlocks : Int) * nPowSpacing
    if !inInt64 nTargetTimespan || !inInt64 (nTargetTimespan * 3) then none
    else
      let nActualTimespan :=
        if nActualTimespan < Int.tdiv nTargetTimespan 3 then Int.tdiv nTargetTimespan 3
        else nActualTimespan
      let nActualTimespan :=
        if nActualTimespan > nTargetTimespan * 3 then nTargetTimespan * 3 else nActualTimespan
      let bnNew := bnNew * toUInt32 nActualTimespan % 2 ^ 256
      let divisor := (nTargetTimespan % 2 ^ 64).toNat
      if divisor = 0 then none
      else
        let bnNew := bnNew / divisor
        let bnNew := if bnNew > bnPowLimit then bnPowLimit else bnNew
        some bnNew
  | _, _ => none

/-- The part of `DarkGravityWave` after its loop, `pow.cpp` lines 155-184. -/
def DarkGravityWave.retarget (pindexLast : List CBlockIndex) (params : Consensus.Params)
    (fProgPow : Bool) (w : DgwWindow) : Option Nat :=
  (DarkGravityWave.bnNew pindexLast params fProgPow w).map GetCompact

/-- The function `DarkGravityWave` of `pow.cpp`, lines 121-185. -/
def DarkGravityWave (pindexLast : List CBlockIndex) (params : Consensus.Params)
    (fProofOfStake fProgPow : Bool) : Option Nat :=
  let bnPowLimit := UintToArith256 params.powLimit
  match DarkGravityWave.loop params.nDgwPastBlocks fProofOfStake fProgPow pindexLast [] 0 0 with
  | none => some (GetCompact bnPowLimit)
  | some w => DarkGravityWave.retarget pindexLast params fProgPow w

/-- The function `GetNextWorkRequired` of `pow.cpp`, lines 92-119; the header
`pblock` is not read. `none` is the failed `assert` of line 95 or a failure of
`DarkGravityWave`. -/
def GetNextWorkRequired (pindexLast : List CBlockIndex) (params : Consensus.Params)
    (fProofOfStake fProgPow : Bool) : Option Nat :=
  if pindexLast.isEmpty then none
  else
    let nProofOfWorkLimit := GetCompact (UintToArith256 params.powLimit)
    if params.fPowNoRetargeting then some nProofOfWorkLimit
    else DarkGravityWave pindexLast params fProofOfStake fProgPow

/-! ## The legacy verifier -/

/-- The function `CheckProofOfWork` of `pow.cpp`, lines 187-203. -/
def CheckProofOfWork (hash nBits : Nat) (params : Consensus.Params) : Bool :=
  let d := SetCompact nBits
  if d.fNegative || decide (d.bnTarget = 0) || d.fOverflow ||
      decide (d.bnTarget > UintToArith256 params.powLimit) then
    false
  else
    decide (UintToArith256 hash < d.bnTarget)

/-! ## The ProgPow verifier -/

/-- Modelled from the spec: `CBlockHeader` (primitives/block.h, not under `src/`), the
fields and accessors the verifiers read (the block-header collaborator of spec §6). -/
structure CBlockHeader where
  nHeight : Nat
  nNonce64 : Nat
  GetProgPowHeaderHash : Nat
  GetRandomXHeaderHash : Nat
deriving DecidableEq, Repr

/-- The result of `progpow::hash`. -/
structure ProgPowResult where
  mix_hash : Nat
  final_hash : Nat
deriving DecidableEq, Repr

/-- The ProgPow/ethash library (spec §6, opaque): `ethash::get_epoch_number`,
`ethash::create_epoch_context`, the `epoch_number` field of a context,
`progpow::hash` and `progpow::verify`. A `hash256` is the number its 32 bytes spell
in big-endian order, so that `to_hash256(x.GetHex())` is `x`. -/
structure ProgPowLib (Ctx : Type) where
  get_epoch_number : Nat → Nat
  create_epoch_context : Nat → Ctx
  epoch_number : Ctx → Nat
  hash : Ctx → Nat → Nat → Nat → ProgPowResult
  verify : Ctx → Nat → Nat → Nat → Nat → Nat → Bool

/-- The function `CheckProgProofOfWork` of `pow.cpp`, lines 205-240. The second
component lists the epoch numbers handed to `create_epoch_context` during the call.
`context` is a local that starts as `nullptr` on every call. -/
def CheckProgProofOfWork {Ctx : Type} (lib : ProgPowLib Ctx) (block : CBlockHeader)
    (nBits : Nat) (params : Consensus.Params) : Bool × List Nat :=
  let context : Option Ctx := none
  let d := SetCompact nBits
  if d.fNegative || decide (d.bnTarget = 0) || d.fOverflow ||
      decide (d.bnTarget > UintToArith256 params.powLimit) then
    (false, [])
  else
    let epoch_number := lib.get_epoch_number block.nHeight
    let created : Ctx × List Nat :=
      match context with
      | none => (lib.create_epoch_context epoch_number, [epoch_number])
      | some c =>
        if lib.epoch_number c ≠ epoch_number then
          (lib.create_epoch_context epoch_number, [epoch_number])
        else (c, [])
    let header_hash := block.GetProgPowHeaderHash
    let result := lib.hash created.1 block.nHeight header_hash block.nNonce64
    let boundary := d.bnTarget
    (lib.verify created.1 block.nHeight header_hash result.mix_hash block.nNonce64 boundary,
      created.2)

/-! ## The RandomX key cache -/

/-- A cache object of the RandomX library: its handle, the flags it was allocated
with and the key `randomx_init_cache` filled it from (`none` before that call). -/
structure randomx_cache where
  handle : Nat
  flags : Nat
  key : Option Nat
deriving DecidableEq, Repr

/-- A virtual machine of the RandomX library: its handle, its flags and the
cache it was created on. -/
structure randomx_vm where
  handle : Nat
  flags : Nat
  cache : randomx_cache
deriving DecidableEq, Repr

/-- The file-level statics of `pow.cpp` (lines 26-31), the function-local static of
`GetKeyBlock` (line 247) and the allocator of the RandomX library: the next fresh
handle and the handles passed so far to `randomx_destroy_vm` and
`randomx_release_cache`, oldest first. A pointer is `none` when null; it keeps its
value when the object it points to is destroyed. -/
structure KeyCacheState where
  flags : Nat
  key_block : Nat
  myCache : Option randomx_cache
  myMachineMining : Option randomx_vm
  myMachineValidating : Option randomx_vm
  fLightCacheInited : Bool
  current_key_block : Nat
  nextHandle : Nat
  destroyed : List Nat
deriving DecidableEq, Repr

/-- The key cache at process start: zero-initialised statics, nothing allocated. -/
def KeyCacheState.start : KeyCacheState :=
  { flags := 0, key_block := 0, myCache := none, myMachineMining := none,
    myMachineValidating := none, fLightCacheInited := false, current_key_block := 0,
    nextHandle := 0, destroyed := [] }

/-- The RandomX library (spec §6, opaque): the flags `randomx_get_flags` reports on
this host and `randomx_calculate_hash`, whose output buffer is a list of bytes. -/
structure RandomXLib where
  randomx_get_flags : Nat
  randomx_calculate_hash : randomx_vm → Nat → List Nat

def KEY_CHANGE : Nat := 2048

def SWITCH_KEY : Nat := 64

/-- Modelled from the spec: `CChain::Height` (chain.h, not under `src/`), the
`tipHeight` of spec §6: the height of the tip, `-1` for an empty chain. -/
def CChain.Height (vChain : List CBlockIndex) : Int := (vChain.length : Int) - 1

/-- Modelled from the spec: `CChain::operator[]` (chain.h, not under `src/`), the
`blockAt` of spec §6: the block index at a height, null outside the chain. -/
def CChain.at (vChain : List CBlockIndex) (nHeight : Int) : Option CBlockIndex :=
  if nHeight < 0 ∨ nHeight ≥ (vChain.length : Int) then none else vChain[nHeight.toNat]?

/-- Modelled from the spec: `CChain::Genesis` (chain.h, not under `src/`), the
`genesis` of spec §6: the block index at height 0, null for an empty chain. -/
def CChain.Genesis (vChain : List CBlockIndex) : Option CBlockIndex := vChain.head?

/-- The function `GetKeyBlock` of `pow.cpp`, lines 245-266, over the active chain
and the value of its static `current_key_block`. The result is both the value
returned and the new value of the static; `none` is a null dereference. -/
def GetKeyBlock (chainActive : List CBlockIndex) (current_key_block : Nat) (nHeight : Nat) :
    Option Nat :=
  let nHeight := nHeight % 2 ^ 32
  let remainer := nHeight % KEY_CHANGE
  let first_check := (nHeight - remainer) % 2 ^ 32
  let second_check := (nHeight + 2 ^ 32 - KEY_CHANGE - remainer) % 2 ^ 32
  let selected : Option Nat :=
    if nHeight > (nHeight - remainer + SWITCH_KEY) % 2 ^ 32 then
      if toUInt32 (CChain.Height chainActive) > first_check then
        (CChain.at chainActive (toInt32 first_check)).map CBlockIndex.GetBlockHash
      else some current_key_block
    else
      if toUInt32 (CChain.Height chainActive) > second_check then
        (CChain.at chainActive (toInt32 second_check)).map CBlockIndex.GetBlockHash
      else some current_key_block
  selected.bind fun current_key_block =>
    if current_key_block = 0 then
      (CChain.Genesis chainActive).map CBlockIndex.GetBlockHash
    else some current_key_block

/-- The allocation steps shared by `InitRandomXLightCache` (lines 45-49) and
`KeyBlockChanged` (lines 57-61): allocate a cache with the static `flags`, fill it
from the static `key_block`, create both machines on it, set the flag. -/
def allocateLightCache (s : KeyCacheState) : KeyCacheState :=
  let myCache : randomx_cache := { handle := s.nextHandle, flags := s.flags, key := none }
  let myCache : randomx_cache := { myCache with key := some s.key_block }
  let myMachineMining : randomx_vm :=
    { handle := s.nextHandle + 1, flags := s.flags, cache := myCache }
  let myMachineValidating : randomx_vm :=
    { handle := s.nextHandle + 2, flags := s.flags, cache := myCache }
  { s with myCache := some myCache, myMachineMining := some myMachineMining,
           myMachineValidating := some myMachineValidating, fLightCacheInited := true,
           nextHandle := s.nextHandle + 3 }

/-- The function `InitRandomXLightCache` of `pow.cpp`, lines 38-50. -/
def InitRandomXLightCache (lib : RandomXLib) (chainActive : List CBlockIndex)
    (s : KeyCacheState) (height : Nat) : Option KeyCacheState :=
  if s.fLightCacheInited then some s
  else
    (GetKeyBlock chainActive s.current_key_block height).map fun k =>
      allocateLightCache
        { s with current_key_block := k, key_block := k, flags := lib.randomx_get_flags }

/-- The call `randomx_destroy_vm(p)` / `randomx_release_cache(p)` on a pointer. -/
def releaseHandle (destroyed : List Nat) (p : Option Nat) : List Nat :=
  match p with
  | none => destroyed
  | some h => destroyed ++ [h]

/-- The function `DeallocateRandomXLightCache` of `pow.cpp`, lines 82-90. -/
def DeallocateRandomXLightCache (s : KeyCacheState) : KeyCacheState :=
  if !s.fLightCacheInited then s
  else
    let destroyed := releaseHandle s.destroyed (s.myMachineMining.map randomx_vm.handle)
    let destroyed := releaseHandle destroyed (s.myMachineValidating.map randomx_vm.handle)
    let destroyed := releaseHandle destroyed (s.myCache.map randomx_cache.handle)
    { s with destroyed := destroyed, fLightCacheInited := false }

/-- The function `KeyBlockChanged` of `pow.cpp`, lines 52-62. -/
def KeyBlockChanged (s : KeyCacheState) (new_block : Nat) : KeyCacheState :=
  allocateLightCache (DeallocateRandomXLightCache { s with key_block := new_block })

/-- The function `CheckIfKeyShouldChange` of `pow.cpp`, lines 76-80. -/
def CheckIfKeyShouldChange (s : KeyCacheState) (check_block : Nat) : KeyCacheState :=
  if check_block ≠ s.key_block then KeyBlockChanged s check_block else s

/-- The accessor `GetCurrentKeyBlock` of `pow.cpp`, lines 64-66. -/
def GetCurrentKeyBlock (s : KeyCacheState) : Nat := s.key_block

/-- The accessor `GetMyMachineMining` of `pow.cpp`, lines 68-70. -/
def GetMyMachineMining (s : KeyCacheState) : Option randomx_vm := s.myMachineMining

/-- The accessor `GetMyMachineValidating` of `pow.cpp`, lines 72-74. -/
def GetMyMachineValidating (s : KeyCacheState) : Option randomx_vm := s.myMachineValidating

/-- The accessor `IsRandomXLightInit` of `pow.cpp`, lines 33-36. -/
def IsRandomXLightInit (s : KeyCacheState) : Bool := s.fLightCacheInited

/-! ## The RandomX verifier -/

/-- The function `CheckRandomXProofOfWork` of `pow.cpp`, lines 268-302, with the key
cache passed through. `uint256S` (uint256.h, not under `src/`) turns the output
buffer of `randomx_calculate_hash` into a `uint256` and is a parameter. `none` is a
null dereference. -/
def CheckRandomXProofOfWork (lib : RandomXLib) (uint256S : List Nat → Nat)
    (chainActive : List CBlockIndex) (s : KeyCacheState) (block : CBlockHeader)
    (nBits : Nat) (params : Consensus.Params) : Option (Bool × KeyCacheState) :=
  (InitRandomXLightCache lib chainActive s block.nHeight).bind fun s =>
  (GetKeyBlock chainActive s.current_key_block block.nHeight).bind fun k =>
  let s := CheckIfKeyShouldChange { s with current_key_block := k } k
  let d := SetCompact nBits
  if d.fNegative || decide (d.bnTarget = 0) || d.fOverflow ||
      decide (d.bnTarget > UintToArith256 params.powLimit) then
    some (false, s)
  else
    let hash_blob := block.GetRandomXHeaderHash
    (GetMyMachineValidating s).map fun vm =>
      let hash := lib.randomx_calculate_hash vm hash_blob
      let uint256Hash := uint256S hash
      (decide (UintToArith256 uint256Hash < d.bnTarget), s)

/-! ## Notions the claims about the retargeter are stated with -/

/-- A block index matches the selectors when its proof-of-stake flag and its
ProgPow flag equal the wanted ones. -/
def matchesSelectors (wantProofOfStake wantProgPow : Bool) (b : CBlockIndex) : Bool :=
  (b.IsProofOfStake == wantProofOfStake) && (b.IsProgProofOfWork == wantProgPow)

/-- The matching blocks reachable from a tip, newest first. -/
def matchingBlocks (wantProofOfStake wantProgPow : Bool) (pindexLast : List CBlockIndex) :
    List CBlockIndex :=
  pindexLast.filter (matchesSelectors wantProofOfStake wantProgPow)

/-- The decoded targets of a list of blocks. -/
def targetsOf (blocks : List CBlockIndex) : List Nat :=
  blocks.map fun b => (SetCompact b.nBits).bnTarget

/-- The running mean of spec §4.2 step 3, in unbounded arithmetic: from the mean of
the first `k` samples, `mean_(k+1) = floor((mean_k * k + target_(k+1)) / (k + 1))`. -/
def runningMeanFrom : Nat → Nat → List Nat → Nat
  | _, mean, [] => mean
  | k, mean, t :: ts => runningMeanFrom (k + 1) ((mean * k + t) / (k + 1)) ts

/-- The running mean of a list of targets, newest first. -/
def runningMean (targets : List Nat) : Nat := runningMeanFrom 0 0 targets

/-- No intermediate value `mean_k * k + target_(k+1)` of the running mean exceeds 256
bits. -/
def fitsFrom : Nat → Nat → List Nat → Bool
  | _, _, [] => true
  | k, mean, t :: ts =>
    decide (mean * k + t < 2 ^ 256) && fitsFrom (k + 1) ((mean * k + t) / (k + 1)) ts

/-- The running mean as `DarkGravityWave` accumulates it (line 149), every operation
reduced to 256 bits. -/
def averageFrom : Nat → Nat → List Nat → Nat
  | _, avg, [] => avg
  | k, avg, t :: ts =>
    averageFrom (k + 1) (((avg * k % 2 ^ 256 + t) % 2 ^ 256) / (k + 1)) ts

/-- The expected timespan `E`: `nDgwPastBlocks` times the spacing of the selected
proof-of-work family. -/
def expectedTimespan (params : Consensus.Params) (wantProgPow : Bool) : Int :=
  (params.nDgwPastBlocks : Int) *
    (if wantProgPow then params.nProgPowTargetSpacing else params.nPowTargetSpacing)

/-- The actual timespan `A`: the time of the window end minus the time of the oldest
block of the window, clamped to `[E / 3, 3 * E]`. -/
def clampedTimespan (E : Int) (windowEnd oldest : CBlockIndex) : Int :=
  min (3 * E) (max (E / 3) (windowEnd.GetBlockTime - oldest.GetBlockTime))

/-- The bytes of a hash output read as an unsigned number, least significant byte
first. -/
def bytesToUint256 : List Nat → Nat
  | [] => 0
  | b :: bs => b % 256 + 256 * bytesToUint256 bs

/-- A compact word decodes to a non-negative, non-overflowed target that is not above
`powLimit`. -/
def decodesWithinLimit (nBits powLimit : Nat) : Prop :=
  (SetCompact nBits).fNegative = false ∧ (SetCompact nBits).fOverflow = false ∧
    (SetCompact nBits).bnTarget ≤ UintToArith256 powLimit

/-- Consecutive blocks of a chain are exactly `step` seconds apart. -/
def spacedBy (step : Nat) : List CBlockIndex → Bool
  | [] => true
  | [_] => true
  | newer :: older :: pprev =>
    decide (newer.nTime = older.nTime + step) && spacedBy step (older :: pprev)

/-- The heights of a chain are consistent: the genesis block has height 0 and every
other block is one higher than the block before it. -/
def heightsConsistent : List CBlockIndex → Bool
  | [] => true
  | b :: pprev => decide (b.nHeight = pprev.length) && heightsConsistent pprev

/-! ## Notions the claims about the key cache are stated with -/

/-- The operations on the key cache: the four lifecycle functions of `pow.cpp` and
`GetKeyBlock`, which updates its static. -/
inductive KeyCacheOp where
  | init (chainActive : List CBlockIndex) (height : Nat)
  | checkIfKeyShouldChange (check_block : Nat)
  | keyBlockChanged (new_block : Nat)
  | deallocate
  | getKeyBlock (chainActive : List CBlockIndex) (nHeight : Nat)

/-- The effect of one operation; `none` is a null dereference inside `GetKeyBlock`. -/
def KeyCacheOp.run (lib : RandomXLib) (s : KeyCacheState) : KeyCacheOp → Option KeyCacheState
  | .init chainActive height => InitRandomXLightCache lib chainActive s height
  | .checkIfKeyShouldChange check_block => some (CheckIfKeyShouldChange s check_block)
  | .keyBlockChanged new_block => some (KeyBlockChanged s new_block)
  | .deallocate => some (DeallocateRandomXLightCache s)
  | .getKeyBlock chainActive nHeight =>
    (GetKeyBlock chainActive s.current_key_block nHeight).map fun k =>
      { s with current_key_block := k }

/-- The effect of a sequence of operations, first to last. -/
def runOps (lib : RandomXLib) : List KeyCacheOp → KeyCacheState → Option KeyCacheState
  | [], s => some s
  | op :: ops, s => (op.run lib s).bind (runOps lib ops)

/-- A key-cache state is reachable when a sequence of operations leads to it from
process start. -/
def Reachable (lib : RandomXLib) (s : KeyCacheState) : Prop :=
  ∃ ops, runOps lib ops KeyCacheState.start = some s

/-- The allocated state of spec §3: flagged initialised, cache and both machines
non-null, the cache built from the current key block and both machines created on
it. -/
def FullyAllocated (s : KeyCacheState) : Prop :=
  s.fLightCacheInited = true ∧
    ∃ c m v, s.myCache = some c ∧ s.myMachineMining = some m ∧ s.myMachineValidating = some v ∧
      c.key = some s.key_block ∧ m.cache = c ∧ v.cache = c

/-- The empty state of spec §3: not flagged initialised, cache and both machine
pointers null. -/
def FullyEmpty (s : KeyCacheState) : Prop :=
  s.fLightCacheInited = false ∧ s.myCache = none ∧ s.myMachineMining = none ∧
    s.myMachineValidating = none

/-- The handles the three pointers of the key cache hold. -/
def heldHandles (s : KeyCacheState) : List Nat :=
  (s.myCache.map randomx_cache.handle).toList ++
    (s.myMachineMining.map randomx_vm.handle).toList ++
    (s.myMachineValidating.map randomx_vm.handle).toList

/-- The state the code is in when not initialised: the flag is false and every
pointer is null or dangling, the object it pointed to having been released. -/
def Released (s : KeyCacheState) : Prop :=
  s.fLightCacheInited = false ∧ ∀ h ∈ heldHandles s, h ∈ s.destroyed

/-- The objects of the key cache are live: none of the held handles was released. -/
def HandlesLive (s : KeyCacheState) : Prop :=
  ∀ h ∈ heldHandles s, h ∉ s.destroyed

/-- The three pointers hold a cache and two machines allocated together: both
machines are created on the cache and their handles follow the handle of the cache. -/
def AllocatedTogether (s : KeyCacheState) (c : randomx_cache) (m v : randomx_vm) : Prop :=
  s.myCache = some c ∧ s.myMachineMining = some m ∧ s.myMachineValidating = some v ∧
    m.cache = c ∧ v.cache = c ∧ m.handle = c.handle + 1 ∧ v.handle = c.handle + 2

/-- The invariant of the allocator side of the key cache: no handle is released twice;
when initialised the three objects held are the last three allocated and exactly the
older handles are released; when not initialised every allocated handle is released and
the pointers are all null or all dangling. -/
def HandlesInv (s : KeyCacheState) : Prop :=
  s.destroyed.Nodup ∧
    (s.fLightCacheInited = true →
      ∃ c m v, AllocatedTogether s c m v ∧ s.nextHandle = c.handle + 3 ∧
        ∀ h, h ∈ s.destroyed ↔ h < c.handle) ∧
    (s.fLightCacheInited = false →
      (∀ h, h ∈ s.destroyed ↔ h < s.nextHandle) ∧
        ((s.myCache = none ∧ s.myMachineMining = none ∧ s.myMachineValidating = none) ∨
          ∃ c m v, AllocatedTogether s c m v ∧ c.handle + 3 ≤ s.nextHandle))

/-- The invariant of the key side of the key cache: when initialised, the cache is
built from the current key block and the three objects carry the static flags. -/
def KeyInv (s : KeyCacheState) : Prop :=
  s.fLightCacheInited = true →
    ∃ c m v, s.myCache = some c ∧ s.myMachineMining = some m ∧
      s.myMachineValidating = some v ∧ c.key = some s.key_block ∧ c.flags = s.flags ∧
      m.flags = s.flags ∧ v.flags = s.flags

/-- The contract of `progpow::verify` that the test `progpow_hash_and_verify` asserts
(`progpow_tests.cpp`, lines 74-92): for the result of `progpow::hash`, the mix hash is
accepted with the final hash as boundary, rejected with the boundary one lower, and
another mix hash is rejected. -/
def TestedVerifyContract {Ctx : Type} (lib : ProgPowLib Ctx) : Prop :=
  ∀ (ctx : Ctx) (nHeight header_hash nonce : Nat),
    lib.verify ctx nHeight header_hash (lib.hash ctx nHeight header_hash nonce).mix_hash nonce
        (lib.hash ctx nHeight header_hash nonce).final_hash = true ∧
      (1 ≤ (lib.hash ctx nHeight header_hash nonce).final_hash →
        lib.verify ctx nHeight header_hash (lib.hash ctx nHeight header_hash nonce).mix_hash
          nonce ((lib.hash ctx nHeight header_hash nonce).final_hash - 1) = false) ∧
      (∀ mix, mix ≠ (lib.hash ctx nHeight header_hash nonce).mix_hash →
        lib.verify ctx nHeight header_hash mix nonce
          (lib.hash ctx nHeight header_hash nonce).final_hash = false)

/-- The contract of `progpow::verify` as a boundary check: a mix hash is accepted
exactly when it is the one `progpow::hash` produces and the final hash is not above the
boundary. -/
def BoundaryVerifyContract {Ctx : Type} (lib : ProgPowLib Ctx) : Prop :=
  ∀ (ctx : Ctx) (nHeight header_hash mix nonce boundary : Nat),
    lib.verify ctx nHeight header_hash mix nonce boundary = true ↔
      (mix = (lib.hash ctx nHeight header_hash nonce).mix_hash ∧
        (lib.hash ctx nHeight header_hash nonce).final_hash ≤ boundary)

/-- The height of the key block `GetKeyBlock` selects for a height of at least one
period: the start of the period past the switch window, the start of the period before
otherwise. -/
def keyBlockHeight (h : Nat) : Nat :=
  if h > (h - h % KEY_CHANGE) + SWITCH_KEY then h - h % KEY_CHANGE
  else h - h % KEY_CHANGE - KEY_CHANGE

/-- The resources of the RandomX library that are live: the handles the allocator has
handed out and that were not passed to `randomx_destroy_vm` or `randomx_release_cache`
since, in the order of their allocation. -/
def liveHandles (s : KeyCacheState) : List Nat :=
  (List.range s.nextHandle).filter fun h => decide (h ∉ s.destroyed)

/-- The epoch numbers handed to `ethash::create_epoch_context` over successive calls of
`CheckProgProofOfWork`, each call given by its header and its compact target, first call
first. Nothing passes from one call to the next: `context` is a local of the function. -/
def epochContextsCreated {Ctx : Type} (lib : ProgPowLib Ctx) (params : Consensus.Params) :
    List (CBlockHeader × Nat) → List Nat
  | [] => []
  | call :: calls =>
    (CheckProgProofOfWork lib call.1 call.2 params).2 ++ epochContextsCreated lib params calls

/-! ## The LRU cache of `veil/zerocoin/lrucache.h` -/

/-- A node of the `std::list` `cacheItemsList`: the address of the node, which is what a
`list_iterator_t` pointing to it holds, and the pair stored in it. -/
structure ListNode (K V : Type) where
  addr : Nat
  first : K
  second : V
deriving DecidableEq, Repr

/-- The class template `CLRUCache` of `lrucache.h`, lines 35-150: the list of the pairs,
front first, the `std::unordered_map` from a key to the iterator of its node, given by
its entries, and the maximal size; `nextAddr` is the address at which the allocator
places the next node of the list. -/
structure CLRUCache (K V : Type) where
  cacheItemsList : List (ListNode K V)
  cacheItemsMap : List (K × Nat)
  maxSize : Nat
  nextAddr : Nat
deriving DecidableEq, Repr

/-- The outcome of `Get`: the `std::range_error` it throws, or the value the reference it
returns points to. -/
inductive GetOutcome (V : Type) where
  | range_error
  | value (v : V)
deriving DecidableEq, Repr

/-- The call `std::unordered_map::find(key)`: the iterator stored for the key, `none`
for `end()`. -/
def map_find {K : Type} [DecidableEq K] (m : List (K × Nat)) (key : K) : Option Nat :=
  (m.find? fun e => decide (e.1 = key)).map Prod.snd

/-- The call `std::unordered_map::erase` of the entry of a key. -/
def map_erase {K : Type} [DecidableEq K] (m : List (K × Nat)) (key : K) : List (K × Nat) :=
  m.filter fun e => decide (e.1 ≠ key)

/-- The assignment `m[key] = it` of `std::unordered_map`: the entry of the key is
overwritten when there is one and inserted otherwise. -/
def map_assign {K : Type} [DecidableEq K] (m : List (K × Nat)) (key : K) (it : Nat) :
    List (K × Nat) :=
  if (map_find m key).isSome then m.map fun e => if e.1 = key then (key, it) else e
  else (key, it) :: m

/-- The node an iterator of the list points to; `none` when no node of the list has
that address (dereferencing it is undefined behaviour). -/
def list_deref {K V : Type} (l : List (ListNode K V)) (it : Nat) : Option (ListNode K V) :=
  l.find? fun n => decide (n.addr = it)

/-- The call `std::list::erase(it)`: the node the iterator points to is unlinked; `none`
when the iterator points to no node of the list. -/
def list_erase {K V : Type} (l : List (ListNode K V)) (it : Nat) :
    Option (List (ListNode K V)) :=
  (list_deref l it).map fun _ => l.filter fun n => decide (n.addr ≠ it)

/-- The call `l.splice(l.begin(), l, it)`: the node the iterator points to is moved to the
front, at its address; `none` when the iterator points to no node of the list. -/
def list_splice {K V : Type} (l : List (ListNode K V)) (it : Nat) :
    Option (List (ListNode K V)) :=
  (list_deref l it).map fun n => n :: l.filter fun x => decide (x.addr ≠ it)

/-- The constructor `CLRUCache(size_t max_size)`, lines 42-44. The default constructor of
lines 45-48, which calls `SetNull`, leaves the same cache with `max_size = 0`. -/
def CLRUCache.new {K V : Type} (max_size : Nat) : CLRUCache K V :=
  { cacheItemsList := [], cacheItemsMap := [], maxSize := max_size, nextAddr := 0 }

/-- The member `Put`, lines 50-68; `none` is undefined behaviour (an iterator that points
to no node is used). -/
def CLRUCache.Put {K V : Type} [DecidableEq K] (c : CLRUCache K V) (key : K) (value : V) :
    Option (CLRUCache K V) :=
  let it := map_find c.cacheItemsMap key
  let cacheItemsList := { addr := c.nextAddr, first := key, second := value } :: c.cacheItemsList
  let erased : Option (List (ListNode K V) × List (K × Nat)) :=
    match it with
    | some second =>
      (list_erase cacheItemsList second).map fun l => (l, map_erase c.cacheItemsMap key)
    | none => some (cacheItemsList, c.cacheItemsMap)
  erased.bind fun lm =>
    lm.1.head?.bind fun begin =>
      let cacheItemsMap := map_assign lm.2 key begin.addr
      if cacheItemsMap.length > c.maxSize then
        lm.1.getLast?.map fun last =>
          { cacheItemsList := lm.1.dropLast, cacheItemsMap := map_erase cacheItemsMap last.first,
            maxSize := c.maxSize, nextAddr := c.nextAddr + 1 }
      else
        some { cacheItemsList := lm.1, cacheItemsMap := cacheItemsMap, maxSize := c.maxSize,
               nextAddr := c.nextAddr + 1 }

/-- The member `Erase`, lines 70-78. -/
def CLRUCache.Erase {K V : Type} [DecidableEq K] (c : CLRUCache K V) (key : K) :
    Option (CLRUCache K V) :=
  match map_find c.cacheItemsMap key with
  | some second =>
    (list_erase c.cacheItemsList second).map fun l =>
      { c with cacheItemsList := l, cacheItemsMap := map_erase c.cacheItemsMap key }
  | none => some c

/-- The member `Get`, lines 80-92: the outcome and the cache afterwards; `none` is
undefined behaviour. -/
def CLRUCache.Get {K V : Type} [DecidableEq K] (c : CLRUCache K V) (key : K) :
    Option (GetOutcome V × CLRUCache K V) :=
  match map_find c.cacheItemsMap key with
  | none => some (GetOutcome.range_error, c)
  | some second =>
    (list_splice c.cacheItemsList second).bind fun l =>
      (list_deref l second).map fun n =>
        (GetOutcome.value n.second, { c with cacheItemsList := l })

/-- The member `Exists`, lines 94-97. -/
def CLRUCache.Exists {K V : Type} [DecidableEq K] (c : CLRUCache K V) (key : K) : Bool :=
  (map_find c.cacheItemsMap key).isSome

/-- The member `Size`, lines 99-102. -/
def CLRUCache.Size {K V : Type} (c : CLRUCache K V) : Nat := c.cacheItemsMap.length

/-- The member `Clear`, lines 105-109. -/
def CLRUCache.Clear {K V : Type} (c : CLRUCache K V) : CLRUCache K V :=
  { c with cacheItemsMap := [], cacheItemsList := [] }

/-- The member `SetNull`, lines 111-115. -/
def CLRUCache.SetNull {K V : Type} (c : CLRUCache K V) : CLRUCache K V :=
  CLRUCache.Clear { c with maxSize := 0 }

/-- The member `MaxSize`, lines 117-120. -/
def CLRUCache.MaxSize {K V : Type} (c : CLRUCache K V) : Nat := c.maxSize

/-- The member `SetSize`, lines 123-126. -/
def CLRUCache.SetSize {K V : Type} (c : CLRUCache K V) (size : Nat) : CLRUCache K V :=
  { c with maxSize := size }

/-- The nodes the copy assignment of `std::list` allocates: the pairs of the source in
order, each in a node of its own, at the addresses from `addr` on. -/
def list_copy {K V : Type} (addr : Nat) : List (ListNode K V) → List (ListNode K V)
  | [] => []
  | n :: l => { n with addr := addr } :: list_copy (addr + 1) l

/-- The copy constructor `CLRUCache(const CLRUCache& cache)`, lines 139-144. The list is
copied into new nodes; the nodes of the source stay allocated, so the new ones lie at
other addresses, from `cache.nextAddr` on. The map is copied entry by entry: the
iterators it holds are those of the source, the addresses of the nodes of the source. -/
def CLRUCache.copy {K V : Type} (cache : CLRUCache K V) : CLRUCache K V :=
  { cacheItemsList := list_copy cache.nextAddr cache.cacheItemsList
    cacheItemsMap := cache.cacheItemsMap
    maxSize := cache.maxSize
    nextAddr := cache.nextAddr + cache.cacheItemsList.length }

/-! ## Notions the claims about the LRU cache are stated with -/

/-- The calls a user makes on a cache. -/
inductive CacheOp (K V : Type) where
  | put (key : K) (value : V)
  | get (key : K)
  | erase (key : K)
  | clear
  | setNull
  | setSize (size : Nat)
deriving DecidableEq, Repr

/-- The effect of one call on the cache; the exception `Get` throws for an absent key is
caught by the caller and leaves the cache as it was. -/
def CacheOp.run {K V : Type} [DecidableEq K] (c : CLRUCache K V) :
    CacheOp K V → Option (CLRUCache K V)
  | .put key value => c.Put key value
  | .get key => (c.Get key).map Prod.snd
  | .erase key => c.Erase key
  | .clear => some c.Clear
  | .setNull => some c.SetNull
  | .setSize size => some (c.SetSize size)

/-- The effect of a sequence of calls, first to last. -/
def runCacheOps {K V : Type} [DecidableEq K] :
    List (CacheOp K V) → CLRUCache K V → Option (CLRUCache K V)
  | [], c => some c
  | op :: ops, c => (op.run c).bind (runCacheOps ops)

/-- Whether a call is a `Put` or a `Get` of the key. -/
def CacheOp.uses {K V : Type} [DecidableEq K] (key : K) : CacheOp K V → Bool
  | .put k _ => decide (k = key)
  | .get k => decide (k = key)
  | _ => false

/-- The time of the last `Put` or `Get` of a key in a sequence of calls: the position of
that call, counted from 1; `0` when the key was never put or got. -/
def lastUse {K V : Type} [DecidableEq K] (ops : List (CacheOp K V)) (key : K) : Nat :=
  (ops.reverse.dropWhile fun op => !op.uses key).length

/-- The node of the list that stores a key, the first one from the front. -/
def nodeOf {K V : Type} [DecidableEq K] (l : List (ListNode K V)) (key : K) :
    Option (ListNode K V) :=
  l.find? fun n => decide (n.first = key)

/-- The class invariant of `CLRUCache`: the nodes of the list lie at different addresses
below the next free one and store different keys, the map has one entry for each key, and
it maps every key to the iterator of the node of the list that stores the key. -/
def CLRUCache.WF {K V : Type} [DecidableEq K] (c : CLRUCache K V) : Prop :=
  (c.cacheItemsList.map ListNode.addr).Nodup ∧
    (c.cacheItemsList.map ListNode.first).Nodup ∧
    (c.cacheItemsMap.map Prod.fst).Nodup ∧
    (∀ key, map_find c.cacheItemsMap key = (nodeOf c.cacheItemsList key).map ListNode.addr) ∧
    ∀ n ∈ c.cacheItemsList, n.addr < c.nextAddr

/-- The list is in the order of use: a node nearer to the front stores a key whose last
`Put` or `Get` is later, and every key stored was put or got. -/
def RecencyOrdered {K V : Type} [DecidableEq K] (ops : List (CacheOp K V))
    (l : List (ListNode K V)) : Prop :=
  l.Pairwise (fun a b => lastUse ops b.first < lastUse ops a.first) ∧
    ∀ n ∈ l, 0 < lastUse ops n.first

/-- The list `Put` leaves, in terms of the keys stored: a node for the pair in front of
the nodes of the other keys, without the last node when they are more than `maxSize`. -/
def putList {K V : Type} [DecidableEq K] (l : List (ListNode K V)) (addr : Nat) (key : K)
    (value : V) (maxSize : Nat) : List (ListNode K V) :=
  if (l.filter fun n => decide (n.first ≠ key)).length + 1 > maxSize then
    ({ addr := addr, first := key, second := value } ::
      l.filter fun n => decide (n.first ≠ key)).dropLast
  else { addr := addr, first := key, second := value } :: l.filter fun n => decide (n.first ≠ key)

/-! ## The precomputer of `veil/zerocoin/precompute.cpp` -/

/-- Whether an integer is a value of `int`. -/
def inInt32 (x : Int) : Bool := decide (-(2 ^ 31) ≤ x) && decide (x < 2 ^ 31)

def DEFAULT_PRECOMPUTE_BPC : Int := 100

def MIN_PRECOMPUTE_BPC : Int := 100

def MAX_PRECOMPUTE_BPC : Int := 2000

/-- The class `Precompute` of `precompute.h`, lines 23-43: the member the accessors of
the blocks per cycle read and write. The thread group and the witness cache play no part
in them. -/
structure Precompute where
  nBlocksPerCycle : Int
deriving DecidableEq, Repr

/-- The constructor `Precompute()` of `precompute.cpp`, lines 18-28, which calls
`SetNull`. -/
def Precompute.new : Precompute := { nBlocksPerCycle := DEFAULT_PRECOMPUTE_BPC }

/-- The member `SetBlocksPerCycle` of `precompute.cpp`, lines 75-90. `%` on `int`
truncates toward zero; `none` is an overflow of `int`. -/
def Precompute.SetBlocksPerCycle (p : Precompute) (nNewBlockPerCycle : Int) :
    Option Precompute :=
  let nBlocksPerCycle := nNewBlockPerCycle
  let nBlocksPerCycle :=
    if nBlocksPerCycle.tmod 10 ≠ 0 then nBlocksPerCycle - nBlocksPerCycle.tmod 10
    else nBlocksPerCycle
  if !inInt32 nBlocksPerCycle then none
  else
    let nBlocksPerCycle :=
      if nBlocksPerCycle < MIN_PRECOMPUTE_BPC then MIN_PRECOMPUTE_BPC else nBlocksPerCycle
    let nBlocksPerCycle :=
      if nBlocksPerCycle > MAX_PRECOMPUTE_BPC then MAX_PRECOMPUTE_BPC else nBlocksPerCycle
    some { p with nBlocksPerCycle := nBlocksPerCycle }

/-- The member `GetBlocksPerCycle` of `precompute.cpp`, lines 92-95. -/
def Precompute.GetBlocksPerCycle (p : Precompute) : Int := p.nBlocksPerCycle

/-- An integer rounded toward zero to a multiple of 10. -/
def roundTowardZero10 (n : Int) : Int := 10 * n.tdiv 10

/-! ## Concrete libraries, chains and parameters used to instantiate the theorems -/

/-- A ProgPow library whose `verify` accepts everything. -/
def acceptingProgPow : ProgPowLib Unit :=
  { get_epoch_number := fun nHeight => nHeight / 7500
    create_epoch_context := fun _ => ()
    epoch_number := fun _ => 0
    hash := fun _ _ header_hash nonce => { mix_hash := header_hash, final_hash := nonce }
    verify := fun _ _ _ _ _ _ => true }

/-- A RandomX library whose hash is the single byte `0`. -/
def zeroRandomX : RandomXLib :=
  { randomx_get_flags := 3
    randomx_calculate_hash := fun _ _ => [0] }

/-- A proof-of-work block index with target `0x1d00ffff`. -/
def powBlock (nHeight nTime : Nat) : CBlockIndex :=
  { nHeight := nHeight, nTime := nTime, nBits := 0x1d00ffff, IsProofOfStake := false,
    IsProgProofOfWork := false, GetBlockHash := 500 + nHeight }

/-- Parameters with `powLimit = 0xffff * 2 ^ 224`, both spacings equal. -/
def testParams (nDgwPastBlocks : Nat) (spacing : Int) : Consensus.Params :=
  { powLimit := 0xffff * 2 ^ 224, fPowNoRetargeting := false,
    nDgwPastBlocks := nDgwPastBlocks, nPowTargetSpacing := spacing,
    nProgPowTargetSpacing := spacing }

/-- A RandomX library whose hash buffer is 32 bytes `0xff`. -/
def onesRandomX : RandomXLib :=
  { randomx_get_flags := 3
    randomx_calculate_hash := fun _ _ => List.replicate 32 0xff }

/-- The value of a character as a hexadecimal digit, if it is one. -/
def hexDigit (c : Nat) : Option Nat :=
  if 48 ≤ c ∧ c ≤ 57 then some (c - 48)
  else if 97 ≤ c ∧ c ≤ 102 then some (c - 87)
  else if 65 ≤ c ∧ c ≤ 70 then some (c - 55)
  else none

/-- The number spelt by the leading hexadecimal digits of a buffer, continuing `acc`. -/
def parseHexFrom : List Nat → Nat → Nat
  | [], acc => acc
  | c :: cs, acc =>
    match hexDigit c with
    | some d => parseHexFrom cs ((acc * 16 + d) % 2 ^ 256)
    | none => acc

/-- A reader of a buffer as a hexadecimal string: the number its leading hexadecimal
digits spell, kept in 256 bits. -/
def parseHexPrefix (buf : List Nat) : Nat := parseHexFrom buf 0

/-- An active chain of `n` proof-of-work blocks, genesis first, the block at height `h`
having hash `500 + h`. -/
def ascendingChain (n : Nat) : List CBlockIndex :=
  (List.range n).map fun h => powBlock h (1000 + h)

/-- A ProgPow library whose `verify` accepts a mix hash only with the final hash itself
as boundary. -/
def exactProgPow : ProgPowLib Unit :=
  { get_epoch_number := fun nHeight => nHeight / 7500
    create_epoch_context := fun _ => ()
    epoch_number := fun _ => 0
    hash := fun _ _ header_hash nonce => { mix_hash := header_hash, final_hash := nonce }
    verify := fun _ _ header_hash mix nonce boundary =>
      decide (mix = header_hash) && decide (boundary = nonce) }

/-- The key cache after `InitRandomXLightCache` from process start on the chain of the
one block `powBlock 0 1000`, with the library `zeroRandomX`. -/
def initedState : KeyCacheState :=
  { flags := 3, key_block := 500,
    myCache := some { handle := 0, flags := 3, key := some 500 },
    myMachineMining :=
      some { handle := 1, flags := 3, cache := { handle := 0, flags := 3, key := some 500 } },
    myMachineValidating :=
      some { handle := 2, flags := 3, cache := { handle := 0, flags := 3, key := some 500 } },
    fLightCacheInited := true, current_key_block := 500, nextHandle := 3, destroyed := [] }

/-- The key cache after `DeallocateRandomXLightCache` from `initedState`. -/
def tornDownState : KeyCacheState :=
  { initedState with fLightCacheInited := false, destroyed := [1, 2, 0] }

/-- A ProgPow library whose `verify` accepts the mix hash `progpow::hash` produces
exactly when the final hash is not above the boundary. -/
def boundaryProgPow : ProgPowLib Unit :=
  { get_epoch_number := fun nHeight => nHeight / 7500
    create_epoch_context := fun _ => ()
    epoch_number := fun _ => 0
    hash := fun _ _ header_hash nonce => { mix_hash := header_hash, final_hash := nonce }
    verify := fun _ _ header_hash mix nonce boundary =>
      decide (mix = header_hash) && decide (nonce ≤ boundary) }

/-- A header at height 5. -/
def testHeader : CBlockHeader :=
  { nHeight := 5, nNonce64 := 7, GetProgPowHeaderHash := 11, GetRandomXHeaderHash := 13 }

/-- A cache for two entries after `Put(1, 10)`, `Put(2, 20)` and `Get(1)`: the key `2` is
the least recently used one. -/
def lruDemo : CLRUCache Nat Nat :=
  { cacheItemsList := [{ addr := 0, first := 1, second := 10 },
      { addr := 1, first := 2, second := 20 }],
    cacheItemsMap := [(2, 1), (1, 0)], maxSize := 2, nextAddr := 2 }

/-- A cache for two entries after `Put(1, 10)`. -/
def lruSource : CLRUCache Nat Nat :=
  { cacheItemsList := [{ addr := 0, first := 1, second := 10 }],
    cacheItemsMap := [(1, 0)], maxSize := 2, nextAddr := 1 }

/-- The copy the copy constructor makes of `lruSource`: the pair `(1, 10)` lies in a new
node at address 1, and the map holds for the key `1` the iterator of the node of the
source, at address 0. -/
def lruCopy : CLRUCache Nat Nat := CLRUCache.copy lruSource

/-! ## The range check shared by the three verifiers -/

/-- The range check of lines 196, 218 and 286 fires exactly on the words that are
not valid. -/
theorem range_check_eq (nBits powLimit : Nat) :
    ((SetCompact nBits).fNegative || decide ((SetCompact nBits).bnTarget = 0) ||
      (SetCompact nBits).fOverflow ||
      decide ((SetCompact nBits).bnTarget > UintToArith256 powLimit)) =
    !is_valid nBits powLimit := by
  unfold is_valid
  cases (SetCompact nBits).fNegative <;> cases (SetCompact nBits).fOverflow <;>
    by_cases h0 : (SetCompact nBits).bnTarget = 0 <;>
    by_cases h1 : (SetCompact nBits).bnTarget ≤ UintToArith256 powLimit <;>
    (simp [h0, h1]; try omega)

/-- The words the claims call invalid are those `is_valid` rejects. -/
theorem is_valid_eq_false_iff (nBits powLimit : Nat) :
    is_valid nBits powLimit = false ↔
      ((SetCompact nBits).fNegative = true ∨ (SetCompact nBits).fOverflow = true ∨
        (SetCompact nBits).bnTarget = 0 ∨
        (SetCompact nBits).bnTarget > UintToArith256 powLimit) := by
  unfold is_valid
  cases (SetCompact nBits).fNegative <;> cases (SetCompact nBits).fOverflow <;>
    by_cases h0 : (SetCompact nBits).bnTarget = 0 <;>
    by_cases h1 : (SetCompact nBits).bnTarget ≤ UintToArith256 powLimit <;>
    (simp [h0, h1]; try omega)

/-! ## The key block of a non-empty chain -/

theorem toUInt32_Height {chainActive : List CBlockIndex} (hne : chainActive ≠ [])
    (hlen : chainActive.length < 2 ^ 31) :
    toUInt32 (CChain.Height chainActive) = chainActive.length - 1 := by
  have hpos : 0 < chainActive.length := List.length_pos.mpr hne
  unfold toUInt32 CChain.Height
  omega

theorem CChain_at_isSome {chainActive : List CBlockIndex} (hne : chainActive ≠ [])
    (hlen : chainActive.length < 2 ^ 31) (c : Nat)
    (hc : toUInt32 (CChain.Height chainActive) > c) :
    ∃ b, CChain.at chainActive (toInt32 c) = some b := by
  rw [toUInt32_Height hne hlen] at hc
  have h1 : c % 2 ^ 32 = c := Nat.mod_eq_of_lt (by omega)
  have h2 : toInt32 c = (c : Int) := by
    unfold toInt32
    rw [h1, if_pos (by omega)]
  have h3 : c < chainActive.length := by omega
  refine ⟨chainActive[c], ?_⟩
  unfold CChain.at
  rw [h2, if_neg (by omega)]
  simp [h3]

/-- On a non-empty active chain whose height fits an `int`, `GetKeyBlock` returns. -/
theorem GetKeyBlock_returns {chainActive : List CBlockIndex} (hne : chainActive ≠ [])
    (hlen : chainActive.length < 2 ^ 31) (current_key_block nHeight : Nat) :
    ∃ k, GetKeyBlock chainActive current_key_block nHeight = some k := by
  obtain ⟨g, rest, rfl⟩ := List.exists_cons_of_ne_nil hne
  have hgen : ∀ c : Nat, ∃ k, (if c = 0 then
      (CChain.Genesis (g :: rest)).map CBlockIndex.GetBlockHash else some c) = some k := by
    intro c
    by_cases hc : c = 0
    · exact ⟨g.GetBlockHash, by simp [hc, CChain.Genesis]⟩
    · exact ⟨c, by simp [hc]⟩
  unfold GetKeyBlock
  simp only []
  split_ifs with h1 h2 h3
  · obtain ⟨b, hb⟩ := CChain_at_isSome hne hlen _ h2
    rw [hb]
    exact hgen _
  · exact hgen _
  · obtain ⟨b, hb⟩ := CChain_at_isSome hne hlen _ h3
    rw [hb]
    exact hgen _
  · exact hgen _

/-! ## Claims about the verifiers -/

/-- C1: for a valid compact target, `CheckProofOfWork` accepts exactly the hashes
that, read as 256-bit unsigned numbers, are strictly below the decoded target; a hash
equal to the target is rejected. -/
theorem CheckProofOfWork_iff_lt (hash nBits : Nat) (params : Consensus.Params)
    (hvalid : is_valid nBits params.powLimit = true) :
    (CheckProofOfWork hash nBits params = true ↔
        UintToArith256 hash < (SetCompact nBits).bnTarget) ∧
      (UintToArith256 hash = (SetCompact nBits).bnTarget →
        CheckProofOfWork hash nBits params = false) := by
  have hcheck := range_check_eq nBits params.powLimit
  rw [hvalid] at hcheck
  have hrun : CheckProofOfWork hash nBits params =
      decide (UintToArith256 hash < (SetCompact nBits).bnTarget) := by
    unfold CheckProofOfWork
    simp only []
    rw [hcheck]
    simp
  rw [hrun]
  constructor
  · simp
  · intro heq
    simp [heq]

/-- Witness of C1 at the target `0x1d00ffff` with the hash equal to the target. -/
theorem CheckProofOfWork_iff_lt_witness :
    is_valid 0x1d00ffff (0xffff * 2 ^ 208) = true ∧
      ((CheckProofOfWork (0xffff * 2 ^ 208) 0x1d00ffff
            { powLimit := 0xffff * 2 ^ 208, fPowNoRetargeting := false, nDgwPastBlocks := 60,
              nPowTargetSpacing := 120, nProgPowTargetSpacing := 172 } = true ↔
          UintToArith256 (0xffff * 2 ^ 208) < (SetCompact 0x1d00ffff).bnTarget) ∧
        (UintToArith256 (0xffff * 2 ^ 208) = (SetCompact 0x1d00ffff).bnTarget →
          CheckProofOfWork (0xffff * 2 ^ 208) 0x1d00ffff
            { powLimit := 0xffff * 2 ^ 208, fPowNoRetargeting := false, nDgwPastBlocks := 60,
              nPowTargetSpacing := 120, nProgPowTargetSpacing := 172 } = false)) :=
  ⟨by decide, CheckProofOfWork_iff_lt _ _ _ (by decide)⟩

/-- C2: when the compact target decodes as negative, as overflowed, as zero or as a
value above `powLimit`, `CheckProofOfWork` and `CheckProgProofOfWork` return false
and `CheckRandomXProofOfWork` never returns true, whatever the hash, the header, the
libraries and the key cache are; on a non-empty active chain it returns false. -/
theorem verifiers_reject_invalid_target {Ctx : Type} (plib : ProgPowLib Ctx)
    (rlib : RandomXLib) (uint256S : List Nat → Nat) (chainActive : List CBlockIndex)
    (s : KeyCacheState) (hash : Nat) (block : CBlockHeader) (nBits : Nat)
    (params : Consensus.Params)
    (hinvalid : (SetCompact nBits).fNegative = true ∨ (SetCompact nBits).fOverflow = true ∨
      (SetCompact nBits).bnTarget = 0 ∨
      (SetCompact nBits).bnTarget > UintToArith256 params.powLimit) :
    CheckProofOfWork hash nBits params = false ∧
      (CheckProgProofOfWork plib block nBits params).1 = false ∧
      (∀ s', CheckRandomXProofOfWork rlib uint256S chainActive s block nBits params ≠
        some (true, s')) ∧
      (chainActive ≠ [] → chainActive.length < 2 ^ 31 →
        ∃ s', CheckRandomXProofOfWork rlib uint256S chainActive s block nBits params =
          some (false, s')) := by
  have hcheck := range_check_eq nBits params.powLimit
  rw [(is_valid_eq_false_iff nBits params.powLimit).mpr hinvalid] at hcheck
  simp only [Bool.not_false] at hcheck
  refine ⟨?_, ?_, ?_, ?_⟩
  · unfold CheckProofOfWork
    simp only []
    rw [hcheck]
    simp
  · unfold CheckProgProofOfWork
    simp only []
    rw [hcheck]
    simp
  · intro s' h
    unfold CheckRandomXProofOfWork at h
    simp only [] at h
    rw [hcheck] at h
    simp [Option.bind_eq_some] at h
  · intro hne hlen
    unfold CheckRandomXProofOfWork
    simp only []
    rw [hcheck]
    have hinit : ∃ s1, InitRandomXLightCache rlib chainActive s block.nHeight = some s1 := by
      unfold InitRandomXLightCache
      by_cases hi : s.fLightCacheInited = true
      · exact ⟨s, by simp [hi]⟩
      · obtain ⟨k, hk⟩ := GetKeyBlock_returns hne hlen s.current_key_block block.nHeight
        simp [hi, hk]
    obtain ⟨s1, hs1⟩ := hinit
    obtain ⟨k, hk⟩ := GetKeyBlock_returns hne hlen s1.current_key_block block.nHeight
    rw [hs1]
    simp [hk]

/-- Witness of C2 at the compact word `0`, which decodes to zero, with a ProgPow
library that accepts everything and a RandomX hash of zero. -/
theorem verifiers_reject_invalid_target_witness :
    ((SetCompact 0).fNegative = true ∨ (SetCompact 0).fOverflow = true ∨
        (SetCompact 0).bnTarget = 0 ∨
        (SetCompact 0).bnTarget > UintToArith256 (testParams 60 120).powLimit) ∧
      (CheckProofOfWork 0 0 (testParams 60 120) = false ∧
        (CheckProgProofOfWork acceptingProgPow testHeader 0 (testParams 60 120)).1 = false ∧
        (∀ s', CheckRandomXProofOfWork zeroRandomX List.sum [powBlock 0 1000]
            KeyCacheState.start testHeader 0 (testParams 60 120) ≠ some (true, s')) ∧
        ([powBlock 0 1000] ≠ [] → [powBlock 0 1000].length < 2 ^ 31 →
          ∃ s', CheckRandomXProofOfWork zeroRandomX List.sum [powBlock 0 1000]
            KeyCacheState.start testHeader 0 (testParams 60 120) = some (false, s'))) :=
  ⟨by decide, verifiers_reject_invalid_target acceptingProgPow zeroRandomX List.sum
    [powBlock 0 1000] KeyCacheState.start 0 testHeader 0 (testParams 60 120) (by decide)⟩

/-- After `InitRandomXLightCache` and `CheckIfKeyShouldChange` the validating
machine is allocated, provided it was allocated whenever the cache was flagged
initialised before. -/
theorem validating_after_rotation (s : KeyCacheState) (k : Nat)
    (hinit : s.fLightCacheInited = true)
    (hs : s.fLightCacheInited = true → (GetMyMachineValidating s).isSome = true) :
    ∃ vm, GetMyMachineValidating (CheckIfKeyShouldChange s k) = some vm := by
  unfold CheckIfKeyShouldChange
  by_cases hk : k = s.key_block
  · rw [if_neg (by simpa using hk)]
    exact Option.isSome_iff_exists.mp (hs hinit)
  · rw [if_pos hk]
    exact ⟨_, rfl⟩

/-- For a valid compact target, on a non-empty active chain, `CheckRandomXProofOfWork`
returns, and it returns true exactly when the output of `randomx_calculate_hash` on the
validating machine of the key cache, applied to the RandomX hash blob of the header and
passed through `uint256S`, is strictly below the decoded target. -/
theorem CheckRandomXProofOfWork_eq (rlib : RandomXLib) (uint256S : List Nat → Nat)
    (chainActive : List CBlockIndex) (s : KeyCacheState) (block : CBlockHeader) (nBits : Nat)
    (params : Consensus.Params)
    (hvalid : is_valid nBits params.powLimit = true)
    (hne : chainActive ≠ []) (hlen : chainActive.length < 2 ^ 31)
    (hs : s.fLightCacheInited = true → (GetMyMachineValidating s).isSome = true) :
    ∃ r s' vm,
      CheckRandomXProofOfWork rlib uint256S chainActive s block nBits params = some (r, s') ∧
      GetMyMachineValidating s' = some vm ∧
      (r = true ↔
        UintToArith256 (uint256S (rlib.randomx_calculate_hash vm block.GetRandomXHeaderHash)) <
          (SetCompact nBits).bnTarget) := by
  have hcheck := range_check_eq nBits params.powLimit
  rw [hvalid] at hcheck
  simp only [Bool.not_true] at hcheck
  have hinit : ∃ s1, InitRandomXLightCache rlib chainActive s block.nHeight = some s1 ∧
      s1.fLightCacheInited = true ∧ (GetMyMachineValidating s1).isSome = true := by
    by_cases hi : s.fLightCacheInited = true
    · exact ⟨s, by simp [InitRandomXLightCache, hi], hi, hs hi⟩
    · obtain ⟨k, hk⟩ := GetKeyBlock_returns hne hlen s.current_key_block block.nHeight
      have hrun : InitRandomXLightCache rlib chainActive s block.nHeight =
          some (allocateLightCache
            { s with current_key_block := k, key_block := k,
                     flags := rlib.randomx_get_flags }) := by
        simp [InitRandomXLightCache, hi, hk]
      exact ⟨_, hrun, by simp [allocateLightCache],
        by simp [allocateLightCache, GetMyMachineValidating]⟩
  obtain ⟨s1, hs1, hi1, hv1⟩ := hinit
  obtain ⟨k, hk⟩ := GetKeyBlock_returns hne hlen s1.current_key_block block.nHeight
  obtain ⟨vm, hvm⟩ := validating_after_rotation { s1 with current_key_block := k } k hi1
    (fun _ => hv1)
  refine ⟨decide (UintToArith256
      (uint256S (rlib.randomx_calculate_hash vm block.GetRandomXHeaderHash)) <
        (SetCompact nBits).bnTarget),
    CheckIfKeyShouldChange { s1 with current_key_block := k } k, vm, ?_, hvm, ?_⟩
  · unfold CheckRandomXProofOfWork
    simp only []
    rw [hcheck, hs1]
    simp only [Option.some_bind, hk, hvm, Option.map_some', Bool.false_eq_true, if_false]
  · simp

/-- C3 fails on the code at a header whose RandomX hash is 32 bytes `0xff`: line 297
hands the raw buffer to `uint256S`, and whenever `uint256S` reads that buffer as 0, as a
reader of hexadecimal strings does for a buffer without a leading hexadecimal digit,
`CheckRandomXProofOfWork` accepts under every valid target, although the 32 bytes read
as a 256-bit unsigned number are not below the decoded target. -/
theorem CheckRandomXProofOfWork_accepts_unparsed_hash (rlib : RandomXLib)
    (uint256S : List Nat → Nat) (chainActive : List CBlockIndex) (s : KeyCacheState)
    (block : CBlockHeader) (nBits : Nat) (params : Consensus.Params)
    (hvalid : is_valid nBits params.powLimit = true)
    (hne : chainActive ≠ []) (hlen : chainActive.length < 2 ^ 31)
    (hs : s.fLightCacheInited = true → (GetMyMachineValidating s).isSome = true)
    (hbuf : ∀ vm, rlib.randomx_calculate_hash vm block.GetRandomXHeaderHash =
      List.replicate 32 0xff)
    (hparse : uint256S (List.replicate 32 0xff) = 0) :
    (∃ s', CheckRandomXProofOfWork rlib uint256S chainActive s block nBits params =
        some (true, s')) ∧
      ¬ (bytesToUint256 (List.replicate 32 0xff) < (SetCompact nBits).bnTarget) := by
  have hv := hvalid
  simp only [is_valid, Bool.and_eq_true, decide_eq_true_eq] at hv
  obtain ⟨⟨-, hnz⟩, hle⟩ := hv
  constructor
  · obtain ⟨r, s', vm, hrun, -, hiff⟩ :=
      CheckRandomXProofOfWork_eq rlib uint256S chainActive s block nBits params hvalid hne
        hlen hs
    have hr : r = true := by
      rw [hiff, hbuf vm, hparse]
      unfold UintToArith256
      omega
    subst hr
    exact ⟨s', hrun⟩
  · have hval : bytesToUint256 (List.replicate 32 0xff) = 2 ^ 256 - 1 := by decide
    have hlt : UintToArith256 params.powLimit < 2 ^ 256 := Nat.mod_lt _ (by positivity)
    rw [hval]
    omega

/-- Witness of the failure of C3 on a one-block chain from process start, with a reader
of hexadecimal strings for `uint256S`. -/
theorem CheckRandomXProofOfWork_accepts_unparsed_hash_witness :
    is_valid 0x1d00ffff (testParams 60 120).powLimit = true ∧ [powBlock 0 1000] ≠ [] ∧
      [powBlock 0 1000].length < 2 ^ 31 ∧
      (KeyCacheState.start.fLightCacheInited = true →
        (GetMyMachineValidating KeyCacheState.start).isSome = true) ∧
      (∀ vm, onesRandomX.randomx_calculate_hash vm testHeader.GetRandomXHeaderHash =
        List.replicate 32 0xff) ∧
      parseHexPrefix (List.replicate 32 0xff) = 0 ∧
      ((∃ s', CheckRandomXProofOfWork onesRandomX parseHexPrefix [powBlock 0 1000]
          KeyCacheState.start testHeader 0x1d00ffff (testParams 60 120) = some (true, s')) ∧
        ¬ (bytesToUint256 (List.replicate 32 0xff) < (SetCompact 0x1d00ffff).bnTarget)) :=
  ⟨by decide, by decide, by decide, by decide, fun _ => rfl, by decide,
    CheckRandomXProofOfWork_accepts_unparsed_hash onesRandomX parseHexPrefix [powBlock 0 1000]
      KeyCacheState.start testHeader 0x1d00ffff (testParams 60 120) (by decide) (by decide)
      (by decide) (by decide) (fun _ => rfl) (by decide)⟩

/-! ## The loop of the retargeter -/

theorem matchingBlocks_cons_of_match {pos prog : Bool} {b : CBlockIndex}
    (pprev : List CBlockIndex) (h : matchesSelectors pos prog b = true) :
    matchingBlocks pos prog (b :: pprev) = b :: matchingBlocks pos prog pprev := by
  simp [matchingBlocks, h]

theorem matchingBlocks_cons_of_not_match {pos prog : Bool} {b : CBlockIndex}
    (pprev : List CBlockIndex) (h : matchesSelectors pos prog b = false) :
    matchingBlocks pos prog (b :: pprev) = matchingBlocks pos prog pprev := by
  simp [matchingBlocks, h]

theorem matchesSelectors_of_bne_pos {pos prog : Bool} {b : CBlockIndex}
    (h : (b.IsProofOfStake != pos) = true) : matchesSelectors pos prog b = false := by
  unfold matchesSelectors
  cases hb : b.IsProofOfStake <;> cases pos <;> simp_all

theorem matchesSelectors_of_bne_prog {pos prog : Bool} {b : CBlockIndex}
    (h : (b.IsProgProofOfWork != prog) = true) : matchesSelectors pos prog b = false := by
  unfold matchesSelectors
  cases hb : b.IsProgProofOfWork <;> cases prog <;> simp_all

theorem matchesSelectors_of_not_bne {pos prog : Bool} {b : CBlockIndex}
    (h1 : ¬ (b.IsProofOfStake != pos) = true) (h2 : ¬ (b.IsProgProofOfWork != prog) = true) :
    matchesSelectors pos prog b = true := by
  unfold matchesSelectors
  cases hb : b.IsProofOfStake <;> cases hc : b.IsProgProofOfWork <;> cases pos <;>
    cases prog <;> simp_all

/-- The loop runs out of blocks when fewer matching blocks are left than are still
to be counted. -/
theorem loop_eq_none (N : Nat) (pos prog : Bool) :
    ∀ (pindex last : List CBlockIndex) (avg count : Nat),
      count + (matchingBlocks pos prog pindex).length < N →
      DarkGravityWave.loop N pos prog pindex last avg count = none := by
  intro pindex
  induction pindex with
  | nil =>
    intro last avg count h
    have hc : count < N := by simpa [matchingBlocks] using h
    simp [DarkGravityWave.loop, hc]
  | cons b pprev ih =>
    intro last avg count h
    have hc : count < N := by omega
    unfold DarkGravityWave.loop
    rw [if_pos hc]
    by_cases h1 : (b.IsProofOfStake != pos) = true
    · rw [if_pos h1]
      rw [matchingBlocks_cons_of_not_match pprev (matchesSelectors_of_bne_pos h1)] at h
      exact ih _ _ _ h
    · rw [if_neg h1]
      by_cases h2 : (b.IsProgProofOfWork != prog) = true
      · rw [if_pos h2]
        rw [matchingBlocks_cons_of_not_match pprev (matchesSelectors_of_bne_prog h2)] at h
        exact ih _ _ _ h
      · rw [if_neg h2]
        rw [matchingBlocks_cons_of_match pprev (matchesSelectors_of_not_bne h1 h2)] at h
        simp only [List.length_cons] at h
        simp only []
        rw [if_pos (by omega)]
        exact ih _ _ _ (by omega)

/-- The loop leaves through its condition when enough matching blocks are left: the
average is the 256-bit running mean of the targets of the next matching blocks, the
loop pointer stops on the last of them, and a matching block has been recorded. -/
theorem loop_eq_some (N : Nat) (pos prog : Bool) :
    ∀ (pindex last : List CBlockIndex) (avg count : Nat),
      count < N → N ≤ count + (matchingBlocks pos prog pindex).length →
      ∃ w, DarkGravityWave.loop N pos prog pindex last avg count = some w ∧
        w.bnPastTargetAvg =
          averageFrom count avg (targetsOf ((matchingBlocks pos prog pindex).take (N - count))) ∧
        (∃ oldest rest, w.pindex = oldest :: rest ∧
          (matchingBlocks pos prog pindex)[N - count - 1]? = some oldest) ∧
        w.pindexLastMatchingProof ≠ [] := by
  intro pindex
  induction pindex with
  | nil =>
    intro last avg count hc h
    simp [matchingBlocks] at h
    omega
  | cons b pprev ih =>
    intro last avg count hc h
    unfold DarkGravityWave.loop
    rw [if_pos hc]
    by_cases h1 : (b.IsProofOfStake != pos) = true
    · rw [if_pos h1]
      rw [matchingBlocks_cons_of_not_match pprev (matchesSelectors_of_bne_pos h1)] at h ⊢
      exact ih _ _ _ hc h
    · rw [if_neg h1]
      by_cases h2 : (b.IsProgProofOfWork != prog) = true
      · rw [if_pos h2]
        rw [matchingBlocks_cons_of_not_match pprev (matchesSelectors_of_bne_prog h2)] at h ⊢
        exact ih _ _ _ hc h
      · rw [if_neg h2]
        rw [matchingBlocks_cons_of_match pprev (matchesSelectors_of_not_bne h1 h2)] at h ⊢
        simp only [List.length_cons] at h
        have hlast : (if last.isEmpty = true then b :: pprev else last) ≠ [] := by
          cases last <;> simp
        simp only []
        by_cases h3 : count + 1 = N
        · rw [if_neg (by simpa using h3)]
          have h4 : N - count = 1 := by omega
          refine ⟨_, rfl, ?_, ⟨b, pprev, rfl, ?_⟩, hlast⟩
          · simp [h4, targetsOf, averageFrom]
          · simp [h4]
        · rw [if_pos h3]
          obtain ⟨w, hw, havg, ⟨oldest, rest, hp, hold⟩, hl⟩ :=
            ih (if last.isEmpty = true then b :: pprev else last)
              (((avg * count % 2 ^ 256 + (SetCompact b.nBits).bnTarget) % 2 ^ 256) / (count + 1))
              (count + 1) (by omega) (by omega)
          refine ⟨w, hw, ?_, ⟨oldest, rest, hp, ?_⟩, hl⟩
          · rw [havg]
            have h4 : N - count = (N - (count + 1)) + 1 := by omega
            rw [h4, List.take_succ_cons]
            simp [targetsOf, averageFrom]
          · have h4 : N - count - 1 = (N - (count + 1) - 1) + 1 := by omega
            rw [h4, List.getElem?_cons_succ]
            exact hold

/-- With too few matching blocks the retargeter falls back to `powLimit`. -/
theorem DarkGravityWave_eq_of_few (pindexLast : List CBlockIndex)
    (params : Consensus.Params) (fProofOfStake fProgPow : Bool)
    (hfew : (matchingBlocks fProofOfStake fProgPow pindexLast).length <
      params.nDgwPastBlocks) :
    DarkGravityWave pindexLast params fProofOfStake fProgPow =
      some (GetCompact (UintToArith256 params.powLimit)) := by
  unfold DarkGravityWave
  rw [loop_eq_none params.nDgwPastBlocks fProofOfStake fProgPow pindexLast [] 0 0
    (by omega)]

/-! ## Claims about the fallbacks of the retargeter -/

/-- C6: with `fPowNoRetargeting` set, `GetNextWorkRequired` returns the compact
encoding of `powLimit` for every non-null tip, every history and both selectors. -/
theorem GetNextWorkRequired_noRetargeting (pindexLast : List CBlockIndex)
    (params : Consensus.Params) (fProofOfStake fProgPow : Bool)
    (hflag : params.fPowNoRetargeting = true) (htip : pindexLast ≠ []) :
    GetNextWorkRequired pindexLast params fProofOfStake fProgPow =
      some (GetCompact (UintToArith256 params.powLimit)) := by
  obtain ⟨b, pprev, rfl⟩ := List.exists_cons_of_ne_nil htip
  simp [GetNextWorkRequired, hflag]

/-- Witness of C6 on a two-block chain. -/
theorem GetNextWorkRequired_noRetargeting_witness :
    ({ testParams 2 60 with fPowNoRetargeting := true } : Consensus.Params).fPowNoRetargeting
        = true ∧
      [powBlock 1 1060, powBlock 0 1000] ≠ [] ∧
      GetNextWorkRequired [powBlock 1 1060, powBlock 0 1000]
          { testParams 2 60 with fPowNoRetargeting := true } false false =
        some (GetCompact (UintToArith256
          ({ testParams 2 60 with fPowNoRetargeting := true } : Consensus.Params).powLimit)) :=
  ⟨rfl, by decide, GetNextWorkRequired_noRetargeting _ _ false false rfl (by decide)⟩

/-- C7: when fewer than `nDgwPastBlocks` blocks reachable from the tip match both
selectors, `DarkGravityWave` returns the compact encoding of `powLimit`, whatever the
targets and timestamps of the blocks are. -/
theorem DarkGravityWave_insufficient_history (pindexLast : List CBlockIndex)
    (params : Consensus.Params) (wantProofOfStake wantProgPow : Bool)
    (hfew : (matchingBlocks wantProofOfStake wantProgPow pindexLast).length <
      params.nDgwPastBlocks) :
    DarkGravityWave pindexLast params wantProofOfStake wantProgPow =
      some (GetCompact (UintToArith256 params.powLimit)) :=
  DarkGravityWave_eq_of_few pindexLast params wantProofOfStake wantProgPow hfew

/-- Witness of C7: two proof-of-work blocks where three are wanted. -/
theorem DarkGravityWave_insufficient_history_witness :
    (matchingBlocks false false [powBlock 1 1060, powBlock 0 1000]).length <
        (testParams 3 60).nDgwPastBlocks ∧
      DarkGravityWave [powBlock 1 1060, powBlock 0 1000] (testParams 3 60) false false =
        some (GetCompact (UintToArith256 (testParams 3 60).powLimit)) :=
  ⟨by decide, DarkGravityWave_insufficient_history _ _ false false (by decide)⟩

/-- C10, as stated, fails: on the chain of two proof-of-work blocks with heights 1
and 0, whose tip height 1 is below `nDgwPastBlocks = 2`, `GetNextWorkRequired`
returns `0x1c7fff80`, not the encoding `0x1f00ffff` of `powLimit`. -/
theorem GetNextWorkRequired_short_chain_counterexample :
    heightsConsistent [powBlock 1 1060, powBlock 0 1000] = true ∧
      (∀ b ∈ [powBlock 1 1060, powBlock 0 1000],
        b.IsProofOfStake = false ∧ b.IsProgProofOfWork = false) ∧
      (powBlock 1 1060).nHeight < (testParams 2 60).nDgwPastBlocks ∧
      (testParams 2 60).fPowNoRetargeting = false ∧
      GetNextWorkRequired [powBlock 1 1060, powBlock 0 1000] (testParams 2 60) false false =
        some 0x1c7fff80 ∧
      GetCompact (UintToArith256 (testParams 2 60).powLimit) = 0x1f00ffff := by
  decide

theorem length_of_heightsConsistent (tip : CBlockIndex) (pprev : List CBlockIndex)
    (h : heightsConsistent (tip :: pprev) = true) : (tip :: pprev).length = tip.nHeight + 1 := by
  simp [heightsConsistent] at h
  simp [h.1]

/-- C10, amended: for every chain made only of (non-ProgPow) proof-of-work blocks
whose tip height plus one, the number of blocks of the chain, is less than
`nDgwPastBlocks`, `GetNextWorkRequired` called with the proof-of-work selector and
retargeting enabled returns the compact encoding of `powLimit`. -/
theorem GetNextWorkRequired_short_chain (tip : CBlockIndex) (pprev : List CBlockIndex)
    (params : Consensus.Params)
    (hheights : heightsConsistent (tip :: pprev) = true)
    (hpow : ∀ b ∈ tip :: pprev, b.IsProofOfStake = false ∧ b.IsProgProofOfWork = false)
    (hshort : tip.nHeight + 1 < params.nDgwPastBlocks)
    (hretarget : params.fPowNoRetargeting = false) :
    GetNextWorkRequired (tip :: pprev) params false false =
      some (GetCompact (UintToArith256 params.powLimit)) := by
  have hlen := length_of_heightsConsistent tip pprev hheights
  have hall : matchingBlocks false false (tip :: pprev) = tip :: pprev := by
    unfold matchingBlocks
    rw [List.filter_eq_self]
    intro b hb
    simp [matchesSelectors, hpow b hb]
  have hfew : (matchingBlocks false false (tip :: pprev)).length < params.nDgwPastBlocks := by
    rw [hall, hlen]
    exact hshort
  simp [GetNextWorkRequired, hretarget,
    DarkGravityWave_eq_of_few (tip :: pprev) params false false hfew]

/-- Witness of C10 amended: two proof-of-work blocks where three are wanted. -/
theorem GetNextWorkRequired_short_chain_witness :
    heightsConsistent [powBlock 1 1060, powBlock 0 1000] = true ∧
      (∀ b ∈ [powBlock 1 1060, powBlock 0 1000],
        b.IsProofOfStake = false ∧ b.IsProgProofOfWork = false) ∧
      (powBlock 1 1060).nHeight + 1 < (testParams 3 60).nDgwPastBlocks ∧
      (testParams 3 60).fPowNoRetargeting = false ∧
      GetNextWorkRequired [powBlock 1 1060, powBlock 0 1000] (testParams 3 60) false false =
        some (GetCompact (UintToArith256 (testParams 3 60).powLimit)) :=
  ⟨by decide, by decide, by decide, by decide,
    GetNextWorkRequired_short_chain (powBlock 1 1060) [powBlock 0 1000] (testParams 3 60)
      (by decide) (by decide) (by decide) (by decide)⟩

/-! ## The compact codec -/

theorem bitsAux_le_fuel : ∀ (fuel x : Nat), bitsAux fuel x ≤ fuel := by
  intro fuel
  induction fuel with
  | zero => intro x; simp [bitsAux]
  | succ f ih =>
    intro x
    unfold bitsAux
    split_ifs
    · omega
    · have := ih (x / 2)
      omega

theorem lt_two_pow_bitsAux : ∀ (fuel x : Nat), x < 2 ^ fuel → x < 2 ^ bitsAux fuel x := by
  intro fuel
  induction fuel with
  | zero => intro x hx; simpa [bitsAux] using hx
  | succ f ih =>
    intro x hx
    unfold bitsAux
    split_ifs with h0
    · simp [h0]
    · have h1 : x / 2 < 2 ^ f := by
        rw [Nat.div_lt_iff_lt_mul (by norm_num)]
        rw [pow_succ] at hx
        exact hx
      have h2 := ih (x / 2) h1
      rw [pow_succ]
      omega

theorem bits_le (x : Nat) : bits x ≤ 256 := bitsAux_le_fuel 256 x

theorem lt_two_pow_bits (x : Nat) (hx : x < 2 ^ 256) : x < 2 ^ bits x :=
  lt_two_pow_bitsAux 256 x hx

/-- The number of bytes `GetCompact` computes covers the magnitude. -/
theorem lt_two_pow_nSize (x : Nat) (hx : x < 2 ^ 256) : x < 2 ^ (8 * ((bits x + 7) / 8)) := by
  have h1 := lt_two_pow_bits x hx
  have h2 : bits x ≤ 8 * ((bits x + 7) / 8) := by omega
  exact lt_of_lt_of_le h1 (Nat.pow_le_pow_right (by norm_num) h2)

theorem and_sign_bit_ne_zero_iff (c : Nat) : c &&& 0x00800000 ≠ 0 ↔ c / 2 ^ 23 % 2 = 1 := by
  have h : (0x00800000 : Nat) = 2 ^ 23 := by norm_num
  rw [h, Nat.and_two_pow, Nat.testBit_to_div_mod]
  by_cases hc : c / 2 ^ 23 % 2 = 1 <;> simp [hc]

/-- The decoder on a word given by its size byte and a 23-bit mantissa. -/
theorem SetCompact_of_size_mantissa (s m : Nat) (hm : m < 2 ^ 23) :
    SetCompact (s * 2 ^ 24 + m) =
      { bnTarget := if s ≤ 3 then m / 2 ^ (8 * (3 - s)) else m * 2 ^ (8 * (s - 3)) % 2 ^ 256
        fNegative := false
        fOverflow := decide ((if s ≤ 3 then m / 2 ^ (8 * (3 - s)) else m) ≠ 0) &&
          (decide (s > 34) ||
            (decide ((if s ≤ 3 then m / 2 ^ (8 * (3 - s)) else m) > 0xff) && decide (s > 33)) ||
            (decide ((if s ≤ 3 then m / 2 ^ (8 * (3 - s)) else m) > 0xffff) &&
              decide (s > 32))) } := by
  have hsize : (s * 2 ^ 24 + m) >>> 24 = s := by
    rw [Nat.shiftRight_eq_div_pow]
    norm_num at hm ⊢
    omega
  have hword : (s * 2 ^ 24 + m) &&& 0x007fffff = m := by
    have h : (0x007fffff : Nat) = 2 ^ 23 - 1 := by norm_num
    rw [h, Nat.and_pow_two_sub_one_eq_mod]
    norm_num at hm ⊢
    omega
  have hsign : ¬ ((s * 2 ^ 24 + m) &&& 0x00800000 ≠ 0) := by
    rw [and_sign_bit_ne_zero_iff]
    norm_num at hm ⊢
    omega
  unfold SetCompact
  simp only [hsize, hword, Nat.shiftRight_eq_div_pow, Nat.shiftLeft_eq, hsign, decide_False,
    Bool.and_false]
  split_ifs <;> rfl

/-- The mantissa `GetCompact` extracts before normalising the sign bit. -/
theorem GetCompact_mantissa (x : Nat) (hx : x < 2 ^ 256) :
    (if (bits x + 7) / 8 ≤ 3 then
        ((x % 2 ^ 64) <<< (8 * (3 - (bits x + 7) / 8))) % 2 ^ 32
      else ((x >>> (8 * ((bits x + 7) / 8 - 3))) % 2 ^ 64) % 2 ^ 32) =
      (if (bits x + 7) / 8 ≤ 3 then x * 2 ^ (8 * (3 - (bits x + 7) / 8))
        else x / 2 ^ (8 * ((bits x + 7) / 8 - 3))) ∧
    (if (bits x + 7) / 8 ≤ 3 then x * 2 ^ (8 * (3 - (bits x + 7) / 8))
        else x / 2 ^ (8 * ((bits x + 7) / 8 - 3))) < 2 ^ 24 := by
  have hn := lt_two_pow_nSize x hx
  generalize (bits x + 7) / 8 = n at hn
  by_cases h3 : n ≤ 3
  · simp only [if_pos h3]
    have h24 : x * 2 ^ (8 * (3 - n)) < 2 ^ 24 := by
      have h : (2 : Nat) ^ 24 = 2 ^ (8 * n) * 2 ^ (8 * (3 - n)) := by
        rw [← pow_add]
        congr 1
        omega
      rw [h]
      exact Nat.mul_lt_mul_of_pos_right hn (by positivity)
    have hx64 : x % 2 ^ 64 = x := by
      apply Nat.mod_eq_of_lt
      exact lt_of_lt_of_le hn (Nat.pow_le_pow_right (by norm_num) (by omega))
    refine ⟨?_, h24⟩
    rw [hx64, Nat.shiftLeft_eq]
    exact Nat.mod_eq_of_lt (lt_trans h24 (by norm_num))
  · simp only [if_neg h3]
    have h24 : x / 2 ^ (8 * (n - 3)) < 2 ^ 24 := by
      rw [Nat.div_lt_iff_lt_mul (by positivity)]
      have h : (2 : Nat) ^ 24 * 2 ^ (8 * (n - 3)) = 2 ^ (8 * n) := by
        rw [← pow_add]
        congr 1
        omega
      rw [h]
      exact hn
    refine ⟨?_, h24⟩
    rw [Nat.shiftRight_eq_div_pow, Nat.mod_eq_of_lt (lt_trans h24 (by norm_num)),
      Nat.mod_eq_of_lt (lt_trans h24 (by norm_num))]

/-- The last steps of `GetCompact`: a 24-bit mantissa with the sign bit set is moved
down one byte and the size is raised by one; the word is the size byte over a 23-bit
mantissa. -/
theorem GetCompact_normalise (c n : Nat) (h24 : c < 2 ^ 24) :
    ∃ s m, ((if decide (c &&& 0x00800000 ≠ 0) = true then c >>> 8 else c) |||
        ((if decide (c &&& 0x00800000 ≠ 0) = true then n + 1 else n) <<< 24)) = s * 2 ^ 24 + m ∧
      m < 2 ^ 23 ∧ ((s = n + 1 ∧ m = c / 2 ^ 8 ∧ m < 2 ^ 16) ∨ (s = n ∧ m = c)) := by
  have hor : ∀ s m : Nat, m < 2 ^ 23 → m ||| (s <<< 24) = s * 2 ^ 24 + m := by
    intro s m hm
    rw [Nat.shiftLeft_eq, Nat.or_comm, Nat.mul_comm s,
      ← Nat.mul_add_lt_is_or (lt_trans hm (by norm_num)) s]
  by_cases hsign : c &&& 0x00800000 ≠ 0
  · have hd := decide_eq_true hsign
    simp only [hd, if_true]
    have hm : c >>> 8 < 2 ^ 16 := by
      rw [Nat.shiftRight_eq_div_pow]
      norm_num at h24 ⊢
      omega
    exact ⟨n + 1, c >>> 8, hor _ _ (lt_trans hm (by norm_num)), lt_trans hm (by norm_num),
      Or.inl ⟨rfl, Nat.shiftRight_eq_div_pow c 8, hm⟩⟩
  · have hd := decide_eq_false hsign
    simp only [hd, Bool.false_eq_true, if_false]
    have hm : c < 2 ^ 23 := by
      rw [and_sign_bit_ne_zero_iff] at hsign
      norm_num at h24 hsign ⊢
      omega
    exact ⟨n, c, hor _ _ hm, hm, Or.inr ⟨rfl, rfl⟩⟩

/-- The encoder yields a size byte of at most 33 and a 23-bit mantissa, which is below
`2 ^ 16` when the size is 33, and the pair stands for a value not above the encoded
magnitude. -/
theorem GetCompact_size_mantissa (x : Nat) (hx : x < 2 ^ 256) :
    ∃ s m, GetCompact x = s * 2 ^ 24 + m ∧ m < 2 ^ 23 ∧ s ≤ 33 ∧ (s = 33 → m < 2 ^ 16) ∧
      compactValue s m ≤ x := by
  obtain ⟨hc0, h24⟩ := GetCompact_mantissa x hx
  have hn : (bits x + 7) / 8 ≤ 32 := by
    have := bits_le x
    omega
  unfold GetCompact
  simp only []
  rw [hc0]
  generalize (bits x + 7) / 8 = n at hn h24
  obtain ⟨s, m, hword, hm, hcase⟩ := GetCompact_normalise _ n h24
  refine ⟨s, m, hword, hm, ?_, ?_, ?_⟩
  · rcases hcase with ⟨hs, -, -⟩ | ⟨hs, -⟩ <;> omega
  · rcases hcase with ⟨-, -, h16⟩ | ⟨hs, -⟩
    · exact fun _ => h16
    · intro h
      omega
  · unfold compactValue
    by_cases h3 : n ≤ 3
    · simp only [if_pos h3] at hcase
      rcases hcase with ⟨hs, hmv, -⟩ | ⟨hs, hmv⟩
      · subst hs hmv
        by_cases h2 : n + 1 ≤ 3
        · rw [if_pos h2]
          have h8 : x * 2 ^ (8 * (3 - n)) = x * 2 ^ (8 * (3 - (n + 1))) * 2 ^ 8 := by
            rw [Nat.mul_assoc, ← pow_add]
            congr 2
            omega
          rw [h8, Nat.mul_div_cancel _ (by positivity), Nat.mul_div_cancel _ (by positivity)]
        · rw [if_neg h2]
          have hn3 : n = 3 := by omega
          subst hn3
          simp only [Nat.sub_self, Nat.mul_zero, pow_zero, Nat.mul_one]
          exact Nat.div_mul_le_self x _
      · subst hs hmv
        rw [if_pos h3, Nat.mul_div_cancel _ (by positivity)]
    · simp only [if_neg h3] at hcase
      rcases hcase with ⟨hs, hmv, -⟩ | ⟨hs, hmv⟩
      · subst hs hmv
        rw [if_neg (by omega), Nat.div_div_eq_div_mul, ← pow_add]
        have h8 : 8 * (n - 3) + 8 = 8 * (n + 1 - 3) := by omega
        rw [h8]
        exact Nat.div_mul_le_self x _
      · subst hs hmv
        rw [if_neg h3]
        exact Nat.div_mul_le_self x _

/-- Decoding an encoded 256-bit magnitude gives a non-negative, non-overflowed target
that does not exceed the magnitude. -/
theorem SetCompact_GetCompact (x : Nat) (hx : x < 2 ^ 256) :
    (SetCompact (GetCompact x)).fNegative = false ∧
      (SetCompact (GetCompact x)).fOverflow = false ∧
      (SetCompact (GetCompact x)).bnTarget ≤ x := by
  obtain ⟨s, m, hc, hm, hs, h33, hv⟩ := GetCompact_size_mantissa x hx
  rw [hc, SetCompact_of_size_mantissa s m hm]
  refine ⟨rfl, ?_, ?_⟩
  · by_cases h3 : s ≤ 3
    · have h34 : ¬ s > 34 := by omega
      have h33' : ¬ s > 33 := by omega
      have h32 : ¬ s > 32 := by omega
      simp [h34, h33', h32]
    · have h34 : ¬ s > 34 := by omega
      have h33' : ¬ s > 33 := by omega
      simp only [if_neg h3, h34, h33', decide_False, Bool.and_false, Bool.or_false,
        Bool.false_or]
      by_cases h32 : s > 32
      · have hm16 := h33 (by omega)
        have : ¬ m > 0xffff := by
          norm_num at hm16 ⊢
          omega
        simp [this]
      · simp [h32]
  · unfold compactValue at hv
    by_cases h3 : s ≤ 3
    · simpa [h3] using hv
    · simp only [if_neg h3] at hv ⊢
      exact le_trans (Nat.mod_le _ _) hv

/-! ## The retarget step -/

/-- The value of `bnNew` after the loop has filled its window: the 256-bit product of
the average and the 32-bit conversion of the clamped timespan, divided by the expected
timespan and capped at `powLimit`. -/
theorem bnNew_eq (tip : CBlockIndex) (pprev : List CBlockIndex) (params : Consensus.Params)
    (fProgPow : Bool) (w : DgwWindow) (oldest : CBlockIndex) (rest : List CBlockIndex)
    (hw : w.pindex = oldest :: rest) (hl : w.pindexLastMatchingProof ≠ [])
    (hE : 0 < expectedTimespan params fProgPow)
    (hrange : expectedTimespan params fProgPow * 3 < 2 ^ 63) :
    DarkGravityWave.bnNew (tip :: pprev) params fProgPow w =
      some (min (UintToArith256 params.powLimit)
        (w.bnPastTargetAvg *
            toUInt32 (clampedTimespan (expectedTimespan params fProgPow) tip oldest) % 2 ^ 256 /
          (expectedTimespan params fProgPow).toNat)) := by
  have hlast : (if (!w.pindexLastMatchingProof.isEmpty) = true then tip :: pprev
      else w.pindexLastMatchingProof) = tip :: pprev := by
    cases hq : w.pindexLastMatchingProof with
    | nil => exact absurd hq hl
    | cons a l => simp
  unfold DarkGravityWave.bnNew
  simp only [hlast, hw]
  unfold expectedTimespan clampedTimespan at *
  generalize (params.nDgwPastBlocks : Int) *
    (if fProgPow = true then params.nProgPowTargetSpacing else params.nPowTargetSpacing) = E
    at hE hrange ⊢
  generalize tip.GetBlockTime - oldest.GetBlockTime = a
  have h1 : inInt64 E = true := by
    simp only [inInt64, Bool.and_eq_true, decide_eq_true_eq]
    constructor <;> omega
  have h2 : inInt64 (E * 3) = true := by
    simp only [inInt64, Bool.and_eq_true, decide_eq_true_eq]
    constructor <;> omega
  have hdiv : Int.tdiv E 3 = E / 3 := Int.tdiv_eq_ediv (by omega) (by norm_num)
  have hdivisor : (E % 2 ^ 64).toNat = E.toNat := by
    rw [Int.emod_eq_of_lt (by omega) (by omega)]
  have hne : ¬ E.toNat = 0 := by omega
  have hclamp : (if (if a < E / 3 then E / 3 else a) > E * 3 then E * 3
      else if a < E / 3 then E / 3 else a) = min (3 * E) (max (E / 3) a) := by
    split_ifs <;> omega
  simp only [h1, h2, hdiv, hdivisor, hne, hclamp, Bool.not_true, Bool.or_self,
    Bool.false_eq_true, if_false]
  congr 1
  split_ifs <;> omega

/-- Whenever the window is full and the expected timespan is a positive `int64_t`
with room for its triple, `DarkGravityWave` returns the encoding of a value capped at
`powLimit`. -/
theorem DarkGravityWave_eq_of_full (pindexLast : List CBlockIndex) (params : Consensus.Params)
    (fProofOfStake fProgPow : Bool)
    (hN : 1 ≤ params.nDgwPastBlocks)
    (hfull : params.nDgwPastBlocks ≤ (matchingBlocks fProofOfStake fProgPow pindexLast).length)
    (hE : 0 < expectedTimespan params fProgPow)
    (hrange : expectedTimespan params fProgPow * 3 < 2 ^ 63) :
    ∃ tip oldest,
      pindexLast.head? = some tip ∧
      (matchingBlocks fProofOfStake fProgPow pindexLast)[params.nDgwPastBlocks - 1]? =
        some oldest ∧
      DarkGravityWave pindexLast params fProofOfStake fProgPow =
        some (GetCompact (min (UintToArith256 params.powLimit)
          (averageFrom 0 0 (targetsOf
              ((matchingBlocks fProofOfStake fProgPow pindexLast).take params.nDgwPastBlocks)) *
            toUInt32 (clampedTimespan (expectedTimespan params fProgPow) tip oldest) % 2 ^ 256 /
          (expectedTimespan params fProgPow).toNat))) := by
  obtain ⟨w, hloop, havg, ⟨oldest, rest, hp, hold⟩, hl⟩ :=
    loop_eq_some params.nDgwPastBlocks fProofOfStake fProgPow pindexLast [] 0 0 (by omega)
      (by omega)
  cases pindexLast with
  | nil =>
    simp [matchingBlocks] at hfull
    omega
  | cons tip pprev =>
    refine ⟨tip, oldest, rfl, by simpa using hold, ?_⟩
    unfold DarkGravityWave
    simp only [hloop, DarkGravityWave.retarget]
    rw [bnNew_eq tip pprev params fProgPow w oldest rest hp hl hE hrange, havg]
    simp

/-! ## Claims about the retarget computation -/

theorem UintToArith256_lt (h : Nat) : UintToArith256 h < 2 ^ 256 :=
  Nat.mod_lt _ (by positivity)

/-- The encoding of a value capped at `powLimit` decodes within the limit. -/
theorem decodesWithinLimit_GetCompact (x powLimit : Nat) (hx : x ≤ UintToArith256 powLimit) :
    decodesWithinLimit (GetCompact x) powLimit := by
  obtain ⟨h1, h2, h3⟩ :=
    SetCompact_GetCompact x (lt_of_le_of_lt hx (UintToArith256_lt powLimit))
  exact ⟨h1, h2, le_trans h3 hx⟩

/-- The retargeter returns a word that decodes within the limit. -/
theorem DarkGravityWave_decodes (pindexLast : List CBlockIndex) (params : Consensus.Params)
    (fProofOfStake fProgPow : Bool) (hN : 1 ≤ params.nDgwPastBlocks)
    (hE : 0 < expectedTimespan params fProgPow)
    (hrange : expectedTimespan params fProgPow * 3 < 2 ^ 63) :
    ∃ c, DarkGravityWave pindexLast params fProofOfStake fProgPow = some c ∧
      decodesWithinLimit c params.powLimit := by
  by_cases hfew : (matchingBlocks fProofOfStake fProgPow pindexLast).length <
      params.nDgwPastBlocks
  · exact ⟨_, DarkGravityWave_eq_of_few pindexLast params fProofOfStake fProgPow hfew,
      decodesWithinLimit_GetCompact _ _ (le_refl _)⟩
  · obtain ⟨tip, oldest, -, -, hrun⟩ :=
      DarkGravityWave_eq_of_full pindexLast params fProofOfStake fProgPow hN (by omega) hE
        hrange
    exact ⟨_, hrun, decodesWithinLimit_GetCompact _ _ (min_le_left _ _)⟩

theorem expectedTimespan_pos (params : Consensus.Params) (fProgPow : Bool)
    (hN : 1 ≤ params.nDgwPastBlocks) (hpow : 0 < params.nPowTargetSpacing)
    (hprog : 0 < params.nProgPowTargetSpacing) : 0 < expectedTimespan params fProgPow := by
  unfold expectedTimespan
  apply Int.mul_pos
  · exact_mod_cast hN
  · cases fProgPow <;> simp [hpow, hprog]

/-- C4: for every tip, history, pair of selectors and parameters with
`nDgwPastBlocks >= 1` and positive target spacings (the tripled expected timespan being
an `int64_t`), `DarkGravityWave` returns a compact word that decodes to a non-negative,
non-overflowed target not above `powLimit`, and so does `GetNextWorkRequired` on a
non-null tip. -/
theorem DarkGravityWave_within_powLimit (pindexLast : List CBlockIndex)
    (params : Consensus.Params) (fProofOfStake fProgPow : Bool)
    (hN : 1 ≤ params.nDgwPastBlocks)
    (hpow : 0 < params.nPowTargetSpacing) (hprog : 0 < params.nProgPowTargetSpacing)
    (hrange : expectedTimespan params fProgPow * 3 < 2 ^ 63) :
    (∃ c, DarkGravityWave pindexLast params fProofOfStake fProgPow = some c ∧
        decodesWithinLimit c params.powLimit) ∧
      (pindexLast ≠ [] →
        ∃ c, GetNextWorkRequired pindexLast params fProofOfStake fProgPow = some c ∧
          decodesWithinLimit c params.powLimit) := by
  have hdgw := DarkGravityWave_decodes pindexLast params fProofOfStake fProgPow hN
    (expectedTimespan_pos params fProgPow hN hpow hprog) hrange
  refine ⟨hdgw, fun htip => ?_⟩
  obtain ⟨b, pprev, rfl⟩ := List.exists_cons_of_ne_nil htip
  by_cases hflag : params.fPowNoRetargeting = true
  · exact ⟨_, by simp [GetNextWorkRequired, hflag],
      decodesWithinLimit_GetCompact _ _ (le_refl _)⟩
  · obtain ⟨c, hc, hdec⟩ := hdgw
    exact ⟨c, by simp [GetNextWorkRequired, hflag, hc], hdec⟩

/-- Witness of C4 on a full window of two blocks. -/
theorem DarkGravityWave_within_powLimit_witness :
    1 ≤ (testParams 2 60).nDgwPastBlocks ∧ 0 < (testParams 2 60).nPowTargetSpacing ∧
      0 < (testParams 2 60).nProgPowTargetSpacing ∧
      expectedTimespan (testParams 2 60) false * 3 < 2 ^ 63 ∧
      ((∃ c, DarkGravityWave [powBlock 1 1060, powBlock 0 1000] (testParams 2 60) false false =
            some c ∧ decodesWithinLimit c (testParams 2 60).powLimit) ∧
        ([powBlock 1 1060, powBlock 0 1000] ≠ [] →
          ∃ c, GetNextWorkRequired [powBlock 1 1060, powBlock 0 1000] (testParams 2 60)
            false false = some c ∧ decodesWithinLimit c (testParams 2 60).powLimit)) :=
  ⟨by decide, by decide, by decide, by decide,
    DarkGravityWave_within_powLimit [powBlock 1 1060, powBlock 0 1000] (testParams 2 60)
      false false (by decide) (by decide) (by decide) (by decide)⟩

/-- While no intermediate sum exceeds 256 bits, the average the loop accumulates is the
running mean. -/
theorem averageFrom_eq_runningMeanFrom :
    ∀ (targets : List Nat) (k mean : Nat), fitsFrom k mean targets = true →
      averageFrom k mean targets = runningMeanFrom k mean targets := by
  intro targets
  induction targets with
  | nil => intro k mean _; rfl
  | cons t ts ih =>
    intro k mean h
    simp only [fitsFrom, Bool.and_eq_true, decide_eq_true_eq] at h
    obtain ⟨hlt, hrest⟩ := h
    have h1 : mean * k % 2 ^ 256 = mean * k :=
      Nat.mod_eq_of_lt (lt_of_le_of_lt (Nat.le_add_right _ _) hlt)
    have h2 : (mean * k + t) % 2 ^ 256 = mean * k + t := Nat.mod_eq_of_lt hlt
    simp only [averageFrom, runningMeanFrom, h1, h2]
    exact ih _ _ hrest

theorem GetBlockTime_nonneg (b : CBlockIndex) : 0 ≤ b.GetBlockTime := by
  unfold CBlockIndex.GetBlockTime
  exact Int.natCast_nonneg _

theorem GetBlockTime_lt (b : CBlockIndex) : b.GetBlockTime < 2 ^ 32 := by
  unfold CBlockIndex.GetBlockTime
  have : b.nTime % 2 ^ 32 < 2 ^ 32 := Nat.mod_lt _ (by positivity)
  exact_mod_cast this

/-- The clamped timespan lies between a third of the expected timespan and its
triple. -/
theorem clampedTimespan_bounds (E : Int) (windowEnd oldest : CBlockIndex) (hE : 0 < E) :
    E / 3 ≤ clampedTimespan E windowEnd oldest ∧ clampedTimespan E windowEnd oldest ≤ 3 * E := by
  unfold clampedTimespan
  omega

/-- The clamped timespan survives the conversion to 32 bits when a third of the expected
timespan does. -/
theorem toUInt32_clampedTimespan (E : Int) (windowEnd oldest : CBlockIndex) (hE : 0 < E)
    (h32 : E / 3 < 2 ^ 32) :
    toUInt32 (clampedTimespan E windowEnd oldest) = (clampedTimespan E windowEnd oldest).toNat := by
  have h1 := GetBlockTime_lt windowEnd
  have h2 := GetBlockTime_nonneg oldest
  have h3 := clampedTimespan_bounds E windowEnd oldest hE
  have h4 : clampedTimespan E windowEnd oldest < 2 ^ 32 := by
    unfold clampedTimespan
    omega
  unfold toUInt32
  rw [Int.emod_eq_of_lt (by omega) h4]

/-- C5, as stated, fails: with one matching block, `nDgwPastBlocks = 1` and a spacing of
`3 * 2 ^ 32` seconds no intermediate value exceeds 256 bits, the clamped timespan is
`2 ^ 32`, and `DarkGravityWave` returns the word `0` where the formula of the claim gives
`0x1c555500`: the timespan is multiplied in as a 32-bit operand. -/
theorem DarkGravityWave_formula_counterexample :
    1 ≤ (testParams 1 (3 * 2 ^ 32)).nDgwPastBlocks ∧
      (testParams 1 (3 * 2 ^ 32)).nDgwPastBlocks ≤
        (matchingBlocks false false [powBlock 0 1000]).length ∧
      fitsFrom 0 0 (targetsOf ((matchingBlocks false false [powBlock 0 1000]).take 1)) = true ∧
      clampedTimespan (expectedTimespan (testParams 1 (3 * 2 ^ 32)) false) (powBlock 0 1000)
        (powBlock 0 1000) = 2 ^ 32 ∧
      runningMean (targetsOf ((matchingBlocks false false [powBlock 0 1000]).take 1)) * 2 ^ 32 <
        2 ^ 256 ∧
      DarkGravityWave [powBlock 0 1000] (testParams 1 (3 * 2 ^ 32)) false false = some 0 ∧
      GetCompact (min (UintToArith256 (testParams 1 (3 * 2 ^ 32)).powLimit)
        (runningMean (targetsOf ((matchingBlocks false false [powBlock 0 1000]).take 1)) *
          2 ^ 32 / (expectedTimespan (testParams 1 (3 * 2 ^ 32)) false).toNat)) = 0x1c555500 := by
  decide

/-- C5, amended: for every history holding at least `N = nDgwPastBlocks >= 1` matching
blocks, provided the expected timespan `E` is positive, its triple is an `int64_t`, a third
of it is below `2 ^ 32`, and no intermediate sum or product exceeds 256 bits,
`DarkGravityWave` returns `encode(min(powLimit, floor(mean * A / E)))`, where `mean` is the
running mean of the decoded targets of the `N` newest matching blocks, `E` is `N` times the
spacing of the selected family and `A` is the time of the tip minus the time of the `N`-th
matching block, clamped to `[E / 3, 3 * E]`. -/
theorem DarkGravityWave_formula (pindexLast : List CBlockIndex) (params : Consensus.Params)
    (wantProofOfStake wantProgPow : Bool) (tip oldest : CBlockIndex)
    (hN : 1 ≤ params.nDgwPastBlocks)
    (htip : pindexLast.head? = some tip)
    (hold : (matchingBlocks wantProofOfStake wantProgPow pindexLast)[params.nDgwPastBlocks - 1]?
      = some oldest)
    (hE : 0 < expectedTimespan params wantProgPow)
    (hrange : expectedTimespan params wantProgPow * 3 < 2 ^ 63)
    (h32 : expectedTimespan params wantProgPow / 3 < 2 ^ 32)
    (hfits : fitsFrom 0 0 (targetsOf
      ((matchingBlocks wantProofOfStake wantProgPow pindexLast).take params.nDgwPastBlocks))
      = true)
    (hprod : runningMean (targetsOf
        ((matchingBlocks wantProofOfStake wantProgPow pindexLast).take params.nDgwPastBlocks)) *
      (clampedTimespan (expectedTimespan params wantProgPow) tip oldest).toNat < 2 ^ 256) :
    DarkGravityWave pindexLast params wantProofOfStake wantProgPow =
      some (GetCompact (min (UintToArith256 params.powLimit)
        (runningMean (targetsOf
            ((matchingBlocks wantProofOfStake wantProgPow pindexLast).take
              params.nDgwPastBlocks)) *
          (clampedTimespan (expectedTimespan params wantProgPow) tip oldest).toNat /
          (expectedTimespan params wantProgPow).toNat))) := by
  have hfull : params.nDgwPastBlocks ≤
      (matchingBlocks wantProofOfStake wantProgPow pindexLast).length := by
    have := (List.getElem?_eq_some_iff.mp hold).1
    omega
  obtain ⟨tip', oldest', htip', hold', hrun⟩ :=
    DarkGravityWave_eq_of_full pindexLast params wantProofOfStake wantProgPow hN hfull hE hrange
  have e1 : tip' = tip := Option.some.inj (htip'.symm.trans htip)
  have e2 : oldest' = oldest := Option.some.inj (hold'.symm.trans hold)
  subst e1 e2
  rw [hrun, toUInt32_clampedTimespan _ _ _ hE h32]
  unfold runningMean at hprod ⊢
  rw [averageFrom_eq_runningMeanFrom _ _ _ hfits, Nat.mod_eq_of_lt hprod]

/-- Witness of C5 amended: two blocks one minute apart, spacing of one minute. -/
theorem DarkGravityWave_formula_witness :
    1 ≤ (testParams 2 60).nDgwPastBlocks ∧
      [powBlock 1 1060, powBlock 0 1000].head? = some (powBlock 1 1060) ∧
      (matchingBlocks false false [powBlock 1 1060, powBlock 0 1000])[
        (testParams 2 60).nDgwPastBlocks - 1]? = some (powBlock 0 1000) ∧
      0 < expectedTimespan (testParams 2 60) false ∧
      expectedTimespan (testParams 2 60) false * 3 < 2 ^ 63 ∧
      expectedTimespan (testParams 2 60) false / 3 < 2 ^ 32 ∧
      fitsFrom 0 0 (targetsOf ((matchingBlocks false false
        [powBlock 1 1060, powBlock 0 1000]).take (testParams 2 60).nDgwPastBlocks)) = true ∧
      runningMean (targetsOf ((matchingBlocks false false
          [powBlock 1 1060, powBlock 0 1000]).take (testParams 2 60).nDgwPastBlocks)) *
        (clampedTimespan (expectedTimespan (testParams 2 60) false) (powBlock 1 1060)
          (powBlock 0 1000)).toNat < 2 ^ 256 ∧
      DarkGravityWave [powBlock 1 1060, powBlock 0 1000] (testParams 2 60) false false =
        some (GetCompact (min (UintToArith256 (testParams 2 60).powLimit)
          (runningMean (targetsOf ((matchingBlocks false false
              [powBlock 1 1060, powBlock 0 1000]).take (testParams 2 60).nDgwPastBlocks)) *
            (clampedTimespan (expectedTimespan (testParams 2 60) false) (powBlock 1 1060)
              (powBlock 0 1000)).toNat /
            (expectedTimespan (testParams 2 60) false).toNat))) :=
  ⟨by decide, by decide, by decide, by decide, by decide, by decide, by decide, by decide,
    DarkGravityWave_formula [powBlock 1 1060, powBlock 0 1000] (testParams 2 60) false false
      (powBlock 1 1060) (powBlock 0 1000) (by decide) (by decide) (by decide) (by decide)
      (by decide) (by decide) (by decide) (by decide)⟩

/-- C8, as stated, fails: with one matching block, `nDgwPastBlocks = 1` and a spacing of
two seconds the expected timespan is 2, a third of it is 0, the clamped timespan is 0 and
the new target is 0 (and so is its compact encoding), while the running mean is
`0xffff * 2 ^ 208`. -/
theorem DarkGravityWave_swing_counterexample :
    1 ≤ (testParams 1 2).nDgwPastBlocks ∧
      (testParams 1 2).nDgwPastBlocks ≤ (matchingBlocks false false [powBlock 0 1000]).length ∧
      (DarkGravityWave.loop 1 false false [powBlock 0 1000] [] 0 0).map
        DgwWindow.bnPastTargetAvg = some (0xffff * 2 ^ 208) ∧
      (DarkGravityWave.loop 1 false false [powBlock 0 1000] [] 0 0).bind
        (DarkGravityWave.bnNew [powBlock 0 1000] (testParams 1 2) false) = some 0 ∧
      DarkGravityWave [powBlock 0 1000] (testParams 1 2) false false = some 0 ∧
      (SetCompact 0).bnTarget = 0 ∧
      ¬ (0xffff * 2 ^ 208 / 3 ≤ 0 + 2 ^ 200) := by
  decide

/-- C8, amended: for every history with at least `nDgwPastBlocks >= 1` matching blocks
(the expected timespan `E` being positive, its triple an `int64_t`), the new target
`DarkGravityWave` computes before compact encoding is at most three times the running
mean; and, provided a third of `E` is below `2 ^ 32` and the product of the mean and the
clamped timespan fits 256 bits, it is at least `min(powLimit, floor(mean * floor(E / 3) /
E))`, which is `min(powLimit, floor(mean / 3))` when `E` is a multiple of 3. -/
theorem DarkGravityWave_swing_bound (pindexLast : List CBlockIndex) (params : Consensus.Params)
    (wantProofOfStake wantProgPow : Bool) (tip oldest : CBlockIndex)
    (hN : 1 ≤ params.nDgwPastBlocks)
    (htip : pindexLast.head? = some tip)
    (hold : (matchingBlocks wantProofOfStake wantProgPow pindexLast)[params.nDgwPastBlocks - 1]?
      = some oldest)
    (hE : 0 < expectedTimespan params wantProgPow)
    (hrange : expectedTimespan params wantProgPow * 3 < 2 ^ 63) :
    ∃ w bnNew,
      DarkGravityWave.loop params.nDgwPastBlocks wantProofOfStake wantProgPow pindexLast [] 0 0 =
        some w ∧
      DarkGravityWave.bnNew pindexLast params wantProgPow w = some bnNew ∧
      bnNew ≤ 3 * w.bnPastTargetAvg ∧
      (expectedTimespan params wantProgPow / 3 < 2 ^ 32 →
        w.bnPastTargetAvg *
          (clampedTimespan (expectedTimespan params wantProgPow) tip oldest).toNat < 2 ^ 256 →
        min (UintToArith256 params.powLimit)
            (w.bnPastTargetAvg * (expectedTimespan params wantProgPow / 3).toNat /
              (expectedTimespan params wantProgPow).toNat) ≤ bnNew ∧
          ((3 : Int) ∣ expectedTimespan params wantProgPow →
            min (UintToArith256 params.powLimit) (w.bnPastTargetAvg / 3) ≤ bnNew)) := by
  have hfull : params.nDgwPastBlocks ≤
      (matchingBlocks wantProofOfStake wantProgPow pindexLast).length := by
    have := (List.getElem?_eq_some_iff.mp hold).1
    omega
  obtain ⟨w, hloop, -, ⟨oldest', rest, hp, hold'⟩, hl⟩ :=
    loop_eq_some params.nDgwPastBlocks wantProofOfStake wantProgPow pindexLast [] 0 0
      (by omega) (by omega)
  have e2 : oldest' = oldest := by
    simp only [Nat.sub_zero] at hold'
    exact Option.some.inj (hold'.symm.trans hold)
  subst e2
  obtain ⟨tip', pprev, rfl⟩ : ∃ t p, pindexLast = t :: p := by
    cases pindexLast with
    | nil => simp at htip
    | cons t p => exact ⟨t, p, rfl⟩
  have e1 : tip' = tip := by simpa using htip
  subst e1
  have hbn := bnNew_eq tip' pprev params wantProgPow w oldest' rest hp hl hE hrange
  refine ⟨w, _, hloop, hbn, ?_, ?_⟩
  · generalize expectedTimespan params wantProgPow = E at hE hrange ⊢
    obtain ⟨hlo, hhi⟩ := clampedTimespan_bounds E tip' oldest' hE
    generalize clampedTimespan E tip' oldest' = A at hlo hhi
    have hEn : 0 < E.toNat := by omega
    have hA : toUInt32 A ≤ 3 * E.toNat := by
      unfold toUInt32
      omega
    calc min (UintToArith256 params.powLimit)
          (w.bnPastTargetAvg * toUInt32 A % 2 ^ 256 / E.toNat)
        ≤ w.bnPastTargetAvg * toUInt32 A % 2 ^ 256 / E.toNat := min_le_right _ _
      _ ≤ w.bnPastTargetAvg * toUInt32 A / E.toNat := Nat.div_le_div_right (Nat.mod_le _ _)
      _ ≤ w.bnPastTargetAvg * (3 * E.toNat) / E.toNat :=
          Nat.div_le_div_right (Nat.mul_le_mul_left _ hA)
      _ = 3 * w.bnPastTargetAvg := by
          rw [← Nat.mul_assoc, Nat.mul_div_cancel _ hEn, Nat.mul_comm]
  · intro h32 hprod
    rw [toUInt32_clampedTimespan _ _ _ hE h32, Nat.mod_eq_of_lt hprod]
    generalize expectedTimespan params wantProgPow = E at hE hrange h32 hprod ⊢
    obtain ⟨hlo, hhi⟩ := clampedTimespan_bounds E tip' oldest' hE
    generalize clampedTimespan E tip' oldest' = A at hlo hhi hprod
    have hEn : 0 < E.toNat := by omega
    have hthird : (E / 3).toNat ≤ A.toNat := by omega
    have hlow : min (UintToArith256 params.powLimit)
        (w.bnPastTargetAvg * (E / 3).toNat / E.toNat) ≤
        min (UintToArith256 params.powLimit) (w.bnPastTargetAvg * A.toNat / E.toNat) :=
      min_le_min_left _ (Nat.div_le_div_right (Nat.mul_le_mul_left _ hthird))
    refine ⟨hlow, fun hdvd => ?_⟩
    obtain ⟨q, hq⟩ := hdvd
    have hq3 : (E / 3).toNat = q.toNat := by omega
    have hEq : E.toNat = q.toNat * 3 := by omega
    have hqpos : 0 < q.toNat := by omega
    have hmean : w.bnPastTargetAvg * (E / 3).toNat / E.toNat = w.bnPastTargetAvg / 3 := by
      rw [hq3, hEq, ← Nat.div_div_eq_div_mul, Nat.mul_div_cancel _ hqpos]
    rw [← hmean]
    exact hlow

/-- Witness of C8 amended: two blocks one minute apart, spacing of one minute. -/
theorem DarkGravityWave_swing_bound_witness :
    1 ≤ (testParams 2 60).nDgwPastBlocks ∧
      [powBlock 1 1060, powBlock 0 1000].head? = some (powBlock 1 1060) ∧
      (matchingBlocks false false [powBlock 1 1060, powBlock 0 1000])[
        (testParams 2 60).nDgwPastBlocks - 1]? = some (powBlock 0 1000) ∧
      0 < expectedTimespan (testParams 2 60) false ∧
      expectedTimespan (testParams 2 60) false * 3 < 2 ^ 63 ∧
      ∃ w bnNew,
        DarkGravityWave.loop (testParams 2 60).nDgwPastBlocks false false
          [powBlock 1 1060, powBlock 0 1000] [] 0 0 = some w ∧
        DarkGravityWave.bnNew [powBlock 1 1060, powBlock 0 1000] (testParams 2 60) false w =
          some bnNew ∧
        bnNew ≤ 3 * w.bnPastTargetAvg ∧
        (expectedTimespan (testParams 2 60) false / 3 < 2 ^ 32 →
          w.bnPastTargetAvg *
            (clampedTimespan (expectedTimespan (testParams 2 60) false) (powBlock 1 1060)
              (powBlock 0 1000)).toNat < 2 ^ 256 →
          min (UintToArith256 (testParams 2 60).powLimit)
              (w.bnPastTargetAvg * (expectedTimespan (testParams 2 60) false / 3).toNat /
                (expectedTimespan (testParams 2 60) false).toNat) ≤ bnNew ∧
            ((3 : Int) ∣ expectedTimespan (testParams 2 60) false →
              min (UintToArith256 (testParams 2 60).powLimit) (w.bnPastTargetAvg / 3) ≤
                bnNew)) :=
  ⟨by decide, by decide, by decide, by decide, by decide,
    DarkGravityWave_swing_bound [powBlock 1 1060, powBlock 0 1000] (testParams 2 60) false
      false (powBlock 1 1060) (powBlock 0 1000) (by decide) (by decide) (by decide)
      (by decide) (by decide)⟩

/-! ## Chains of equally spaced blocks with one target -/

/-- In a chain whose consecutive blocks are `step` apart, the tip is `n * step` later than
the block `n` links below it. -/
theorem nTime_of_spacedBy (step : Nat) :
    ∀ (chain : List CBlockIndex) (tip : CBlockIndex) (pprev : List CBlockIndex) (n : Nat)
      (b : CBlockIndex), chain = tip :: pprev → spacedBy step chain = true → chain[n]? = some b →
      tip.nTime = b.nTime + n * step := by
  intro chain
  induction chain with
  | nil => intro tip pprev n b h; cases h
  | cons a l ih =>
    intro tip pprev n b h hs hb
    cases h
    cases n with
    | zero =>
      simp only [List.getElem?_cons_zero, Option.some.injEq] at hb
      simp [hb]
    | succ m =>
      rw [List.getElem?_cons_succ] at hb
      cases l with
      | nil => simp at hb
      | cons c l' =>
        simp only [spacedBy, Bool.and_eq_true, decide_eq_true_eq] at hs
        have := ih c l' m b rfl hs.2 hb
        rw [hs.1, this]
        ring

/-- The loop average of equal targets is that target while their sum fits 256 bits. -/
theorem averageFrom_replicate (v : Nat) :
    ∀ (n k : Nat), v * (k + n) < 2 ^ 256 → averageFrom k v (List.replicate n v) = v := by
  intro n
  induction n with
  | zero => intro k _; rfl
  | succ m ih =>
    intro k h
    have h1 : v * k + v < 2 ^ 256 := by
      calc v * k + v = v * (k + 1) := by ring
        _ ≤ v * (k + (m + 1)) := Nat.mul_le_mul_left _ (by omega)
        _ < 2 ^ 256 := h
    have h2 : v * k % 2 ^ 256 = v * k :=
      Nat.mod_eq_of_lt (lt_of_le_of_lt (Nat.le_add_right _ _) h1)
    have h3 : (v * k + v) / (k + 1) = v := by
      have : v * k + v = v * (k + 1) := by ring
      rw [this, Nat.mul_div_cancel _ (by omega)]
    simp only [List.replicate_succ, averageFrom, h2, Nat.mod_eq_of_lt h1, h3]
    exact ih (k + 1) (by
      have : k + 1 + m = k + (m + 1) := by omega
      rw [this]
      exact h)

theorem averageFrom_zero_replicate (v n : Nat) (h : v * n < 2 ^ 256) :
    averageFrom 0 0 (List.replicate n v) = v ∨ n = 0 := by
  cases n with
  | zero => exact Or.inr rfl
  | succ m =>
    left
    have h1 : v < 2 ^ 256 := lt_of_le_of_lt (Nat.le_mul_of_pos_right v (by omega)) h
    simp only [List.replicate_succ, averageFrom, Nat.mul_zero, Nat.zero_mod, Nat.zero_add,
      Nat.mod_eq_of_lt h1, Nat.div_one]
    exact averageFrom_replicate v m 1 (by
      have : 1 + m = m + 1 := by omega
      rw [this]
      exact h)

/-- The retarget of a chain of exactly `nDgwPastBlocks >= 2` proof-of-work blocks with one
target `T`, consecutive blocks `r >= 1` spacings apart. -/
theorem DarkGravityWave_uniform (chain : List CBlockIndex) (params : Consensus.Params)
    (T r S : Nat)
    (hN : 2 ≤ params.nDgwPastBlocks) (hlen : chain.length = params.nDgwPastBlocks)
    (hblocks : ∀ b ∈ chain,
      b.IsProofOfStake = false ∧ b.IsProgProofOfWork = false ∧ b.nBits = T)
    (hS : params.nPowTargetSpacing = (S : Int)) (hSpos : 0 < S) (hr : 1 ≤ r)
    (hspaced : spacedBy (r * S) chain = true) (htime : ∀ b ∈ chain, b.nTime < 2 ^ 32)
    (hrange : params.nDgwPastBlocks * S * 3 < 2 ^ 63)
    (hfit : (SetCompact T).bnTarget * (3 * params.nDgwPastBlocks * S) < 2 ^ 256) :
    DarkGravityWave chain params false false =
      some (GetCompact (min (UintToArith256 params.powLimit)
        ((SetCompact T).bnTarget *
          min (r * (params.nDgwPastBlocks - 1)) (3 * params.nDgwPastBlocks) /
          params.nDgwPastBlocks))) := by
  have hall : matchingBlocks false false chain = chain := by
    unfold matchingBlocks
    rw [List.filter_eq_self]
    intro b hb
    simp [matchesSelectors, (hblocks b hb).1, (hblocks b hb).2.1]
  have hEeq : expectedTimespan params false = ((params.nDgwPastBlocks * S : Nat) : Int) := by
    simp [expectedTimespan, hS]
  have hNS : 2 * S ≤ params.nDgwPastBlocks * S := Nat.mul_le_mul_right S hN
  have hE : 0 < expectedTimespan params false := by
    rw [hEeq]
    exact_mod_cast (by omega : 0 < params.nDgwPastBlocks * S)
  have hrange' : expectedTimespan params false * 3 < 2 ^ 63 := by
    rw [hEeq]
    exact_mod_cast hrange
  obtain ⟨tip, oldest, htip, hold, hrun⟩ :=
    DarkGravityWave_eq_of_full chain params false false (by omega) (by rw [hall]; omega) hE
      hrange'
  rw [hall] at hold hrun
  rw [hrun]
  obtain ⟨tip', pprev, rfl⟩ : ∃ t p, chain = t :: p := by
    cases chain with
    | nil => simp at htip
    | cons t p => exact ⟨t, p, rfl⟩
  have e1 : tip' = tip := by simpa using htip
  subst e1
  have htake : (tip' :: pprev).take params.nDgwPastBlocks = tip' :: pprev := by
    rw [← hlen]
    exact List.take_length _
  have htargets : targetsOf (tip' :: pprev) =
      List.replicate params.nDgwPastBlocks (SetCompact T).bnTarget := by
    unfold targetsOf
    rw [List.eq_replicate_iff]
    refine ⟨by simp [← hlen], ?_⟩
    intro t ht
    obtain ⟨b, hb, rfl⟩ := List.mem_map.mp ht
    rw [(hblocks b hb).2.2]
  have hv3 : (SetCompact T).bnTarget * params.nDgwPastBlocks < 2 ^ 256 := by
    refine lt_of_le_of_lt (Nat.mul_le_mul_left _ ?_) hfit
    calc params.nDgwPastBlocks ≤ 3 * params.nDgwPastBlocks := by omega
      _ ≤ 3 * params.nDgwPastBlocks * S := Nat.le_mul_of_pos_right _ hSpos
  have havg : averageFrom 0 0 (targetsOf ((tip' :: pprev).take params.nDgwPastBlocks)) =
      (SetCompact T).bnTarget := by
    rw [htake, htargets]
    rcases averageFrom_zero_replicate _ _ hv3 with h | h
    · exact h
    · omega
  have holdmem : oldest ∈ tip' :: pprev := List.getElem?_mem hold
  have htimes := nTime_of_spacedBy (r * S) (tip' :: pprev) tip' pprev
    (params.nDgwPastBlocks - 1) oldest rfl hspaced hold
  have ht1 := htime tip' (List.mem_cons_self _ _)
  have ht2 := htime oldest holdmem
  have hdiff : tip'.GetBlockTime - oldest.GetBlockTime =
      (((params.nDgwPastBlocks - 1) * (r * S) : Nat) : Int) := by
    unfold CBlockIndex.GetBlockTime
    rw [Nat.mod_eq_of_lt ht1, Nat.mod_eq_of_lt ht2, htimes]
    push_cast
    ring
  have hdge : params.nDgwPastBlocks * S - S ≤ (params.nDgwPastBlocks - 1) * (r * S) := by
    calc params.nDgwPastBlocks * S - S = (params.nDgwPastBlocks - 1) * S := by
          rw [Nat.sub_mul, Nat.one_mul]
      _ ≤ (params.nDgwPastBlocks - 1) * (r * S) :=
          Nat.mul_le_mul_left _ (Nat.le_mul_of_pos_left S hr)
  have hdlt : (params.nDgwPastBlocks - 1) * (r * S) < 2 ^ 32 := by
    have : (params.nDgwPastBlocks - 1) * (r * S) ≤ tip'.nTime := by omega
    omega
  have hclamp : clampedTimespan (expectedTimespan params false) tip' oldest =
      ((min (3 * (params.nDgwPastBlocks * S)) ((params.nDgwPastBlocks - 1) * (r * S)) : Nat)
        : Int) := by
    unfold clampedTimespan
    rw [hdiff, hEeq]
    generalize params.nDgwPastBlocks * S = a at hNS hdge
    generalize (params.nDgwPastBlocks - 1) * (r * S) = d at hdge
    omega
  have hK : min (3 * (params.nDgwPastBlocks * S)) ((params.nDgwPastBlocks - 1) * (r * S)) =
      min (r * (params.nDgwPastBlocks - 1)) (3 * params.nDgwPastBlocks) * S := by
    rw [← Nat.mul_min_mul_right, Nat.min_comm]
    congr 1 <;> ring
  have hu32 : toUInt32 (clampedTimespan (expectedTimespan params false) tip' oldest) =
      min (r * (params.nDgwPastBlocks - 1)) (3 * params.nDgwPastBlocks) * S := by
    rw [hclamp, ← hK]
    unfold toUInt32
    have := Nat.min_le_right (3 * (params.nDgwPastBlocks * S))
      ((params.nDgwPastBlocks - 1) * (r * S))
    omega
  have hprod : (SetCompact T).bnTarget *
      (min (r * (params.nDgwPastBlocks - 1)) (3 * params.nDgwPastBlocks) * S) < 2 ^ 256 := by
    refine lt_of_le_of_lt (Nat.mul_le_mul_left _ ?_) hfit
    exact Nat.mul_le_mul_right S (Nat.min_le_right _ _)
  have hEn : (expectedTimespan params false).toNat = params.nDgwPastBlocks * S := by
    rw [hEeq]
    exact Int.toNat_natCast _
  rw [havg, hu32, Nat.mod_eq_of_lt hprod, hEn, ← Nat.mul_assoc,
    Nat.mul_div_mul_right _ _ hSpos]

/-- C9, as stated, fails: on the chain of exactly `nDgwPastBlocks = 2` proof-of-work
blocks with the valid target `0x1d00ffff`, spaced exactly one `nPowTargetSpacing` of 60
seconds apart (`r = 1`), the retarget output is `0x1c7fff80`, not `0x1d00ffff`: two blocks
span one spacing, half the expected timespan. -/
theorem DarkGravityWave_uniform_chain_counterexample :
    [powBlock 1 1060, powBlock 0 1000].length = (testParams 2 60).nDgwPastBlocks ∧
      (∀ b ∈ [powBlock 1 1060, powBlock 0 1000],
        b.IsProofOfStake = false ∧ b.IsProgProofOfWork = false ∧ b.nBits = 0x1d00ffff) ∧
      is_valid 0x1d00ffff (testParams 2 60).powLimit = true ∧
      (testParams 2 60).nPowTargetSpacing = 60 ∧
      spacedBy (1 * 60) [powBlock 1 1060, powBlock 0 1000] = true ∧
      DarkGravityWave [powBlock 1 1060, powBlock 0 1000] (testParams 2 60) false false =
        some 0x1c7fff80 ∧
      GetNextWorkRequired [powBlock 1 1060, powBlock 0 1000] (testParams 2 60) false false =
        some 0x1c7fff80 := by
  decide

/-- C9, amended: for every chain of exactly `N = nDgwPastBlocks >= 2` proof-of-work blocks
that all carry the same valid compact target `T` and whose consecutive blocks are spaced
exactly `r * nPowTargetSpacing` seconds apart (32-bit timestamps, the tripled expected
timespan an `int64_t`, `T` times it within 256 bits), the retarget output for the
proof-of-work selector is `encode(floor(T * (N - 1) / N))` when `r = 1`,
`encode(min(powLimit, floor(2 * T * (N - 1) / N)))` when `r = 2` and
`encode(min(3 * T, powLimit))` when `r = 10`. -/
theorem DarkGravityWave_uniform_chain (chain : List CBlockIndex) (params : Consensus.Params)
    (T r S : Nat)
    (hN : 2 ≤ params.nDgwPastBlocks) (hlen : chain.length = params.nDgwPastBlocks)
    (hblocks : ∀ b ∈ chain,
      b.IsProofOfStake = false ∧ b.IsProgProofOfWork = false ∧ b.nBits = T)
    (hvalid : is_valid T params.powLimit = true)
    (hS : params.nPowTargetSpacing = (S : Int)) (hSpos : 0 < S)
    (hspaced : spacedBy (r * S) chain = true) (htime : ∀ b ∈ chain, b.nTime < 2 ^ 32)
    (hrange : params.nDgwPastBlocks * S * 3 < 2 ^ 63)
    (hfit : (SetCompact T).bnTarget * (3 * params.nDgwPastBlocks * S) < 2 ^ 256) :
    (r = 1 → DarkGravityWave chain params false false =
        some (GetCompact ((SetCompact T).bnTarget * (params.nDgwPastBlocks - 1) /
          params.nDgwPastBlocks))) ∧
      (r = 2 → DarkGravityWave chain params false false =
        some (GetCompact (min (UintToArith256 params.powLimit)
          (2 * (SetCompact T).bnTarget * (params.nDgwPastBlocks - 1) /
            params.nDgwPastBlocks)))) ∧
      (r = 10 → DarkGravityWave chain params false false =
        some (GetCompact (min (3 * (SetCompact T).bnTarget)
          (UintToArith256 params.powLimit)))) := by
  have hle : (SetCompact T).bnTarget ≤ UintToArith256 params.powLimit := by
    simp only [is_valid, Bool.and_eq_true, decide_eq_true_eq] at hvalid
    exact hvalid.2
  have hNpos : 0 < params.nDgwPastBlocks := by omega
  refine ⟨fun h1 => ?_, fun h2 => ?_, fun h10 => ?_⟩
  · subst h1
    rw [DarkGravityWave_uniform chain params T 1 S hN hlen hblocks hS hSpos (le_refl _)
      hspaced htime hrange hfit]
    have hmin : min (1 * (params.nDgwPastBlocks - 1)) (3 * params.nDgwPastBlocks) =
        params.nDgwPastBlocks - 1 := by omega
    have hsmall : (SetCompact T).bnTarget * (params.nDgwPastBlocks - 1) /
        params.nDgwPastBlocks ≤ UintToArith256 params.powLimit := by
      refine le_trans ?_ hle
      rw [Nat.div_le_iff_le_mul_add_pred hNpos]
      calc (SetCompact T).bnTarget * (params.nDgwPastBlocks - 1)
          ≤ (SetCompact T).bnTarget * params.nDgwPastBlocks :=
            Nat.mul_le_mul_left _ (by omega)
        _ = params.nDgwPastBlocks * (SetCompact T).bnTarget := Nat.mul_comm _ _
        _ ≤ params.nDgwPastBlocks * (SetCompact T).bnTarget + (params.nDgwPastBlocks - 1) :=
            Nat.le_add_right _ _
    rw [hmin, min_eq_right hsmall]
  · subst h2
    rw [DarkGravityWave_uniform chain params T 2 S hN hlen hblocks hS hSpos (by omega)
      hspaced htime hrange hfit]
    have hmin : min (2 * (params.nDgwPastBlocks - 1)) (3 * params.nDgwPastBlocks) =
        2 * (params.nDgwPastBlocks - 1) := by omega
    rw [hmin, ← Nat.mul_assoc, Nat.mul_comm (SetCompact T).bnTarget 2]
  · subst h10
    rw [DarkGravityWave_uniform chain params T 10 S hN hlen hblocks hS hSpos (by omega)
      hspaced htime hrange hfit]
    have hmin : min (10 * (params.nDgwPastBlocks - 1)) (3 * params.nDgwPastBlocks) =
        3 * params.nDgwPastBlocks := by omega
    rw [hmin, ← Nat.mul_assoc, Nat.mul_div_cancel _ hNpos, Nat.mul_comm _ 3, min_comm]

/-- Witness of C9 amended: two blocks ten spacings apart. -/
theorem DarkGravityWave_uniform_chain_witness :
    2 ≤ (testParams 2 60).nDgwPastBlocks ∧
      [powBlock 1 1600, powBlock 0 1000].length = (testParams 2 60).nDgwPastBlocks ∧
      (∀ b ∈ [powBlock 1 1600, powBlock 0 1000],
        b.IsProofOfStake = false ∧ b.IsProgProofOfWork = false ∧ b.nBits = 0x1d00ffff) ∧
      is_valid 0x1d00ffff (testParams 2 60).powLimit = true ∧
      (testParams 2 60).nPowTargetSpacing = ((60 : Nat) : Int) ∧ 0 < 60 ∧
      spacedBy (10 * 60) [powBlock 1 1600, powBlock 0 1000] = true ∧
      (∀ b ∈ [powBlock 1 1600, powBlock 0 1000], b.nTime < 2 ^ 32) ∧
      (testParams 2 60).nDgwPastBlocks * 60 * 3 < 2 ^ 63 ∧
      (SetCompact 0x1d00ffff).bnTarget * (3 * (testParams 2 60).nDgwPastBlocks * 60) < 2 ^ 256 ∧
      ((10 = 1 → DarkGravityWave [powBlock 1 1600, powBlock 0 1000] (testParams 2 60) false
            false =
          some (GetCompact ((SetCompact 0x1d00ffff).bnTarget *
            ((testParams 2 60).nDgwPastBlocks - 1) / (testParams 2 60).nDgwPastBlocks))) ∧
        (10 = 2 → DarkGravityWave [powBlock 1 1600, powBlock 0 1000] (testParams 2 60) false
            false =
          some (GetCompact (min (UintToArith256 (testParams 2 60).powLimit)
            (2 * (SetCompact 0x1d00ffff).bnTarget * ((testParams 2 60).nDgwPastBlocks - 1) /
              (testParams 2 60).nDgwPastBlocks)))) ∧
        (10 = 10 → DarkGravityWave [powBlock 1 1600, powBlock 0 1000] (testParams 2 60) false
            false =
          some (GetCompact (min (3 * (SetCompact 0x1d00ffff).bnTarget)
            (UintToArith256 (testParams 2 60).powLimit))))) :=
  ⟨by decide, by decide, by decide, by decide, by decide, by decide, by decide, by decide,
    by decide, by decide,
    DarkGravityWave_uniform_chain [powBlock 1 1600, powBlock 0 1000] (testParams 2 60)
      0x1d00ffff 10 60 (by decide) (by decide) (by decide) (by decide) (by decide)
      (by decide) (by decide) (by decide) (by decide) (by decide)⟩

/-! ## The lifecycle of the key cache -/

theorem InitRandomXLightCache_inited (lib : RandomXLib) (chainActive : List CBlockIndex)
    (s s1 : KeyCacheState) (height : Nat)
    (h : InitRandomXLightCache lib chainActive s height = some s1) :
    s1.fLightCacheInited = true := by
  unfold InitRandomXLightCache at h
  by_cases hi : s.fLightCacheInited = true
  · rw [if_pos hi] at h
    cases h
    exact hi
  · rw [if_neg hi] at h
    obtain ⟨k, -, rfl⟩ := Option.map_eq_some'.mp h
    rfl

theorem DeallocateRandomXLightCache_not_inited (s : KeyCacheState) :
    (DeallocateRandomXLightCache s).fLightCacheInited = false := by
  unfold DeallocateRandomXLightCache
  cases hi : s.fLightCacheInited <;> simp [hi]

/-- C18: `InitRandomXLightCache` on an initialised key cache and
`DeallocateRandomXLightCache` on a non-initialised one leave every field unchanged;
hence init followed by init is init, and teardown followed by teardown is teardown. -/
theorem key_cache_lifecycle_idempotent (lib : RandomXLib)
    (chainActive chainActive' : List CBlockIndex) (s : KeyCacheState) (height height' : Nat) :
    (s.fLightCacheInited = true →
        InitRandomXLightCache lib chainActive s height = some s) ∧
      (s.fLightCacheInited = false → DeallocateRandomXLightCache s = s) ∧
      (InitRandomXLightCache lib chainActive s height).bind
          (fun s1 => InitRandomXLightCache lib chainActive' s1 height') =
        InitRandomXLightCache lib chainActive s height ∧
      DeallocateRandomXLightCache (DeallocateRandomXLightCache s) =
        DeallocateRandomXLightCache s := by
  refine ⟨fun hi => ?_, fun hi => ?_, ?_, ?_⟩
  · simp [InitRandomXLightCache, hi]
  · simp [DeallocateRandomXLightCache, hi]
  · cases h : InitRandomXLightCache lib chainActive s height with
    | none => rfl
    | some s1 =>
      have hi := InitRandomXLightCache_inited lib chainActive s s1 height h
      simp [InitRandomXLightCache, hi]
  · have hi := DeallocateRandomXLightCache_not_inited s
    generalize DeallocateRandomXLightCache s = t at hi
    simp [DeallocateRandomXLightCache, hi]

theorem HandlesInv_start : HandlesInv KeyCacheState.start := by
  refine ⟨by simp [KeyCacheState.start], fun h => by simp [KeyCacheState.start] at h,
    fun _ => ⟨by simp [KeyCacheState.start], Or.inl ⟨rfl, rfl, rfl⟩⟩⟩

theorem HandlesInv_allocate (t : KeyCacheState) (hinv : HandlesInv t)
    (hi : t.fLightCacheInited = false) : HandlesInv (allocateLightCache t) := by
  obtain ⟨hnd, -, hfree⟩ := hinv
  obtain ⟨hmem, -⟩ := hfree hi
  refine ⟨hnd, fun _ => ⟨_, _, _, ⟨rfl, rfl, rfl, rfl, rfl, rfl, rfl⟩, rfl, hmem⟩,
    fun h => by simp [allocateLightCache] at h⟩

theorem KeyInv_allocate (t : KeyCacheState) : KeyInv (allocateLightCache t) :=
  fun _ => ⟨_, _, _, rfl, rfl, rfl, rfl, rfl, rfl, rfl⟩

theorem HandlesInv_deallocate (s : KeyCacheState) (hinv : HandlesInv s) :
    HandlesInv (DeallocateRandomXLightCache s) := by
  by_cases hi : s.fLightCacheInited = true
  · obtain ⟨hnd, halloc, -⟩ := hinv
    obtain ⟨c, m, v, ⟨hc, hm, hv, hmc, hvc, hmh, hvh⟩, hnext, hmem⟩ := halloc hi
    have hrun : DeallocateRandomXLightCache s =
        { s with destroyed := s.destroyed ++ [m.handle] ++ [v.handle] ++ [c.handle],
                 fLightCacheInited := false } := by
      simp [DeallocateRandomXLightCache, hi, hc, hm, hv, releaseHandle]
    rw [hrun]
    refine ⟨?_, fun h => absurd h Bool.false_ne_true, fun _ => ⟨?_, Or.inr ⟨c, m, v,
      ⟨hc, hm, hv, hmc, hvc, hmh, hvh⟩, by simp only; omega⟩⟩⟩
    · have h1 : m.handle ∉ s.destroyed := fun h => by have := (hmem _).mp h; omega
      have h2 : v.handle ∉ s.destroyed := fun h => by have := (hmem _).mp h; omega
      have h3 : c.handle ∉ s.destroyed := fun h => by have := (hmem _).mp h; omega
      simp only [List.append_assoc, List.singleton_append]
      rw [List.nodup_append]
      refine ⟨hnd, by simp; omega, ?_⟩
      intro a ha hb
      simp only [List.mem_append, List.mem_cons, List.mem_singleton, List.not_mem_nil,
        or_false, or_assoc] at hb
      rcases hb with rfl | rfl | rfl
      · exact h1 ha
      · exact h2 ha
      · exact h3 ha
    · intro h
      simp only [List.append_assoc, List.singleton_append, List.mem_append, List.mem_cons,
        List.mem_singleton, List.not_mem_nil, or_false, hmem]
      omega
  · have hi' : s.fLightCacheInited = false := by simpa using hi
    have hrun : DeallocateRandomXLightCache s = s := by
      simp [DeallocateRandomXLightCache, hi']
    rw [hrun]
    exact hinv

theorem KeyInv_of_not_inited (s : KeyCacheState) (hi : s.fLightCacheInited = false) :
    KeyInv s := fun h => by rw [hi] at h; cases h

/-- The allocator invariant does not read the statics `flags`, `key_block` and
`current_key_block`. -/
theorem HandlesInv_statics (s : KeyCacheState) (f k c : Nat) :
    HandlesInv { s with flags := f, key_block := k, current_key_block := c } ↔ HandlesInv s :=
  Iff.rfl

theorem HandlesInv_KeyBlockChanged (s : KeyCacheState) (k : Nat) (hinv : HandlesInv s) :
    HandlesInv (KeyBlockChanged s k) := by
  unfold KeyBlockChanged
  have h1 : HandlesInv { s with key_block := k } := hinv
  exact HandlesInv_allocate _ (HandlesInv_deallocate _ h1)
    (DeallocateRandomXLightCache_not_inited _)

/-- One operation keeps both invariants. -/
theorem inv_run (lib : RandomXLib) (op : KeyCacheOp) (s s' : KeyCacheState)
    (hH : HandlesInv s) (hK : KeyInv s) (hrun : op.run lib s = some s') :
    HandlesInv s' ∧ KeyInv s' := by
  cases op with
  | init chainActive height =>
    simp only [KeyCacheOp.run, InitRandomXLightCache] at hrun
    by_cases hi : s.fLightCacheInited = true
    · rw [if_pos hi] at hrun
      cases hrun
      exact ⟨hH, hK⟩
    · rw [if_neg hi] at hrun
      obtain ⟨k, -, rfl⟩ := Option.map_eq_some'.mp hrun
      exact ⟨HandlesInv_allocate _ ((HandlesInv_statics s _ _ _).mpr hH) (by simpa using hi),
        KeyInv_allocate _⟩
  | checkIfKeyShouldChange k =>
    simp only [KeyCacheOp.run, CheckIfKeyShouldChange, Option.some.injEq] at hrun
    by_cases hk : k ≠ s.key_block
    · rw [if_pos hk] at hrun
      subst hrun
      exact ⟨HandlesInv_KeyBlockChanged s k hH, KeyInv_allocate _⟩
    · rw [if_neg hk] at hrun
      subst hrun
      exact ⟨hH, hK⟩
  | keyBlockChanged k =>
    simp only [KeyCacheOp.run, Option.some.injEq] at hrun
    subst hrun
    exact ⟨HandlesInv_KeyBlockChanged s k hH, KeyInv_allocate _⟩
  | deallocate =>
    simp only [KeyCacheOp.run, Option.some.injEq] at hrun
    subst hrun
    exact ⟨HandlesInv_deallocate s hH,
      KeyInv_of_not_inited _ (DeallocateRandomXLightCache_not_inited s)⟩
  | getKeyBlock chainActive nHeight =>
    simp only [KeyCacheOp.run] at hrun
    obtain ⟨k, -, rfl⟩ := Option.map_eq_some'.mp hrun
    exact ⟨hH, hK⟩

theorem inv_runOps (lib : RandomXLib) :
    ∀ (ops : List KeyCacheOp) (s s' : KeyCacheState), HandlesInv s → KeyInv s →
      runOps lib ops s = some s' → HandlesInv s' ∧ KeyInv s' := by
  intro ops
  induction ops with
  | nil =>
    intro s s' hH hK hrun
    simp only [runOps, Option.some.injEq] at hrun
    subst hrun
    exact ⟨hH, hK⟩
  | cons op ops ih =>
    intro s s' hH hK hrun
    simp only [runOps] at hrun
    obtain ⟨s1, h1, h2⟩ := Option.bind_eq_some.mp hrun
    obtain ⟨hH1, hK1⟩ := inv_run lib op s s1 hH hK h1
    exact ih s1 s' hH1 hK1 h2

/-- Every reachable key-cache state satisfies both invariants. -/
theorem inv_of_reachable (lib : RandomXLib) (s : KeyCacheState) (hr : Reachable lib s) :
    HandlesInv s ∧ KeyInv s := by
  obtain ⟨ops, hops⟩ := hr
  exact inv_runOps lib ops _ s HandlesInv_start
    (KeyInv_of_not_inited _ rfl) hops

theorem reachable_initedState : Reachable zeroRandomX initedState :=
  ⟨[KeyCacheOp.init [powBlock 0 1000] 5], by decide⟩

theorem reachable_tornDownState : Reachable zeroRandomX tornDownState :=
  ⟨[KeyCacheOp.init [powBlock 0 1000] 5, KeyCacheOp.deallocate], by decide⟩

/-- In a reachable initialised state the three pointers hold a cache built from the
current key block and two machines created on it, none of them released. -/
theorem allocated_of_reachable (lib : RandomXLib) (s : KeyCacheState) (hr : Reachable lib s)
    (hi : s.fLightCacheInited = true) :
    ∃ c m v, AllocatedTogether s c m v ∧ c.key = some s.key_block ∧ c.flags = s.flags ∧
      m.flags = s.flags ∧ v.flags = s.flags ∧ HandlesLive s := by
  obtain ⟨⟨-, halloc, -⟩, hK⟩ := inv_of_reachable lib s hr
  obtain ⟨c, m, v, hat, -, hmem⟩ := halloc hi
  obtain ⟨c', m', v', hc', hm', hv', hkey, hf1, hf2, hf3⟩ := hK hi
  obtain ⟨hc, hm, hv, hmc, hvc, hmh, hvh⟩ := hat
  have e1 : c' = c := Option.some.inj (hc'.symm.trans hc)
  have e2 : m' = m := Option.some.inj (hm'.symm.trans hm)
  have e3 : v' = v := Option.some.inj (hv'.symm.trans hv)
  subst e1 e2 e3
  refine ⟨c', m', v', ⟨hc, hm, hv, hmc, hvc, hmh, hvh⟩, hkey, hf1, hf2, hf3, ?_⟩
  intro h hh hd
  have hlt := (hmem h).mp hd
  simp only [heldHandles, hc, hm, hv, Option.map_some', Option.toList_some, List.mem_append,
    List.mem_singleton] at hh
  omega

/-- C14, as stated, fails: after `InitRandomXLightCache` and
`DeallocateRandomXLightCache` from process start the flag is false while the cache and
both machine pointers still hold the released objects, so the state is neither fully
allocated nor fully empty. -/
theorem key_cache_states_counterexample :
    runOps zeroRandomX [KeyCacheOp.init [powBlock 0 1000] 5, KeyCacheOp.deallocate]
        KeyCacheState.start = some tornDownState ∧
      tornDownState.fLightCacheInited = false ∧
      tornDownState.myCache = some { handle := 0, flags := 3, key := some 500 } ∧
      ¬ FullyAllocated tornDownState ∧ ¬ FullyEmpty tornDownState := by
  refine ⟨by decide, rfl, rfl, ?_, ?_⟩
  · intro h
    exact absurd h.1 (by decide)
  · intro h
    exact absurd h.2.1 (by decide)

/-- C14, amended: every state reachable from process start by `InitRandomXLightCache`,
`CheckIfKeyShouldChange`, `KeyBlockChanged`, `DeallocateRandomXLightCache` (and
`GetKeyBlock`) is either fully allocated, with the three objects live, or released:
the flag is false and each pointer is null or holds an object that has been released. -/
theorem key_cache_states (lib : RandomXLib) (s : KeyCacheState) (hr : Reachable lib s) :
    (FullyAllocated s ∧ HandlesLive s) ∨ Released s := by
  by_cases hi : s.fLightCacheInited = true
  · left
    obtain ⟨c, m, v, ⟨hc, hm, hv, hmc, hvc, -, -⟩, hkey, -, -, -, hlive⟩ :=
      allocated_of_reachable lib s hr hi
    exact ⟨⟨hi, c, m, v, hc, hm, hv, hkey, hmc, hvc⟩, hlive⟩
  · right
    have hi' : s.fLightCacheInited = false := by simpa using hi
    obtain ⟨⟨-, -, hfree⟩, -⟩ := inv_of_reachable lib s hr
    obtain ⟨hmem, hshape⟩ := hfree hi'
    refine ⟨hi', fun h hh => ?_⟩
    rcases hshape with ⟨hc, hm, hv⟩ | ⟨c, m, v, ⟨hc, hm, hv, -, -, hmh, hvh⟩, hle⟩
    · simp [heldHandles, hc, hm, hv] at hh
    · simp only [heldHandles, hc, hm, hv, Option.map_some', Option.toList_some,
        List.mem_append, List.mem_singleton] at hh
      rw [hmem]
      omega

/-- Witness of C14 amended at the state left by init and teardown. -/
theorem key_cache_states_witness :
    Reachable zeroRandomX tornDownState ∧
      ((FullyAllocated tornDownState ∧ HandlesLive tornDownState) ∨ Released tornDownState) :=
  ⟨reachable_tornDownState, key_cache_states zeroRandomX tornDownState reachable_tornDownState⟩

/-- C17: in every reachable key-cache state with the flag set, the mining machine and
the validating machine are both created on the one cache the key cache holds, and that
cache is built from the current key block; in every reachable state the two machine
pointers refer to the same cache, hence never to caches built from different keys. -/
theorem machines_share_cache (lib : RandomXLib) (s : KeyCacheState) (hr : Reachable lib s) :
    (s.fLightCacheInited = true →
        ∃ c m v, s.myCache = some c ∧ GetMyMachineMining s = some m ∧
          GetMyMachineValidating s = some v ∧ m.cache = c ∧ v.cache = c ∧
          c.key = some (GetCurrentKeyBlock s)) ∧
      (∀ m v, GetMyMachineMining s = some m → GetMyMachineValidating s = some v →
        m.cache = v.cache ∧ m.cache.key = v.cache.key) := by
  constructor
  · intro hi
    obtain ⟨c, m, v, ⟨hc, hm, hv, hmc, hvc, -, -⟩, hkey, -⟩ :=
      allocated_of_reachable lib s hr hi
    exact ⟨c, m, v, hc, hm, hv, hmc, hvc, hkey⟩
  · intro m v hm hv
    obtain ⟨⟨-, halloc, hfree⟩, -⟩ := inv_of_reachable lib s hr
    have hshare : m.cache = v.cache := by
      by_cases hi : s.fLightCacheInited = true
      · obtain ⟨c, m', v', ⟨-, hm', hv', hmc, hvc, -, -⟩, -⟩ := halloc hi
        have e2 : m' = m := Option.some.inj (hm'.symm.trans hm)
        have e3 : v' = v := Option.some.inj (hv'.symm.trans hv)
        subst e2 e3
        rw [hmc, hvc]
      · have hi' : s.fLightCacheInited = false := by simpa using hi
        rcases (hfree hi').2 with ⟨-, hmn, -⟩ | ⟨c, m', v', ⟨-, hm', hv', hmc, hvc, -, -⟩, -⟩
        · rw [GetMyMachineMining, hmn] at hm
          cases hm
        · have e2 : m' = m := Option.some.inj (hm'.symm.trans hm)
          have e3 : v' = v := Option.some.inj (hv'.symm.trans hv)
          subst e2 e3
          rw [hmc, hvc]
    exact ⟨hshare, by rw [hshare]⟩

/-- Witness of C17 at the state left by init. -/
theorem machines_share_cache_witness :
    Reachable zeroRandomX initedState ∧
      ((initedState.fLightCacheInited = true →
          ∃ c m v, initedState.myCache = some c ∧ GetMyMachineMining initedState = some m ∧
            GetMyMachineValidating initedState = some v ∧ m.cache = c ∧ v.cache = c ∧
            c.key = some (GetCurrentKeyBlock initedState)) ∧
        (∀ m v, GetMyMachineMining initedState = some m →
          GetMyMachineValidating initedState = some v →
          m.cache = v.cache ∧ m.cache.key = v.cache.key)) :=
  ⟨reachable_initedState, machines_share_cache zeroRandomX initedState reachable_initedState⟩

@[simp] theorem DeallocateRandomXLightCache_nextHandle (s : KeyCacheState) :
    (DeallocateRandomXLightCache s).nextHandle = s.nextHandle := by
  unfold DeallocateRandomXLightCache
  cases hi : s.fLightCacheInited <;> simp [hi]

@[simp] theorem DeallocateRandomXLightCache_flags (s : KeyCacheState) :
    (DeallocateRandomXLightCache s).flags = s.flags := by
  unfold DeallocateRandomXLightCache
  cases hi : s.fLightCacheInited <;> simp [hi]

@[simp] theorem DeallocateRandomXLightCache_key_block (s : KeyCacheState) :
    (DeallocateRandomXLightCache s).key_block = s.key_block := by
  unfold DeallocateRandomXLightCache
  cases hi : s.fLightCacheInited <;> simp [hi]

@[simp] theorem DeallocateRandomXLightCache_current_key_block (s : KeyCacheState) :
    (DeallocateRandomXLightCache s).current_key_block = s.current_key_block := by
  unfold DeallocateRandomXLightCache
  cases hi : s.fLightCacheInited <;> simp [hi]

/-- C15, as stated, fails: from process start, where `InitRandomXLightCache` has never
queried the flags, `CheckIfKeyShouldChange(500)` allocates the cache with the
zero-initialised static `flags`, while `InitRandomXLightCache` for the same key
allocates it with the flags `randomx_get_flags` reports (3 here). -/
theorem CheckIfKeyShouldChange_counterexample :
    500 ≠ KeyCacheState.start.key_block ∧
      (CheckIfKeyShouldChange KeyCacheState.start 500).myCache =
        some { handle := 0, flags := 0, key := some 500 } ∧
      zeroRandomX.randomx_get_flags = 3 ∧
      (InitRandomXLightCache zeroRandomX [powBlock 0 1000] KeyCacheState.start 5).map
          KeyCacheState.myCache = some (some { handle := 0, flags := 3, key := some 500 }) := by
  decide

/-- C15, amended: `CheckIfKeyShouldChange(k)` leaves the whole state unchanged when `k`
is the current key block; otherwise it releases the old machines and cache when the flag
is set, and afterwards the current key block is `k`, the flag is set, and a fresh cache
built from `k` and two fresh machines created on it are allocated with the static
`flags`, which are the flags `InitRandomXLightCache` would query whenever the static
holds the value of `randomx_get_flags`. -/
theorem CheckIfKeyShouldChange_spec (lib : RandomXLib) (s : KeyCacheState) (k : Nat) :
    (k = s.key_block → CheckIfKeyShouldChange s k = s) ∧
      (k ≠ s.key_block →
        GetCurrentKeyBlock (CheckIfKeyShouldChange s k) = k ∧
        IsRandomXLightInit (CheckIfKeyShouldChange s k) = true ∧
        (CheckIfKeyShouldChange s k).myCache =
          some { handle := s.nextHandle, flags := s.flags, key := some k } ∧
        GetMyMachineMining (CheckIfKeyShouldChange s k) =
          some { handle := s.nextHandle + 1, flags := s.flags,
                 cache := { handle := s.nextHandle, flags := s.flags, key := some k } } ∧
        GetMyMachineValidating (CheckIfKeyShouldChange s k) =
          some { handle := s.nextHandle + 2, flags := s.flags,
                 cache := { handle := s.nextHandle, flags := s.flags, key := some k } } ∧
        (CheckIfKeyShouldChange s k).destroyed =
          (if s.fLightCacheInited then
            releaseHandle (releaseHandle (releaseHandle s.destroyed
              (s.myMachineMining.map randomx_vm.handle))
              (s.myMachineValidating.map randomx_vm.handle))
              (s.myCache.map randomx_cache.handle)
          else s.destroyed) ∧
        (s.flags = lib.randomx_get_flags →
          ∀ (chainActive : List CBlockIndex) (s0 : KeyCacheState) (height : Nat),
            s0.fLightCacheInited = false → s0.nextHandle = s.nextHandle →
            GetKeyBlock chainActive s0.current_key_block height = some k →
            ∃ t, InitRandomXLightCache lib chainActive s0 height = some t ∧
              t.myCache = (CheckIfKeyShouldChange s k).myCache ∧
              t.myMachineMining = (CheckIfKeyShouldChange s k).myMachineMining ∧
              t.myMachineValidating = (CheckIfKeyShouldChange s k).myMachineValidating)) := by
  constructor
  · intro hk
    simp [CheckIfKeyShouldChange, hk]
  · intro hk
    have hrun : CheckIfKeyShouldChange s k = KeyBlockChanged s k := by
      simp [CheckIfKeyShouldChange, hk]
    rw [hrun]
    have hc : (KeyBlockChanged s k).myCache =
        some { handle := s.nextHandle, flags := s.flags, key := some k } := by
      simp [KeyBlockChanged, allocateLightCache]
    have hm : (KeyBlockChanged s k).myMachineMining =
        some { handle := s.nextHandle + 1, flags := s.flags,
               cache := { handle := s.nextHandle, flags := s.flags, key := some k } } := by
      simp [KeyBlockChanged, allocateLightCache]
    have hv : (KeyBlockChanged s k).myMachineValidating =
        some { handle := s.nextHandle + 2, flags := s.flags,
               cache := { handle := s.nextHandle, flags := s.flags, key := some k } } := by
      simp [KeyBlockChanged, allocateLightCache]
    refine ⟨?_, rfl, hc, hm, hv, ?_, ?_⟩
    · simp [GetCurrentKeyBlock, KeyBlockChanged, allocateLightCache]
    · unfold KeyBlockChanged DeallocateRandomXLightCache
      cases hi : s.fLightCacheInited <;> simp [hi, allocateLightCache]
    · intro hflags chainActive s0 height hi0 hnext hkey
      have hinit : InitRandomXLightCache lib chainActive s0 height =
          some (allocateLightCache
            { s0 with current_key_block := k, key_block := k,
                      flags := lib.randomx_get_flags }) := by
        simp [InitRandomXLightCache, hi0, hkey]
      rw [hc, hm, hv, hflags, ← hnext]
      exact ⟨_, hinit, rfl, rfl, rfl⟩

theorem runOps_append (lib : RandomXLib) :
    ∀ (ops ops' : List KeyCacheOp) (s : KeyCacheState),
      runOps lib (ops ++ ops') s = (runOps lib ops s).bind (runOps lib ops') := by
  intro ops
  induction ops with
  | nil => intro ops' s; rfl
  | cons op ops ih =>
    intro ops' s
    simp only [List.cons_append, runOps]
    cases op.run lib s with
    | none => rfl
    | some s1 => simpa using ih ops' s1

/-- A reachable state stays reachable after one more operation. -/
theorem Reachable_step (lib : RandomXLib) (s s' : KeyCacheState) (op : KeyCacheOp)
    (hr : Reachable lib s) (hrun : op.run lib s = some s') : Reachable lib s' := by
  obtain ⟨ops, hops⟩ := hr
  refine ⟨ops ++ [op], ?_⟩
  rw [runOps_append, hops]
  simp [runOps, hrun]

/-- A second call of `GetKeyBlock` for the same height, on the static the first call
left, returns the same hash. -/
theorem GetKeyBlock_again (chainActive : List CBlockIndex) (memo nHeight k : Nat)
    (h : GetKeyBlock chainActive memo nHeight = some k) :
    GetKeyBlock chainActive k nHeight = some k := by
  have hfall : ∀ x : Nat,
      (if x = 0 then (CChain.Genesis chainActive).map CBlockIndex.GetBlockHash else some x) =
        some k →
      (if k = 0 then (CChain.Genesis chainActive).map CBlockIndex.GetBlockHash else some k) =
        some k := by
    intro x hx
    by_cases hk : k = 0
    · rw [if_pos hk]
      by_cases hx0 : x = 0
      · rw [if_pos hx0] at hx
        exact hx
      · rw [if_neg hx0] at hx
        exact absurd (Option.some.inj hx ▸ hk) hx0
    · rw [if_neg hk]
  unfold GetKeyBlock at h ⊢
  simp only [] at h ⊢
  split_ifs at h ⊢ with h1 h2 h3
  · exact h
  · simp only [Option.some_bind] at h ⊢
    exact hfall memo h
  · exact h
  · simp only [Option.some_bind] at h ⊢
    exact hfall memo h

theorem CheckIfKeyShouldChange_key_block (s : KeyCacheState) (k : Nat) :
    (CheckIfKeyShouldChange s k).key_block = k ∧
      (CheckIfKeyShouldChange s k).current_key_block = s.current_key_block ∧
      (s.fLightCacheInited = true → (CheckIfKeyShouldChange s k).fLightCacheInited = true) := by
  unfold CheckIfKeyShouldChange
  by_cases hk : k ≠ s.key_block
  · rw [if_pos hk]
    simp [KeyBlockChanged, allocateLightCache]
  · rw [if_neg hk]
    exact ⟨(not_not.mp hk).symm, rfl, id⟩

/-- C16: from every reachable key-cache state, on a non-empty active chain,
`CheckRandomXProofOfWork` returns, whether it accepts or rejects, with the key cache
initialised and the current key block equal to what `GetKeyBlock` returns for the height
of the header; the validating machine is then built from that key, and when the target
is valid the verdict is the comparison of the hash computed on that machine. -/
theorem CheckRandomXProofOfWork_key_cache (rlib : RandomXLib) (uint256S : List Nat → Nat)
    (chainActive : List CBlockIndex) (s : KeyCacheState) (block : CBlockHeader) (nBits : Nat)
    (params : Consensus.Params)
    (hr : Reachable rlib s) (hne : chainActive ≠ []) (hlen : chainActive.length < 2 ^ 31) :
    ∃ r s' vm,
      CheckRandomXProofOfWork rlib uint256S chainActive s block nBits params = some (r, s') ∧
      IsRandomXLightInit s' = true ∧
      GetKeyBlock chainActive s'.current_key_block block.nHeight =
        some (GetCurrentKeyBlock s') ∧
      GetMyMachineValidating s' = some vm ∧
      vm.cache.key = some (GetCurrentKeyBlock s') ∧
      (is_valid nBits params.powLimit = true →
        r = decide (UintToArith256
          (uint256S (rlib.randomx_calculate_hash vm block.GetRandomXHeaderHash)) <
            (SetCompact nBits).bnTarget)) ∧
      (is_valid nBits params.powLimit = false → r = false) := by
  have hinit : ∃ s1, InitRandomXLightCache rlib chainActive s block.nHeight = some s1 := by
    by_cases hi : s.fLightCacheInited = true
    · exact ⟨s, by simp [InitRandomXLightCache, hi]⟩
    · obtain ⟨k, hk⟩ := GetKeyBlock_returns hne hlen s.current_key_block block.nHeight
      exact ⟨_, by simp [InitRandomXLightCache, hi, hk]; rfl⟩
  obtain ⟨s1, hs1⟩ := hinit
  have hi1 := InitRandomXLightCache_inited rlib chainActive s s1 block.nHeight hs1
  have hr1 : Reachable rlib s1 :=
    Reachable_step rlib s s1 (KeyCacheOp.init chainActive block.nHeight) hr hs1
  obtain ⟨k, hk⟩ := GetKeyBlock_returns hne hlen s1.current_key_block block.nHeight
  have hr2 : Reachable rlib { s1 with current_key_block := k } :=
    Reachable_step rlib s1 _ (KeyCacheOp.getKeyBlock chainActive block.nHeight) hr1
      (by simp [KeyCacheOp.run, hk])
  have hr3 : Reachable rlib (CheckIfKeyShouldChange { s1 with current_key_block := k } k) :=
    Reachable_step rlib _ _ (KeyCacheOp.checkIfKeyShouldChange k) hr2 rfl
  obtain ⟨hkey, hcur, hinited⟩ := CheckIfKeyShouldChange_key_block
    { s1 with current_key_block := k } k
  have hi3 := hinited hi1
  obtain ⟨s3, hs3⟩ : ∃ s3, s3 = CheckIfKeyShouldChange { s1 with current_key_block := k } k :=
    ⟨_, rfl⟩
  rw [← hs3] at hr3 hkey hcur hi3
  obtain ⟨c, m, v, ⟨hc, hm, hv, hmc, hvc, -, -⟩, hckey, -⟩ :=
    allocated_of_reachable rlib s3 hr3 hi3
  have hcheck := range_check_eq nBits params.powLimit
  have hrun : CheckRandomXProofOfWork rlib uint256S chainActive s block nBits params =
      some (if is_valid nBits params.powLimit = true then
          decide (UintToArith256
            (uint256S (rlib.randomx_calculate_hash v block.GetRandomXHeaderHash)) <
              (SetCompact nBits).bnTarget)
        else false, s3) := by
    unfold CheckRandomXProofOfWork
    simp only []
    rw [hs1]
    simp only [Option.some_bind, hk]
    have hv' : GetMyMachineValidating s3 = some v := hv
    rw [← hs3, hcheck, hv']
    cases is_valid nBits params.powLimit <;> simp
  refine ⟨_, s3, v, hrun, hi3, ?_, hv, ?_, ?_, ?_⟩
  · rw [hcur]
    simp only [GetCurrentKeyBlock, hkey]
    exact GetKeyBlock_again chainActive s1.current_key_block block.nHeight k hk
  · rw [hvc, hckey]
    rfl
  · intro hvalid
    simp [hvalid]
  · intro hinvalid
    simp [hinvalid]

theorem reachable_start (lib : RandomXLib) : Reachable lib KeyCacheState.start :=
  ⟨[], rfl⟩

/-- Witness of C16 from process start on a one-block chain. -/
theorem CheckRandomXProofOfWork_key_cache_witness :
    Reachable zeroRandomX KeyCacheState.start ∧ [powBlock 0 1000] ≠ [] ∧
      [powBlock 0 1000].length < 2 ^ 31 ∧
      ∃ r s' vm,
        CheckRandomXProofOfWork zeroRandomX List.sum [powBlock 0 1000] KeyCacheState.start
          testHeader 0x1d00ffff (testParams 60 120) = some (r, s') ∧
        IsRandomXLightInit s' = true ∧
        GetKeyBlock [powBlock 0 1000] s'.current_key_block testHeader.nHeight =
          some (GetCurrentKeyBlock s') ∧
        GetMyMachineValidating s' = some vm ∧
        vm.cache.key = some (GetCurrentKeyBlock s') ∧
        (is_valid 0x1d00ffff (testParams 60 120).powLimit = true →
          r = decide (UintToArith256
            (List.sum (zeroRandomX.randomx_calculate_hash vm testHeader.GetRandomXHeaderHash)) <
              (SetCompact 0x1d00ffff).bnTarget)) ∧
        (is_valid 0x1d00ffff (testParams 60 120).powLimit = false → r = false) :=
  ⟨reachable_start zeroRandomX, by decide, by decide,
    CheckRandomXProofOfWork_key_cache zeroRandomX List.sum [powBlock 0 1000]
      KeyCacheState.start testHeader 0x1d00ffff (testParams 60 120)
      (reachable_start zeroRandomX) (by decide) (by decide)⟩

/-! ## The key block selected for a height -/

theorem CChain_at_eq {chainActive : List CBlockIndex} (hlen : chainActive.length < 2 ^ 31)
    (c : Nat) (hc : c < chainActive.length) :
    CChain.at chainActive (toInt32 c) = chainActive[c]? := by
  have h1 : c % 2 ^ 32 = c := Nat.mod_eq_of_lt (by omega)
  have h2 : toInt32 c = (c : Int) := by
    unfold toInt32
    rw [h1, if_pos (by omega)]
  unfold CChain.at
  rw [h2, if_neg (by omega)]
  simp

/-- When the tip of the active chain is above the selected height and the block there
has a non-null hash, `GetKeyBlock` returns that hash, whatever its static holds. -/
theorem GetKeyBlock_of_tip_above (chainActive : List CBlockIndex) (memo h : Nat)
    (b : CBlockIndex) (hh : 2048 ≤ h) (h32 : h < 2 ^ 32) (hlen : chainActive.length < 2 ^ 31)
    (htip : keyBlockHeight h + 1 < chainActive.length)
    (hb : chainActive[keyBlockHeight h]? = some b) (hnz : b.GetBlockHash ≠ 0) :
    GetKeyBlock chainActive memo h = some b.GetBlockHash := by
  have hne : chainActive ≠ [] := by
    intro he
    rw [he] at htip
    simp at htip
  have hH := toUInt32_Height hne hlen
  unfold keyBlockHeight KEY_CHANGE SWITCH_KEY at htip hb
  unfold GetKeyBlock KEY_CHANGE SWITCH_KEY
  simp only []
  have e0 : h % 2 ^ 32 = h := Nat.mod_eq_of_lt h32
  rw [e0, hH]
  have e1 : (h - h % 2048) % 2 ^ 32 = h - h % 2048 := Nat.mod_eq_of_lt (by omega)
  have e2 : (h + 2 ^ 32 - 2048 - h % 2048) % 2 ^ 32 = h - h % 2048 - 2048 := by omega
  have e3 : (h - h % 2048 + 64) % 2 ^ 32 = h - h % 2048 + 64 := Nat.mod_eq_of_lt (by omega)
  rw [e1, e2, e3]
  by_cases hside : h > h - h % 2048 + 64
  · rw [if_pos hside] at htip hb
    rw [if_pos hside, if_pos (by omega), CChain_at_eq hlen _ (by omega), hb]
    simp [hnz]
  · rw [if_neg hside] at htip hb
    rw [if_neg hside, if_pos (by omega), CChain_at_eq hlen _ (by omega), hb]
    simp [hnz]

/-- When the tip of the active chain is not above the height `GetKeyBlock` checks, the
static is returned unchanged, or the genesis hash when the static is null. -/
theorem GetKeyBlock_of_tip_not_above (chainActive : List CBlockIndex) (memo h : Nat)
    (h32 : h < 2 ^ 32) (hne : chainActive ≠ []) (hlen : chainActive.length < 2 ^ 31)
    (hguard : (h % 2048 > 64 ∧ chainActive.length ≤ h - h % 2048 + 1) ∨
      (h % 2048 ≤ 64 ∧ (h < 2048 ∨ chainActive.length ≤ h - h % 2048 - 2048 + 1))) :
    GetKeyBlock chainActive memo h =
      if memo = 0 then (CChain.Genesis chainActive).map CBlockIndex.GetBlockHash
      else some memo := by
  have hH := toUInt32_Height hne hlen
  unfold GetKeyBlock KEY_CHANGE SWITCH_KEY
  simp only []
  have e0 : h % 2 ^ 32 = h := Nat.mod_eq_of_lt h32
  rw [e0, hH]
  have e1 : (h - h % 2048) % 2 ^ 32 = h - h % 2048 := Nat.mod_eq_of_lt (by omega)
  have e3 : (h - h % 2048 + 64) % 2 ^ 32 = h - h % 2048 + 64 := Nat.mod_eq_of_lt (by omega)
  rw [e1, e3]
  rcases hguard with ⟨hside, hg⟩ | ⟨hside, hg⟩
  · rw [if_pos (by omega), if_neg (by omega)]
    rfl
  · rw [if_neg (by omega), if_neg (by omega)]
    rfl

theorem length_ascendingChain (n : Nat) : (ascendingChain n).length = n := by
  simp [ascendingChain]

theorem getElem?_ascendingChain (n i : Nat) (hi : i < n) :
    (ascendingChain n)[i]? = some (powBlock i (1000 + i)) := by
  simp [ascendingChain, List.getElem?_map, List.getElem?_range hi]

theorem ascendingChain_ne_nil (n : Nat) (hn : 0 < n) : ascendingChain n ≠ [] := by
  intro h
  have := length_ascendingChain n
  rw [h] at this
  simp at this
  omega

theorem Genesis_ascendingChain (n : Nat) (hn : 0 < n) :
    (CChain.Genesis (ascendingChain n)).map CBlockIndex.GetBlockHash = some 500 := by
  have h0 := getElem?_ascendingChain n 0 hn
  unfold CChain.Genesis
  rw [List.head?_eq_getElem?, h0]
  rfl

/-- C11, as stated, fails: on the active chain of 2049 blocks the block at height 2048,
the height selected for 2113, exists (it is the tip, with hash 2548), but from process
start `GetKeyBlock(2113)` returns the genesis hash 500: line 255 requires the tip to be
above the selected height. -/
theorem GetKeyBlock_selects_counterexample :
    2048 ≤ 2113 ∧ keyBlockHeight 2113 = 2048 ∧
      (ascendingChain 2049)[keyBlockHeight 2113]? = some (powBlock 2048 3048) ∧
      (powBlock 2048 3048).GetBlockHash = 2548 ∧
      GetKeyBlock (ascendingChain 2049) KeyCacheState.start.current_key_block 2113 =
        some 500 := by
  have hk : keyBlockHeight 2113 = 2048 := by decide
  refine ⟨by decide, hk, ?_, rfl, ?_⟩
  · rw [hk]
    exact getElem?_ascendingChain 2049 2048 (by decide)
  · rw [GetKeyBlock_of_tip_not_above (ascendingChain 2049) _ 2113 (by decide)
      (ascendingChain_ne_nil 2049 (by decide)) (by rw [length_ascendingChain]; omega)
      (Or.inl ⟨by decide, by have := length_ascendingChain 2049; omega⟩)]
    exact Genesis_ascendingChain 2049 (by decide)

/-- C11, amended: for every height `h` with `2048 <= h < 2 ^ 32` and every active chain
whose tip is above the selected height (the start of the period of `h` when `h` is more
than 64 past it, the start of the period before otherwise), the block there having a
non-null hash, `GetKeyBlock(h)` is the hash of the block at the selected height; heights
`2048 k + 63` and `2048 k + 64` select height `2048 (k - 1)`, height `2048 k + 65`
selects `2048 k`, and the result is the same for all heights of the period of `h` on the
same side of the switch window. -/
theorem GetKeyBlock_selects (chainActive : List CBlockIndex) (memo h : Nat) (b : CBlockIndex)
    (hh : 2048 ≤ h) (h32 : h < 2 ^ 32) (hlen : chainActive.length < 2 ^ 31)
    (htip : keyBlockHeight h + 1 < chainActive.length)
    (hb : chainActive[keyBlockHeight h]? = some b) (hnz : b.GetBlockHash ≠ 0) :
    GetKeyBlock chainActive memo h = some b.GetBlockHash ∧
      (∀ k, 1 ≤ k → keyBlockHeight (2048 * k + 63) = 2048 * (k - 1) ∧
        keyBlockHeight (2048 * k + 64) = 2048 * (k - 1) ∧
        keyBlockHeight (2048 * k + 65) = 2048 * k) ∧
      (∀ h', h' / 2048 = h / 2048 → (h' % 2048 > 64 ↔ h % 2048 > 64) →
        GetKeyBlock chainActive memo h' = some b.GetBlockHash) := by
  refine ⟨GetKeyBlock_of_tip_above chainActive memo h b hh h32 hlen htip hb hnz, ?_, ?_⟩
  · intro k hk
    unfold keyBlockHeight KEY_CHANGE SWITCH_KEY
    refine ⟨?_, ?_, ?_⟩ <;> split_ifs <;> omega
  · intro h' hperiod hside
    have hkey : keyBlockHeight h' = keyBlockHeight h := by
      unfold keyBlockHeight KEY_CHANGE SWITCH_KEY
      split_ifs <;> omega
    exact GetKeyBlock_of_tip_above chainActive memo h' b (by omega) (by omega) hlen
      (by rw [hkey]; exact htip) (by rw [hkey]; exact hb) hnz

/-- Witness of C11 amended: height 2048 on a chain of two blocks selects the genesis
block, whatever the static holds. -/
theorem GetKeyBlock_selects_witness :
    2048 ≤ 2048 ∧ 2048 < 2 ^ 32 ∧ [powBlock 0 1000, powBlock 1 1001].length < 2 ^ 31 ∧
      keyBlockHeight 2048 + 1 < [powBlock 0 1000, powBlock 1 1001].length ∧
      [powBlock 0 1000, powBlock 1 1001][keyBlockHeight 2048]? = some (powBlock 0 1000) ∧
      (powBlock 0 1000).GetBlockHash ≠ 0 ∧
      (GetKeyBlock [powBlock 0 1000, powBlock 1 1001] 777 2048 =
          some (powBlock 0 1000).GetBlockHash ∧
        (∀ k, 1 ≤ k → keyBlockHeight (2048 * k + 63) = 2048 * (k - 1) ∧
          keyBlockHeight (2048 * k + 64) = 2048 * (k - 1) ∧
          keyBlockHeight (2048 * k + 65) = 2048 * k) ∧
        (∀ h', h' / 2048 = 2048 / 2048 → (h' % 2048 > 64 ↔ 2048 % 2048 > 64) →
          GetKeyBlock [powBlock 0 1000, powBlock 1 1001] 777 h' =
            some (powBlock 0 1000).GetBlockHash)) :=
  ⟨by decide, by decide, by decide, by decide, by decide, by decide,
    GetKeyBlock_selects [powBlock 0 1000, powBlock 1 1001] 777 2048 (powBlock 0 1000)
      (by decide) (by decide) (by decide) (by decide) (by decide) (by decide)⟩

theorem GetKeyBlock_ascending_2113 :
    GetKeyBlock (ascendingChain 2050) 0 2113 = some 2548 := by
  have hk : keyBlockHeight 2113 = 2048 := by decide
  exact GetKeyBlock_of_tip_above (ascendingChain 2050) 0 2113 (powBlock 2048 3048)
    (by decide) (by decide) (by rw [length_ascendingChain]; omega)
    (by rw [length_ascendingChain, hk]; omega)
    (by rw [hk]; exact getElem?_ascendingChain 2050 2048 (by decide)) (by decide)

theorem GetKeyBlock_ascending_5 (memo : Nat) :
    GetKeyBlock (ascendingChain 2050) memo 5 =
      if memo = 0 then some 500 else some memo := by
  rw [GetKeyBlock_of_tip_not_above (ascendingChain 2050) memo 5 (by decide)
    (ascendingChain_ne_nil 2050 (by decide)) (by rw [length_ascendingChain]; omega)
    (Or.inr ⟨by decide, Or.inl (by decide)⟩), Genesis_ascendingChain 2050 (by decide)]

/-- C12 fails on the code: on the active chain of 2050 blocks, `GetKeyBlock(2113)` leaves
the hash 2548 of the block at height 2048 in the static; for height 5 the selected height
`-2048` does not exist on the chain, yet the next call `GetKeyBlock(5)` returns 2548, not
the genesis hash 500. -/
theorem GetKeyBlock_absent_returns_stale :
    GetKeyBlock (ascendingChain 2050) KeyCacheState.start.current_key_block 2113 =
        some 2548 ∧
      CChain.at (ascendingChain 2050) ((5 : Int) - 5 % 2048 - 2048) = none ∧
      GetKeyBlock (ascendingChain 2050) 2548 5 = some 2548 ∧
      (CChain.Genesis (ascendingChain 2050)).map CBlockIndex.GetBlockHash = some 500 := by
  refine ⟨GetKeyBlock_ascending_2113, ?_, ?_, Genesis_ascendingChain 2050 (by decide)⟩
  · unfold CChain.at
    rw [if_pos (Or.inl (by decide))]
  · rw [GetKeyBlock_ascending_5]
    rfl

/-- C13 fails on the code: on the active chain of 2050 blocks, `GetKeyBlock(5)` returns
the genesis hash 500 when the static is null, as at process start, and 2548 when an
earlier call `GetKeyBlock(2113)` has left 2548 in the static: two runs that differ only
in the memoised value return different hashes. -/
theorem GetKeyBlock_depends_on_static :
    GetKeyBlock (ascendingChain 2050) KeyCacheState.start.current_key_block 5 = some 500 ∧
      GetKeyBlock (ascendingChain 2050) KeyCacheState.start.current_key_block 2113 =
        some 2548 ∧
      GetKeyBlock (ascendingChain 2050) 2548 5 = some 2548 ∧
      (runOps zeroRandomX [KeyCacheOp.getKeyBlock (ascendingChain 2050) 5]
          KeyCacheState.start).map KeyCacheState.current_key_block = some 500 ∧
      (runOps zeroRandomX [KeyCacheOp.getKeyBlock (ascendingChain 2050) 2113,
          KeyCacheOp.getKeyBlock (ascendingChain 2050) 5]
          KeyCacheState.start).map KeyCacheState.current_key_block = some 2548 := by
  have h5 : GetKeyBlock (ascendingChain 2050) 0 5 = some 500 := by
    rw [GetKeyBlock_ascending_5]
    rfl
  have h5' : GetKeyBlock (ascendingChain 2050) 2548 5 = some 2548 := by
    rw [GetKeyBlock_ascending_5]
    rfl
  refine ⟨h5, GetKeyBlock_ascending_2113, h5', ?_, ?_⟩
  · simp only [runOps, KeyCacheOp.run, KeyCacheState.start, h5]
    rfl
  · simp only [runOps, KeyCacheOp.run, KeyCacheState.start, GetKeyBlock_ascending_2113,
      Option.map_some', Option.some_bind, h5']

/-! ## The ProgPow verifier and the contract of the library -/

theorem TestedVerifyContract_exactProgPow : TestedVerifyContract exactProgPow := by
  intro ctx nHeight header_hash nonce
  refine ⟨by simp [exactProgPow], fun h1 => ?_, fun mix hmix => ?_⟩
  · have : nonce - 1 ≠ nonce := by
      have h1' : 1 ≤ nonce := h1
      omega
    simp [exactProgPow, this]
  · have hmix' : mix ≠ header_hash := hmix
    simp [exactProgPow, hmix']

theorem BoundaryVerifyContract_boundaryProgPow : BoundaryVerifyContract boundaryProgPow := by
  intro ctx nHeight header_hash mix nonce boundary
  simp [boundaryProgPow]

/-- C19, as stated, fails: the library `exactProgPow` meets the contract the test asserts
(the produced mix hash is accepted with the final hash as boundary, rejected with the
boundary one lower, and another mix hash is rejected), the target `0x1d00ffff` is valid
and the final hash 7 of the header is below it, yet `CheckProgProofOfWork` returns
false: the three tested points do not fix `verify` at other boundaries. -/
theorem CheckProgProofOfWork_counterexample :
    TestedVerifyContract exactProgPow ∧
      is_valid 0x1d00ffff (testParams 60 120).powLimit = true ∧
      (exactProgPow.hash (exactProgPow.create_epoch_context
          (exactProgPow.get_epoch_number testHeader.nHeight)) testHeader.nHeight
          testHeader.GetProgPowHeaderHash testHeader.nNonce64).final_hash ≤
        (SetCompact 0x1d00ffff).bnTarget ∧
      (CheckProgProofOfWork exactProgPow testHeader 0x1d00ffff (testParams 60 120)).1 =
        false :=
  ⟨TestedVerifyContract_exactProgPow, by decide, by decide, by decide⟩

/-- C19, amended: assuming that `progpow::verify` accepts a mix hash exactly when it is
the one `progpow::hash` produces and the final hash is not above the boundary, for every
header and every valid `nBits`, `CheckProgProofOfWork` returns true if and only if the
final hash of `progpow::hash` over the epoch context of the header height, the header
height, the ProgPow header hash and the 64-bit nonce is less than or equal to the decoded
target. -/
theorem CheckProgProofOfWork_iff_le {Ctx : Type} (lib : ProgPowLib Ctx) (block : CBlockHeader)
    (nBits : Nat) (params : Consensus.Params)
    (hcontract : BoundaryVerifyContract lib)
    (hvalid : is_valid nBits params.powLimit = true) :
    (CheckProgProofOfWork lib block nBits params).1 = true ↔
      (lib.hash (lib.create_epoch_context (lib.get_epoch_number block.nHeight)) block.nHeight
          block.GetProgPowHeaderHash block.nNonce64).final_hash ≤
        (SetCompact nBits).bnTarget := by
  have hcheck := range_check_eq nBits params.powLimit
  rw [hvalid] at hcheck
  simp only [Bool.not_true] at hcheck
  unfold CheckProgProofOfWork
  simp only []
  rw [hcheck]
  simp only [Bool.false_eq_true, if_false]
  rw [hcontract]
  simp

/-- Witness of C19 amended with a library that checks the boundary. -/
theorem CheckProgProofOfWork_iff_le_witness :
    BoundaryVerifyContract boundaryProgPow ∧
      is_valid 0x1d00ffff (testParams 60 120).powLimit = true ∧
      ((CheckProgProofOfWork boundaryProgPow testHeader 0x1d00ffff (testParams 60 120)).1 =
          true ↔
        (boundaryProgPow.hash (boundaryProgPow.create_epoch_context
            (boundaryProgPow.get_epoch_number testHeader.nHeight)) testHeader.nHeight
            testHeader.GetProgPowHeaderHash testHeader.nNonce64).final_hash ≤
          (SetCompact 0x1d00ffff).bnTarget) :=
  ⟨BoundaryVerifyContract_boundaryProgPow, by decide,
    CheckProgProofOfWork_iff_le boundaryProgPow testHeader 0x1d00ffff (testParams 60 120)
      BoundaryVerifyContract_boundaryProgPow (by decide)⟩

/-! ## The end of the retarget window -/

/-- The retarget step reads the tip, the block the loop stopped on and the average; of
the recorded matching block it reads only that there is one. -/
theorem bnNew_congr (tip : CBlockIndex) (pprev pprev' : List CBlockIndex)
    (params : Consensus.Params) (fProgPow : Bool) (w w' : DgwWindow) (oldest : CBlockIndex)
    (rest rest' : List CBlockIndex)
    (hp : w.pindex = oldest :: rest) (hp' : w'.pindex = oldest :: rest')
    (havg : w.bnPastTargetAvg = w'.bnPastTargetAvg)
    (hl : w.pindexLastMatchingProof ≠ []) (hl' : w'.pindexLastMatchingProof ≠ []) :
    DarkGravityWave.bnNew (tip :: pprev) params fProgPow w =
      DarkGravityWave.bnNew (tip :: pprev') params fProgPow w' := by
  have hlast : ∀ (v : DgwWindow) (l : List CBlockIndex), v.pindexLastMatchingProof ≠ [] →
      (if (!v.pindexLastMatchingProof.isEmpty) = true then tip :: l
        else v.pindexLastMatchingProof) = tip :: l := by
    intro v l hv
    cases hq : v.pindexLastMatchingProof with
    | nil => exact absurd hq hv
    | cons a l' => simp
  unfold DarkGravityWave.bnNew
  simp only [hlast w pprev hl, hlast w' pprev' hl', hp, hp', havg]

theorem matchingBlocks_append_cons (pos prog : Bool) (pre post : List CBlockIndex)
    (b : CBlockIndex) (hpre : ∀ x ∈ pre, matchesSelectors pos prog x = false)
    (hb : matchesSelectors pos prog b = true) :
    matchingBlocks pos prog (pre ++ b :: post) = b :: matchingBlocks pos prog post := by
  unfold matchingBlocks
  rw [List.filter_append, List.filter_cons_of_pos hb]
  have : List.filter (matchesSelectors pos prog) pre = [] := by
    rw [List.filter_eq_nil_iff]
    intro x hx
    simp [hpre x hx]
  rw [this, List.nil_append]

/-- C20: when the tip is not a matching block and `nDgwPastBlocks >= 2`, changing the
timestamp of the newest matching block leaves the output of `DarkGravityWave`
unchanged; and with at least `nDgwPastBlocks` matching blocks the output is computed from
the time of the tip minus the time of the oldest block of the window (clamped), the
expected timespan being a positive `int64_t` with room for its triple. -/
theorem DarkGravityWave_window_end_is_tip (pre post : List CBlockIndex) (b : CBlockIndex)
    (nTime' : Nat) (params : Consensus.Params) (wantProofOfStake wantProgPow : Bool)
    (hN : 2 ≤ params.nDgwPastBlocks) (hne : pre ≠ [])
    (hpre : ∀ x ∈ pre, matchesSelectors wantProofOfStake wantProgPow x = false)
    (hb : matchesSelectors wantProofOfStake wantProgPow b = true) :
    DarkGravityWave (pre ++ { b with nTime := nTime' } :: post) params wantProofOfStake
        wantProgPow =
      DarkGravityWave (pre ++ b :: post) params wantProofOfStake wantProgPow ∧
    (params.nDgwPastBlocks ≤
        (matchingBlocks wantProofOfStake wantProgPow (pre ++ b :: post)).length →
      0 < expectedTimespan params wantProgPow →
      expectedTimespan params wantProgPow * 3 < 2 ^ 63 →
      ∃ tip oldest,
        (pre ++ b :: post).head? = some tip ∧
        (matchingBlocks wantProofOfStake wantProgPow (pre ++ b :: post))[
          params.nDgwPastBlocks - 1]? = some oldest ∧
        DarkGravityWave (pre ++ b :: post) params wantProofOfStake wantProgPow =
          some (GetCompact (min (UintToArith256 params.powLimit)
            (averageFrom 0 0 (targetsOf
                ((matchingBlocks wantProofOfStake wantProgPow (pre ++ b :: post)).take
                  params.nDgwPastBlocks)) *
              toUInt32 (clampedTimespan (expectedTimespan params wantProgPow) tip oldest) %
                2 ^ 256 /
            (expectedTimespan params wantProgPow).toNat)))) := by
  constructor
  · have hb' : matchesSelectors wantProofOfStake wantProgPow { b with nTime := nTime' } =
        true := hb
    have hm := matchingBlocks_append_cons wantProofOfStake wantProgPow pre post b hpre hb
    have hm' := matchingBlocks_append_cons wantProofOfStake wantProgPow pre post
      { b with nTime := nTime' } hpre hb'
    by_cases hfew : (matchingBlocks wantProofOfStake wantProgPow post).length + 1 <
        params.nDgwPastBlocks
    · rw [DarkGravityWave_eq_of_few _ params wantProofOfStake wantProgPow
          (by rw [hm']; simpa using hfew),
        DarkGravityWave_eq_of_few _ params wantProofOfStake wantProgPow
          (by rw [hm]; simpa using hfew)]
    · obtain ⟨w, hloop, havg, ⟨oldest, rest, hp, hold⟩, hl⟩ :=
        loop_eq_some params.nDgwPastBlocks wantProofOfStake wantProgPow (pre ++ b :: post) []
          0 0 (by omega) (by rw [hm]; simp only [List.length_cons]; omega)
      obtain ⟨w', hloop', havg', ⟨oldest', rest', hp', hold'⟩, hl'⟩ :=
        loop_eq_some params.nDgwPastBlocks wantProofOfStake wantProgPow
          (pre ++ { b with nTime := nTime' } :: post) [] 0 0 (by omega)
          (by rw [hm']; simp only [List.length_cons]; omega)
      have hidx : params.nDgwPastBlocks - 0 - 1 = (params.nDgwPastBlocks - 2) + 1 := by omega
      rw [hm, hidx, List.getElem?_cons_succ] at hold
      rw [hm', hidx, List.getElem?_cons_succ] at hold'
      have e : oldest' = oldest := Option.some.inj (hold'.symm.trans hold)
      subst e
      have htake : params.nDgwPastBlocks - 0 = (params.nDgwPastBlocks - 1) + 1 := by omega
      rw [hm, htake, List.take_succ_cons] at havg
      rw [hm', htake, List.take_succ_cons] at havg'
      have hsame : w'.bnPastTargetAvg = w.bnPastTargetAvg := by
        rw [havg, havg']
        rfl
      obtain ⟨tip, pre', rfl⟩ := List.exists_cons_of_ne_nil hne
      rw [List.cons_append] at hloop hloop'
      unfold DarkGravityWave
      simp only [List.cons_append, hloop, hloop', DarkGravityWave.retarget]
      exact congrArg (Option.map GetCompact)
        (bnNew_congr tip _ _ params wantProgPow w' w oldest' rest' rest hp' hp hsame hl' hl)
  · intro hfull hE hrange
    exact DarkGravityWave_eq_of_full _ params wantProofOfStake wantProgPow (by omega) hfull hE
      hrange

/-- Witness of C20: a proof-of-stake tip over two proof-of-work blocks. -/
theorem DarkGravityWave_window_end_is_tip_witness :
    2 ≤ (testParams 2 60).nDgwPastBlocks ∧
      [{ powBlock 2 1120 with IsProofOfStake := true }] ≠ [] ∧
      (∀ x ∈ [{ powBlock 2 1120 with IsProofOfStake := true }],
        matchesSelectors false false x = false) ∧
      matchesSelectors false false (powBlock 1 1060) = true ∧
      (DarkGravityWave ([{ powBlock 2 1120 with IsProofOfStake := true }] ++
            { powBlock 1 1060 with nTime := 5 } :: [powBlock 0 1000])
          (testParams 2 60) false false =
        DarkGravityWave ([{ powBlock 2 1120 with IsProofOfStake := true }] ++
            powBlock 1 1060 :: [powBlock 0 1000]) (testParams 2 60) false false ∧
      ((testParams 2 60).nDgwPastBlocks ≤
          (matchingBlocks false false ([{ powBlock 2 1120 with IsProofOfStake := true }] ++
            powBlock 1 1060 :: [powBlock 0 1000])).length →
        0 < expectedTimespan (testParams 2 60) false →
        expectedTimespan (testParams 2 60) false * 3 < 2 ^ 63 →
        ∃ tip oldest,
          ([{ powBlock 2 1120 with IsProofOfStake := true }] ++
            powBlock 1 1060 :: [powBlock 0 1000]).head? = some tip ∧
          (matchingBlocks false false ([{ powBlock 2 1120 with IsProofOfStake := true }] ++
            powBlock 1 1060 :: [powBlock 0 1000]))[(testParams 2 60).nDgwPastBlocks - 1]? =
              some oldest ∧
          DarkGravityWave ([{ powBlock 2 1120 with IsProofOfStake := true }] ++
              powBlock 1 1060 :: [powBlock 0 1000]) (testParams 2 60) false false =
            some (GetCompact (min (UintToArith256 (testParams 2 60).powLimit)
              (averageFrom 0 0 (targetsOf
                  ((matchingBlocks false false
                    ([{ powBlock 2 1120 with IsProofOfStake := true }] ++
                      powBlock 1 1060 :: [powBlock 0 1000])).take
                    (testParams 2 60).nDgwPastBlocks)) *
                toUInt32 (clampedTimespan (expectedTimespan (testParams 2 60) false) tip
                  oldest) % 2 ^ 256 /
              (expectedTimespan (testParams 2 60) false).toNat))))) :=
  ⟨by decide, by decide, by decide, by decide,
    DarkGravityWave_window_end_is_tip [{ powBlock 2 1120 with IsProofOfStake := true }]
      [powBlock 0 1000] (powBlock 1 1060) 5 (testParams 2 60) false false (by decide)
      (by decide) (by decide) (by decide)⟩

/-! ## The epoch context of the ProgPow verifier -/

/-- A call of `CheckProgProofOfWork` with a valid target hands the epoch number of the
header's height to `create_epoch_context`, whatever was called before. -/
theorem CheckProgProofOfWork_creates_context {Ctx : Type} (lib : ProgPowLib Ctx)
    (block : CBlockHeader) (nBits : Nat) (params : Consensus.Params)
    (hv : is_valid nBits params.powLimit = true) :
    (CheckProgProofOfWork lib block nBits params).2 = [lib.get_epoch_number block.nHeight] := by
  unfold CheckProgProofOfWork
  simp only [range_check_eq, hv]
  rfl

/-- Over successive calls with valid targets every call creates its epoch context: the
contexts created are the epochs of the heights of all the calls, in order. -/
theorem epochContextsCreated_of_valid {Ctx : Type} (lib : ProgPowLib Ctx)
    (params : Consensus.Params) (calls : List (CBlockHeader × Nat))
    (hv : ∀ call ∈ calls, is_valid call.2 params.powLimit = true) :
    epochContextsCreated lib params calls =
      calls.map fun call => lib.get_epoch_number call.1.nHeight := by
  induction calls with
  | nil => rfl
  | cons call calls ih =>
    rw [epochContextsCreated,
      CheckProgProofOfWork_creates_context lib call.1 call.2 params
        (hv call (List.mem_cons_self _ _)),
      ih fun c hc => hv c (List.mem_cons_of_mem _ hc)]
    rfl

/-- C21 fails on the code: two consecutive calls of `CheckProgProofOfWork` with the
valid target `0x1d00ffff` on the same header, at height 5 in epoch 0, create the epoch
context of epoch 0 twice, once in each call. -/
theorem CheckProgProofOfWork_recreates_epoch_context :
    is_valid 0x1d00ffff (testParams 60 120).powLimit = true ∧
      acceptingProgPow.get_epoch_number testHeader.nHeight = 0 ∧
      (CheckProgProofOfWork acceptingProgPow testHeader 0x1d00ffff (testParams 60 120)).2 =
        [0] ∧
      epochContextsCreated acceptingProgPow (testParams 60 120)
        [(testHeader, 0x1d00ffff), (testHeader, 0x1d00ffff)] = [0, 0] := by
  refine ⟨by decide, by decide, by decide, by decide⟩

/-! ## The resources of the key cache over its whole life -/

/-- Of the first `c + k` handles, those from `c` on are the last `k`. -/
theorem filter_range_ge (c k : Nat) :
    (List.range (c + k)).filter (fun h => decide (c ≤ h)) = (List.range k).map (c + ·) := by
  rw [List.range_add, List.filter_append]
  have h1 : (List.range c).filter (fun h => decide (c ≤ h)) = [] := by
    rw [List.filter_eq_nil_iff]
    intro a ha
    have := List.mem_range.mp ha
    simp only [decide_eq_true_eq]
    omega
  have h2 : ((List.range k).map (c + ·)).filter (fun h => decide (c ≤ h)) =
      (List.range k).map (c + ·) := by
    rw [List.filter_eq_self]
    intro a ha
    obtain ⟨b, -, rfl⟩ := List.mem_map.mp ha
    simp
  rw [h1, h2, List.nil_append]

/-- When exactly the handles below `c` are released, the live handles among the first
`c + k` are the last `k`. -/
theorem liveHandles_of_released_below (s : KeyCacheState) (c k : Nat)
    (hnext : s.nextHandle = c + k) (hmem : ∀ h, h ∈ s.destroyed ↔ h < c) :
    liveHandles s = (List.range k).map (c + ·) := by
  have hfun : (fun h => decide (h ∉ s.destroyed)) = fun h => decide (c ≤ h) := by
    funext h
    simp only [hmem h, not_lt]
  rw [liveHandles, hnext, hfun, filter_range_ge]

/-- The key cache after `InitRandomXLightCache` and one rotation to the key block `9`:
the first three handles are released, the next three are held. -/
theorem reachable_rotated : Reachable zeroRandomX (KeyBlockChanged initedState 9) :=
  Reachable_step zeroRandomX initedState _ (KeyCacheOp.keyBlockChanged 9)
    reachable_initedState rfl

/-- C22: in every state of the key cache reached from process start by a sequence
of `InitRandomXLightCache`, `CheckIfKeyShouldChange`, `KeyBlockChanged` and
`DeallocateRandomXLightCache` (and calls of `GetKeyBlock`), no resource was destroyed
twice and only allocated resources were destroyed; when the cache is initialised the
live resources are exactly the current cache and the two machines, three different
objects, both machines being created on that live cache, and none of them is among the
destroyed ones; when it is not initialised no resource is live. -/
theorem key_cache_no_leak_no_double_release (lib : RandomXLib) (s : KeyCacheState)
    (hr : Reachable lib s) :
    s.destroyed.Nodup ∧
      (∀ h ∈ s.destroyed, h < s.nextHandle) ∧
      (s.fLightCacheInited = true →
        ∃ c m v, s.myCache = some c ∧ s.myMachineMining = some m ∧
          s.myMachineValidating = some v ∧ m.cache = c ∧ v.cache = c ∧
          liveHandles s = [c.handle, m.handle, v.handle] ∧
          [c.handle, m.handle, v.handle].Nodup ∧
          ∀ h ∈ [c.handle, m.handle, v.handle], h ∉ s.destroyed) ∧
      (s.fLightCacheInited = false → liveHandles s = []) := by
  obtain ⟨⟨hnodup, halloc, hfree⟩, -⟩ := inv_of_reachable lib s hr
  refine ⟨hnodup, ?_, ?_, ?_⟩
  · intro h hh
    cases hi : s.fLightCacheInited with
    | true =>
      obtain ⟨c, m, v, -, hnext, hmem⟩ := halloc hi
      have := (hmem h).mp hh
      omega
    | false => exact ((hfree hi).1 h).mp hh
  · intro hi
    obtain ⟨c, m, v, ⟨hc, hm, hv, hmc, hvc, hmh, hvh⟩, hnext, hmem⟩ := halloc hi
    refine ⟨c, m, v, hc, hm, hv, hmc, hvc, ?_, ?_, ?_⟩
    · rw [liveHandles_of_released_below s c.handle 3 hnext hmem, hmh, hvh]
      rfl
    · rw [hmh, hvh]
      simp
    · intro h hh hd
      have hlt := (hmem h).mp hd
      simp only [List.mem_cons, List.mem_singleton, List.not_mem_nil, or_false, hmh, hvh] at hh
      omega
  · intro hi
    have hmem := (hfree hi).1
    have h := liveHandles_of_released_below s s.nextHandle 0 rfl hmem
    simpa using h

theorem key_cache_no_leak_no_double_release_witness :
    Reachable zeroRandomX (KeyBlockChanged initedState 9) ∧
      (KeyBlockChanged initedState 9).destroyed = [1, 2, 0] ∧
      liveHandles (KeyBlockChanged initedState 9) = [3, 4, 5] ∧
      ((KeyBlockChanged initedState 9).destroyed.Nodup ∧
        (∀ h ∈ (KeyBlockChanged initedState 9).destroyed,
          h < (KeyBlockChanged initedState 9).nextHandle) ∧
        ((KeyBlockChanged initedState 9).fLightCacheInited = true →
          ∃ c m v, (KeyBlockChanged initedState 9).myCache = some c ∧
            (KeyBlockChanged initedState 9).myMachineMining = some m ∧
            (KeyBlockChanged initedState 9).myMachineValidating = some v ∧
            m.cache = c ∧ v.cache = c ∧
            liveHandles (KeyBlockChanged initedState 9) = [c.handle, m.handle, v.handle] ∧
            [c.handle, m.handle, v.handle].Nodup ∧
            ∀ h ∈ [c.handle, m.handle, v.handle],
              h ∉ (KeyBlockChanged initedState 9).destroyed) ∧
        ((KeyBlockChanged initedState 9).fLightCacheInited = false →
          liveHandles (KeyBlockChanged initedState 9) = [])) :=
  ⟨reachable_rotated, by decide, by decide,
    key_cache_no_leak_no_double_release zeroRandomX _ reachable_rotated⟩

/-! ## The map and the list of the LRU cache -/

/-- Searching a key among the elements that do not carry another key. -/
theorem find?_filter_ne {α K : Type} [DecidableEq K] (f : α → K) (l : List α) (key k : K) :
    (l.filter fun a => decide (f a ≠ key)).find? (fun a => decide (f a = k)) =
      if k = key then none else l.find? fun a => decide (f a = k) := by
  induction l with
  | nil => simp
  | cons x l ih =>
    by_cases hx : f x = key
    · have hf : (List.filter (fun a => decide (f a ≠ key)) (x :: l)) =
          List.filter (fun a => decide (f a ≠ key)) l := by
        rw [List.filter_cons]
        simp [hx]
      rw [hf, ih]
      by_cases hk : k = key
      · rw [if_pos hk, if_pos hk]
      · have hxk : ¬ f x = k := fun h => hk (h.symm.trans hx)
        rw [if_neg hk, if_neg hk, List.find?_cons]
        simp [hxk]
    · have hf : (List.filter (fun a => decide (f a ≠ key)) (x :: l)) =
          x :: List.filter (fun a => decide (f a ≠ key)) l := by
        rw [List.filter_cons]
        simp [hx]
      rw [hf, List.find?_cons, List.find?_cons]
      by_cases hxk : f x = k
      · have hk : ¬ k = key := fun h => hx (hxk.trans h)
        simp [hxk, hk]
      · simp only [hxk, decide_False]
        exact ih

theorem map_find_erase {K : Type} [DecidableEq K] (m : List (K × Nat)) (key k : K) :
    map_find (map_erase m key) k = if k = key then none else map_find m k := by
  rw [map_find, map_erase, find?_filter_ne Prod.fst m key k, map_find]
  split <;> rfl

theorem map_find_cons {K : Type} [DecidableEq K] (e : K × Nat) (m : List (K × Nat)) (k : K) :
    map_find (e :: m) k = if e.1 = k then some e.2 else map_find m k := by
  simp only [map_find, List.find?_cons]
  by_cases h : e.1 = k <;> simp [h]

theorem map_find_isSome_iff {K : Type} [DecidableEq K] (m : List (K × Nat)) (k : K) :
    (map_find m k).isSome = true ↔ k ∈ m.map Prod.fst := by
  induction m with
  | nil => simp [map_find]
  | cons e m ih =>
    rw [map_find_cons, List.map_cons, List.mem_cons]
    by_cases h : e.1 = k
    · simp [h]
    · have h' : ¬ k = e.1 := fun h' => h h'.symm
      simp [h, h', ih]

theorem map_find_assign {K : Type} [DecidableEq K] (m : List (K × Nat)) (key k : K)
    (it : Nat) (hm : map_find m key = none) :
    map_find (map_assign m key it) k = if k = key then some it else map_find m k := by
  rw [map_assign, hm]
  simp only [Option.isSome_none, Bool.false_eq_true, if_false, map_find_cons]
  by_cases h : key = k
  · simp [h]
  · have h' : ¬ k = key := fun h' => h h'.symm
    simp [h, h']

theorem map_assign_length {K : Type} [DecidableEq K] (m : List (K × Nat)) (key : K)
    (it : Nat) (hm : map_find m key = none) :
    (map_assign m key it).length = m.length + 1 := by
  rw [map_assign, hm]
  simp

theorem map_assign_nodup {K : Type} [DecidableEq K] (m : List (K × Nat)) (key : K)
    (it : Nat) (hm : map_find m key = none) (hnd : (m.map Prod.fst).Nodup) :
    ((map_assign m key it).map Prod.fst).Nodup := by
  rw [map_assign, hm]
  simp only [Option.isSome_none, Bool.false_eq_true, if_false, List.map_cons, List.nodup_cons]
  refine ⟨?_, hnd⟩
  intro hmem
  have := (map_find_isSome_iff m key).mpr hmem
  rw [hm] at this
  cases this

theorem map_erase_nodup {K : Type} [DecidableEq K] (m : List (K × Nat)) (key : K)
    (hnd : (m.map Prod.fst).Nodup) : ((map_erase m key).map Prod.fst).Nodup :=
  hnd.sublist ((List.filter_sublist _).map _)

theorem nodeOf_cons {K V : Type} [DecidableEq K] (n : ListNode K V) (l : List (ListNode K V))
    (k : K) : nodeOf (n :: l) k = if n.first = k then some n else nodeOf l k := by
  simp only [nodeOf, List.find?_cons]
  by_cases h : n.first = k <;> simp [h]

theorem nodeOf_filter {K V : Type} [DecidableEq K] (l : List (ListNode K V)) (key k : K) :
    nodeOf (l.filter fun n => decide (n.first ≠ key)) k =
      if k = key then none else nodeOf l k := by
  rw [nodeOf, find?_filter_ne ListNode.first l key k, nodeOf]

theorem nodeOf_isSome_iff {K V : Type} [DecidableEq K] (l : List (ListNode K V)) (k : K) :
    (nodeOf l k).isSome = true ↔ k ∈ l.map ListNode.first := by
  induction l with
  | nil => simp [nodeOf]
  | cons n l ih =>
    rw [nodeOf_cons, List.map_cons, List.mem_cons]
    by_cases h : n.first = k
    · simp [h]
    · have h' : ¬ k = n.first := fun h' => h h'.symm
      simp [h, h', ih]

theorem nodeOf_eq_some {K V : Type} [DecidableEq K] (l : List (ListNode K V)) (k : K)
    (n : ListNode K V) (h : nodeOf l k = some n) : n ∈ l ∧ n.first = k := by
  rw [nodeOf] at h
  exact ⟨List.mem_of_find?_eq_some h, by simpa using List.find?_some h⟩

theorem nodeOf_of_mem {K V : Type} [DecidableEq K] (l : List (ListNode K V))
    (hnd : (l.map ListNode.first).Nodup) (n : ListNode K V) (hn : n ∈ l) :
    nodeOf l n.first = some n := by
  induction l with
  | nil => cases hn
  | cons x l ih =>
    rw [List.map_cons, List.nodup_cons] at hnd
    rw [nodeOf_cons]
    rcases List.mem_cons.mp hn with rfl | hn'
    · simp
    · have hx : ¬ x.first = n.first := fun h =>
        hnd.1 (h ▸ List.mem_map_of_mem _ hn')
      rw [if_neg hx]
      exact ih hnd.2 hn'

theorem list_deref_of_mem {K V : Type} (l : List (ListNode K V))
    (hnd : (l.map ListNode.addr).Nodup) (n : ListNode K V) (hn : n ∈ l) :
    list_deref l n.addr = some n := by
  induction l with
  | nil => cases hn
  | cons x l ih =>
    rw [List.map_cons, List.nodup_cons] at hnd
    rw [list_deref, List.find?_cons]
    rcases List.mem_cons.mp hn with rfl | hn'
    · simp
    · have hx : ¬ x.addr = n.addr := fun h =>
        hnd.1 (h ▸ List.mem_map_of_mem _ hn')
      simp only [hx, decide_False]
      exact ih hnd.2 hn'

/-- In a list whose nodes differ in address and in key, unlinking a node by its address
removes the nodes of its key. -/
theorem filter_addr_eq_filter_first {K V : Type} [DecidableEq K] (l : List (ListNode K V))
    (ha : (l.map ListNode.addr).Nodup) (hk : (l.map ListNode.first).Nodup)
    (n : ListNode K V) (hn : n ∈ l) :
    (l.filter fun x => decide (x.addr ≠ n.addr)) =
      l.filter fun x => decide (x.first ≠ n.first) := by
  apply List.filter_congr
  intro x hx
  have h1 : x.addr = n.addr → x = n := List.inj_on_of_nodup_map ha hx hn
  have h2 : x.first = n.first → x = n := List.inj_on_of_nodup_map hk hx hn
  by_cases h : x = n
  · subst h
    simp
  · have e1 : x.addr ≠ n.addr := fun e => h (h1 e)
    have e2 : x.first ≠ n.first := fun e => h (h2 e)
    simp [e1, e2]

/-- In a list of nodes with different keys, dropping the last node removes the nodes of
its key. -/
theorem dropLast_eq_filter {K V : Type} [DecidableEq K] (l : List (ListNode K V))
    (hk : (l.map ListNode.first).Nodup) (last : ListNode K V)
    (hlast : l.getLast? = some last) :
    l.dropLast = l.filter fun n => decide (n.first ≠ last.first) := by
  have hl : l.dropLast ++ [last] = l := List.dropLast_append_getLast? last hlast
  have hk' : ((l.dropLast ++ [last]).map ListNode.first).Nodup := by rw [hl]; exact hk
  rw [List.map_append, List.nodup_append] at hk'
  obtain ⟨-, -, hdisj⟩ := hk'
  have h1 : (l.dropLast.filter fun n => decide (n.first ≠ last.first)) = l.dropLast := by
    rw [List.filter_eq_self]
    intro n hn
    have : n.first ≠ last.first := fun h =>
      hdisj (List.mem_map_of_mem _ hn) (by simp [h])
    simp [this]
  conv_rhs => rw [← hl]
  rw [List.filter_append, h1]
  simp

/-- Under the class invariant the map has as many entries as the list has nodes. -/
theorem WF_length {K V : Type} [DecidableEq K] (c : CLRUCache K V) (hc : c.WF) :
    c.cacheItemsMap.length = c.cacheItemsList.length := by
  obtain ⟨-, hk, hm, hfind, -⟩ := hc
  have hperm : (c.cacheItemsMap.map Prod.fst).Perm (c.cacheItemsList.map ListNode.first) := by
    rw [List.perm_ext_iff_of_nodup hm hk]
    intro k
    rw [← map_find_isSome_iff, ← nodeOf_isSome_iff, hfind k, Option.isSome_map']
  simpa using hperm.length_eq

/-- Removing a key from the list and from the map keeps the class invariant. -/
theorem WF_erase {K V : Type} [DecidableEq K] (c : CLRUCache K V) (hc : c.WF) (key : K) :
    CLRUCache.WF { c with
      cacheItemsList := c.cacheItemsList.filter fun n => decide (n.first ≠ key)
      cacheItemsMap := map_erase c.cacheItemsMap key } := by
  obtain ⟨ha, hk, hm, hfind, hb⟩ := hc
  refine ⟨ha.sublist ((List.filter_sublist _).map _), hk.sublist ((List.filter_sublist _).map _),
    map_erase_nodup _ _ hm, ?_, fun n hn => hb n (List.mem_of_mem_filter hn)⟩
  intro k
  show map_find (map_erase c.cacheItemsMap key) k = _
  rw [map_find_erase, hfind k]
  show _ = (nodeOf (c.cacheItemsList.filter fun n => decide (n.first ≠ key)) k).map _
  rw [nodeOf_filter]
  split <;> rfl

/-- Pushing a node for an absent key to the front and entering it in the map keeps
the class invariant. -/
theorem WF_push {K V : Type} [DecidableEq K] (c : CLRUCache K V) (hc : c.WF) (key : K)
    (value : V) (habs : nodeOf c.cacheItemsList key = none) :
    CLRUCache.WF
      { cacheItemsList :=
          { addr := c.nextAddr, first := key, second := value } :: c.cacheItemsList
        cacheItemsMap := map_assign c.cacheItemsMap key c.nextAddr
        maxSize := c.maxSize
        nextAddr := c.nextAddr + 1 } := by
  obtain ⟨ha, hk, hm, hfind, hb⟩ := hc
  have hmabs : map_find c.cacheItemsMap key = none := by rw [hfind key, habs]; rfl
  refine ⟨?_, ?_, map_assign_nodup _ _ _ hmabs hm, ?_, ?_⟩
  · show (List.map ListNode.addr (_ :: c.cacheItemsList)).Nodup
    rw [List.map_cons, List.nodup_cons]
    refine ⟨?_, ha⟩
    intro hmem
    obtain ⟨n, hn, hna⟩ := List.mem_map.mp hmem
    have := hb n hn
    simp only at hna
    omega
  · show (List.map ListNode.first (_ :: c.cacheItemsList)).Nodup
    rw [List.map_cons, List.nodup_cons]
    refine ⟨?_, hk⟩
    intro hmem
    have := (nodeOf_isSome_iff c.cacheItemsList key).mpr hmem
    rw [habs] at this
    cases this
  · intro k
    show map_find (map_assign c.cacheItemsMap key c.nextAddr) k =
      (nodeOf (_ :: c.cacheItemsList) k).map _
    rw [map_find_assign _ _ _ _ hmabs, nodeOf_cons, hfind k]
    by_cases h : k = key
    · subst h
      simp
    · have h' : ¬ key = k := fun h' => h h'.symm
      simp [h, h']
  · intro n hn
    show n.addr < c.nextAddr + 1
    rcases List.mem_cons.mp hn with rfl | hn'
    · exact Nat.lt_succ_self _
    · exact Nat.lt_succ_of_lt (hb n hn')

/-- Moving a node of the list to the front keeps the class invariant. -/
theorem WF_front {K V : Type} [DecidableEq K] (c : CLRUCache K V) (hc : c.WF)
    (n : ListNode K V) (hn : n ∈ c.cacheItemsList) :
    CLRUCache.WF { c with
      cacheItemsList := n :: c.cacheItemsList.filter fun x => decide (x.first ≠ n.first) } := by
  obtain ⟨ha, hk, hm, hfind, hb⟩ := hc
  refine ⟨?_, ?_, hm, ?_, ?_⟩
  · show (List.map ListNode.addr (n :: _)).Nodup
    rw [← filter_addr_eq_filter_first _ ha hk n hn, List.map_cons, List.nodup_cons]
    refine ⟨?_, ha.sublist ((List.filter_sublist _).map _)⟩
    intro hmem
    obtain ⟨x, hx, hxa⟩ := List.mem_map.mp hmem
    have := List.of_mem_filter hx
    simp only [decide_eq_true_eq] at this
    exact this hxa
  · show (List.map ListNode.first (n :: _)).Nodup
    rw [List.map_cons, List.nodup_cons]
    refine ⟨?_, hk.sublist ((List.filter_sublist _).map _)⟩
    intro hmem
    obtain ⟨x, hx, hxa⟩ := List.mem_map.mp hmem
    have := List.of_mem_filter hx
    simp only [decide_eq_true_eq] at this
    exact this hxa
  · intro k
    show map_find c.cacheItemsMap k = (nodeOf (n :: _) k).map _
    rw [hfind k, nodeOf_cons, nodeOf_filter]
    by_cases h : n.first = k
    · subst h
      rw [nodeOf_of_mem _ hk n hn]
      simp
    · have h' : ¬ k = n.first := fun h' => h h'.symm
      simp [h, h']
  · intro x hx
    rcases List.mem_cons.mp hx with rfl | hx'
    · exact hb _ hn
    · exact hb x (List.mem_of_mem_filter hx')

/-- The first half of `Put` (lines 52-58) under the class invariant: the nodes of the
key leave the list and the entry of the key leaves the map. -/
theorem Put_erased {K V : Type} [DecidableEq K] (c : CLRUCache K V) (hc : c.WF) (key : K)
    (value : V) :
    (match map_find c.cacheItemsMap key with
      | some second =>
        (list_erase ({ addr := c.nextAddr, first := key, second := value } :: c.cacheItemsList)
          second).map fun l => (l, map_erase c.cacheItemsMap key)
      | none =>
        some ({ addr := c.nextAddr, first := key, second := value } :: c.cacheItemsList,
          c.cacheItemsMap)) =
    some ({ addr := c.nextAddr, first := key, second := value } ::
        c.cacheItemsList.filter fun n => decide (n.first ≠ key),
      map_erase c.cacheItemsMap key) := by
  obtain ⟨ha, hk, hm, hfind, hb⟩ := hc
  rw [hfind key]
  cases hn : nodeOf c.cacheItemsList key with
  | none =>
    have h1 : (c.cacheItemsList.filter fun n => decide (n.first ≠ key)) = c.cacheItemsList := by
      rw [List.filter_eq_self]
      intro n hn'
      have : n.first ≠ key := by
        intro h
        have := (nodeOf_isSome_iff c.cacheItemsList key).mpr (h ▸ List.mem_map_of_mem _ hn')
        rw [hn] at this
        cases this
      simp [this]
    have h2 : map_erase c.cacheItemsMap key = c.cacheItemsMap := by
      rw [map_erase, List.filter_eq_self]
      intro e he
      have : e.1 ≠ key := by
        intro h
        have := (map_find_isSome_iff c.cacheItemsMap key).mpr (h ▸ List.mem_map_of_mem _ he)
        rw [hfind key, hn] at this
        cases this
      simp [this]
    rw [h1, h2]
    rfl
  | some n0 =>
    obtain ⟨hmem, hfirst⟩ := nodeOf_eq_some _ _ _ hn
    have hne : c.nextAddr ≠ n0.addr := by
      have := hb n0 hmem
      omega
    have hderef : list_deref
        ({ addr := c.nextAddr, first := key, second := value } :: c.cacheItemsList) n0.addr =
        some n0 := by
      rw [list_deref, List.find?_cons]
      simp only [hne, decide_False]
      exact list_deref_of_mem _ ha n0 hmem
    have hfilter : (({ addr := c.nextAddr, first := key, second := value } ::
        c.cacheItemsList).filter fun n => decide (n.addr ≠ n0.addr)) =
        { addr := c.nextAddr, first := key, second := value } ::
          c.cacheItemsList.filter fun n => decide (n.first ≠ key) := by
      rw [List.filter_cons]
      simp only [ne_eq, hne, not_false_eq_true, decide_True, if_true]
      rw [filter_addr_eq_filter_first _ ha hk n0 hmem, hfirst]
    simp only [Option.map_some', list_erase, hderef, hfilter]

/-- The member `Put` under the class invariant: it returns, keeps the invariant and the
maximal size, and leaves the list `putList` describes. -/
theorem Put_of_WF {K V : Type} [DecidableEq K] (c : CLRUCache K V) (hc : c.WF) (key : K)
    (value : V) :
    ∃ c', c.Put key value = some c' ∧ c'.WF ∧
      c'.cacheItemsList = putList c.cacheItemsList c.nextAddr key value c.maxSize ∧
      c'.maxSize = c.maxSize := by
  have hE := WF_erase c hc key
  have habs : nodeOf (c.cacheItemsList.filter fun n => decide (n.first ≠ key)) key = none := by
    rw [nodeOf_filter, if_pos rfl]
  have hP := WF_push _ hE key value habs
  have hmabs : map_find (map_erase c.cacheItemsMap key) key = none := by
    rw [map_find_erase, if_pos rfl]
  have hlen := WF_length _ hP
  simp only [map_assign_length _ _ _ hmabs, List.length_cons] at hlen
  unfold CLRUCache.Put
  simp only [Put_erased c hc key value, Option.some_bind, List.head?_cons,
    map_assign_length _ _ _ hmabs]
  by_cases hfull : (map_erase c.cacheItemsMap key).length + 1 > c.maxSize
  · rw [if_pos hfull]
    obtain ⟨last, hlast⟩ : ∃ last, ({ addr := c.nextAddr, first := key, second := value } ::
        c.cacheItemsList.filter fun n => decide (n.first ≠ key)).getLast? = some last := by
      rw [List.getLast?_eq_getLast _ (List.cons_ne_nil _ _)]
      exact ⟨_, rfl⟩
    rw [hlast]
    refine ⟨_, rfl, ?_, ?_, rfl⟩
    · have hE2 := WF_erase _ hP last.first
      rw [← dropLast_eq_filter _ hP.2.1 last hlast] at hE2
      exact hE2
    · rw [putList, if_pos (by omega)]
  · rw [if_neg hfull]
    refine ⟨_, rfl, hP, ?_, rfl⟩
    rw [putList, if_neg (by omega)]

/-- The member `Get` under the class invariant, for a key the list stores: it returns the
value of the node of the key and moves that node to the front. -/
theorem Get_of_WF_some {K V : Type} [DecidableEq K] (c : CLRUCache K V) (hc : c.WF) (key : K)
    (n : ListNode K V) (hn : nodeOf c.cacheItemsList key = some n) :
    c.Get key = some (GetOutcome.value n.second,
        { c with cacheItemsList :=
            n :: c.cacheItemsList.filter fun x => decide (x.first ≠ key) }) ∧
      CLRUCache.WF { c with cacheItemsList :=
        n :: c.cacheItemsList.filter fun x => decide (x.first ≠ key) } := by
  obtain ⟨hmem, hfirst⟩ := nodeOf_eq_some _ _ _ hn
  have hF := WF_front c hc n hmem
  rw [hfirst] at hF
  refine ⟨?_, hF⟩
  obtain ⟨ha, hk, hm, hfind, hb⟩ := hc
  have hfilter : (c.cacheItemsList.filter fun x => decide (x.addr ≠ n.addr)) =
      c.cacheItemsList.filter fun x => decide (x.first ≠ key) := by
    rw [filter_addr_eq_filter_first _ ha hk n hmem, hfirst]
  have hderef : list_deref
      (n :: c.cacheItemsList.filter fun x => decide (x.first ≠ key)) n.addr = some n := by
    rw [list_deref, List.find?_cons]
    simp
  unfold CLRUCache.Get
  rw [hfind key, hn]
  simp only [Option.map_some', list_splice, list_deref_of_mem _ ha n hmem, hfilter,
    Option.some_bind, hderef]

/-- The member `Get` under the class invariant, for a key the list does not store: it
throws and leaves the cache as it was. -/
theorem Get_of_WF_none {K V : Type} [DecidableEq K] (c : CLRUCache K V) (hc : c.WF) (key : K)
    (hn : nodeOf c.cacheItemsList key = none) :
    c.Get key = some (GetOutcome.range_error, c) := by
  unfold CLRUCache.Get
  rw [hc.2.2.2.1 key, hn]
  rfl

/-- The member `Erase` under the class invariant: it returns, keeps the invariant and
removes the node of the key. -/
theorem Erase_of_WF {K V : Type} [DecidableEq K] (c : CLRUCache K V) (hc : c.WF) (key : K) :
    ∃ c', c.Erase key = some c' ∧ c'.WF ∧
      c'.cacheItemsList = (c.cacheItemsList.filter fun n => decide (n.first ≠ key)) ∧
      c'.maxSize = c.maxSize := by
  have hE := WF_erase c hc key
  obtain ⟨ha, hk, hm, hfind, hb⟩ := hc
  unfold CLRUCache.Erase
  rw [hfind key]
  cases hn : nodeOf c.cacheItemsList key with
  | none =>
    have h1 : (c.cacheItemsList.filter fun n => decide (n.first ≠ key)) = c.cacheItemsList := by
      rw [List.filter_eq_self]
      intro n hn'
      have : n.first ≠ key := by
        intro h
        have := (nodeOf_isSome_iff c.cacheItemsList key).mpr (h ▸ List.mem_map_of_mem _ hn')
        rw [hn] at this
        cases this
      simp [this]
    refine ⟨c, rfl, ⟨ha, hk, hm, hfind, hb⟩, h1.symm, rfl⟩
  | some n0 =>
    obtain ⟨hmem, hfirst⟩ := nodeOf_eq_some _ _ _ hn
    have hfilter : (c.cacheItemsList.filter fun x => decide (x.addr ≠ n0.addr)) =
        c.cacheItemsList.filter fun x => decide (x.first ≠ key) := by
      rw [filter_addr_eq_filter_first _ ha hk n0 hmem, hfirst]
    simp only [Option.map_some', list_erase, list_deref_of_mem _ ha n0 hmem, hfilter]
    exact ⟨_, rfl, hE, rfl, rfl⟩

/-- The member `Exists` under the class invariant: whether the list stores the key. -/
theorem Exists_of_WF {K V : Type} [DecidableEq K] (c : CLRUCache K V) (hc : c.WF) (key : K) :
    c.Exists key = (nodeOf c.cacheItemsList key).isSome := by
  rw [CLRUCache.Exists, hc.2.2.2.1 key, Option.isSome_map']

/-- The member `Size` under the class invariant: the number of nodes of the list. -/
theorem Size_of_WF {K V : Type} [DecidableEq K] (c : CLRUCache K V) (hc : c.WF) :
    c.Size = c.cacheItemsList.length :=
  WF_length c hc

theorem WF_new {K V : Type} [DecidableEq K] (max_size : Nat) :
    (CLRUCache.new max_size : CLRUCache K V).WF :=
  ⟨List.nodup_nil, List.nodup_nil, List.nodup_nil, fun _ => rfl, fun _ h => by cases h⟩

theorem WF_Clear {K V : Type} [DecidableEq K] (c : CLRUCache K V) : c.Clear.WF :=
  ⟨List.nodup_nil, List.nodup_nil, List.nodup_nil, fun _ => rfl, fun _ h => by cases h⟩

theorem WF_SetNull {K V : Type} [DecidableEq K] (c : CLRUCache K V) : c.SetNull.WF :=
  ⟨List.nodup_nil, List.nodup_nil, List.nodup_nil, fun _ => rfl, fun _ h => by cases h⟩

theorem WF_SetSize {K V : Type} [DecidableEq K] (c : CLRUCache K V) (hc : c.WF)
    (size : Nat) : (c.SetSize size).WF := hc

/-! ## Sequences of calls on the LRU cache -/

theorem runCacheOps_append {K V : Type} [DecidableEq K] :
    ∀ (ops ops' : List (CacheOp K V)) (c : CLRUCache K V),
      runCacheOps (ops ++ ops') c = (runCacheOps ops c).bind (runCacheOps ops') := by
  intro ops
  induction ops with
  | nil => intro ops' c; rfl
  | cons op ops ih =>
    intro ops' c
    simp only [List.cons_append, runCacheOps]
    cases op.run c with
    | none => rfl
    | some c1 => simpa using ih ops' c1

theorem lastUse_append_singleton {K V : Type} [DecidableEq K] (ops : List (CacheOp K V))
    (op : CacheOp K V) (key : K) :
    lastUse (ops ++ [op]) key = if op.uses key = true then ops.length + 1 else lastUse ops key := by
  rw [lastUse, List.reverse_append, List.reverse_singleton, List.singleton_append,
    List.dropWhile_cons]
  cases h : op.uses key with
  | true => simp
  | false => simp [lastUse]

theorem lastUse_le_length {K V : Type} [DecidableEq K] (ops : List (CacheOp K V)) (key : K) :
    lastUse ops key ≤ ops.length := by
  rw [lastUse, ← List.length_reverse ops]
  exact (List.dropWhile_suffix _).sublist.length_le

theorem RecencyOrdered_sublist {K V : Type} [DecidableEq K] (ops : List (CacheOp K V))
    (l l' : List (ListNode K V)) (h : RecencyOrdered ops l) (hs : l'.Sublist l) :
    RecencyOrdered ops l' :=
  ⟨h.1.sublist hs, fun n hn => h.2 n (hs.subset hn)⟩

/-- A call that uses none of the keys stored leaves the list in the order of use. -/
theorem RecencyOrdered_keep {K V : Type} [DecidableEq K] (ops : List (CacheOp K V))
    (op : CacheOp K V) (l : List (ListNode K V)) (h : RecencyOrdered ops l)
    (hop : ∀ n ∈ l, op.uses n.first = false) : RecencyOrdered (ops ++ [op]) l := by
  have heq : ∀ n ∈ l, lastUse (ops ++ [op]) n.first = lastUse ops n.first := by
    intro n hn
    rw [lastUse_append_singleton, hop n hn]
    simp
  refine ⟨h.1.imp_of_mem ?_, ?_⟩
  · intro a b ha hb hab
    rw [heq a ha, heq b hb]
    exact hab
  · intro n hn
    rw [heq n hn]
    exact h.2 n hn

/-- A call that uses one key, with the node of that key brought to the front of the
nodes of the other keys, leaves the list in the order of use. -/
theorem RecencyOrdered_front {K V : Type} [DecidableEq K] (ops : List (CacheOp K V))
    (op : CacheOp K V) (l : List (ListNode K V)) (key : K) (n : ListNode K V)
    (h : RecencyOrdered ops l) (hn : n.first = key)
    (hop : ∀ k, op.uses k = decide (key = k)) :
    RecencyOrdered (ops ++ [op])
      (n :: l.filter fun x => decide (x.first ≠ key)) := by
  have hkey : lastUse (ops ++ [op]) key = ops.length + 1 := by
    rw [lastUse_append_singleton, hop key]
    simp
  have heq : ∀ x ∈ l.filter (fun x => decide (x.first ≠ key)),
      lastUse (ops ++ [op]) x.first = lastUse ops x.first := by
    intro x hx
    have hne := List.of_mem_filter hx
    simp only [decide_eq_true_eq] at hne
    have hne' : ¬ key = x.first := fun e => hne e.symm
    rw [lastUse_append_singleton, hop x.first]
    simp [hne']
  have hsub : RecencyOrdered ops (l.filter fun x => decide (x.first ≠ key)) :=
    RecencyOrdered_sublist ops l _ h (List.filter_sublist _)
  constructor
  · rw [List.pairwise_cons]
    constructor
    · intro x hx
      rw [hn, hkey, heq x hx]
      have := lastUse_le_length ops x.first
      omega
    · refine hsub.1.imp_of_mem ?_
      intro a b ha hb hab
      rw [heq a ha, heq b hb]
      exact hab
  · intro x hx
    rcases List.mem_cons.mp hx with rfl | hx'
    · rw [hn, hkey]
      omega
    · rw [heq x hx']
      exact hsub.2 x hx'

theorem RecencyOrdered_nil {K V : Type} [DecidableEq K] (ops : List (CacheOp K V)) :
    RecencyOrdered ops ([] : List (ListNode K V)) :=
  ⟨List.Pairwise.nil, fun _ h => by cases h⟩

/-- One call keeps the class invariant and the order of use. -/
theorem inv_CacheOp_run {K V : Type} [DecidableEq K] (ops : List (CacheOp K V))
    (op : CacheOp K V) (c c' : CLRUCache K V) (hc : c.WF)
    (hr : RecencyOrdered ops c.cacheItemsList) (hrun : op.run c = some c') :
    c'.WF ∧ RecencyOrdered (ops ++ [op]) c'.cacheItemsList := by
  cases op with
  | put key value =>
    obtain ⟨c1, hput, hwf, hlist, -⟩ := Put_of_WF c hc key value
    have e : c1 = c' := Option.some.inj (hput.symm.trans hrun)
    subst e
    refine ⟨hwf, ?_⟩
    have hfront := RecencyOrdered_front ops (CacheOp.put key value) c.cacheItemsList key
      { addr := c.nextAddr, first := key, second := value } hr rfl (fun _ => rfl)
    rw [hlist, putList]
    split
    · exact RecencyOrdered_sublist _ _ _ hfront (List.dropLast_sublist _)
    · exact hfront
  | get key =>
    cases hn : nodeOf c.cacheItemsList key with
    | none =>
      have hget := Get_of_WF_none c hc key hn
      have e : c = c' := by
        simp only [CacheOp.run, hget, Option.map_some'] at hrun
        exact Option.some.inj hrun
      subst e
      refine ⟨hc, RecencyOrdered_keep ops _ _ hr ?_⟩
      intro n hmem
      have hne : ¬ key = n.first := by
        intro h
        have := (nodeOf_isSome_iff c.cacheItemsList key).mpr (h ▸ List.mem_map_of_mem _ hmem)
        rw [hn] at this
        cases this
      simp [CacheOp.uses, hne]
    | some n =>
      obtain ⟨hget, hwf⟩ := Get_of_WF_some c hc key n hn
      have e : { c with cacheItemsList :=
          n :: c.cacheItemsList.filter fun x => decide (x.first ≠ key) } = c' := by
        simp only [CacheOp.run, hget, Option.map_some'] at hrun
        exact Option.some.inj hrun
      subst e
      exact ⟨hwf, RecencyOrdered_front ops (CacheOp.get key) c.cacheItemsList key n hr
        (nodeOf_eq_some _ _ _ hn).2 (fun _ => rfl)⟩
  | erase key =>
    obtain ⟨c1, herase, hwf, hlist, -⟩ := Erase_of_WF c hc key
    have e : c1 = c' := Option.some.inj (herase.symm.trans hrun)
    subst e
    refine ⟨hwf, ?_⟩
    rw [hlist]
    exact RecencyOrdered_sublist _ _ _
      (RecencyOrdered_keep ops _ _ hr (fun _ _ => rfl)) (List.filter_sublist _)
  | clear =>
    have e : c.Clear = c' := Option.some.inj hrun
    subst e
    exact ⟨WF_Clear c, RecencyOrdered_nil _⟩
  | setNull =>
    have e : c.SetNull = c' := Option.some.inj hrun
    subst e
    exact ⟨WF_SetNull c, RecencyOrdered_nil _⟩
  | setSize size =>
    have e : c.SetSize size = c' := Option.some.inj hrun
    subst e
    exact ⟨WF_SetSize c hc size, RecencyOrdered_keep ops _ _ hr (fun _ _ => rfl)⟩

/-- Every cache reached from a constructed one by a sequence of calls satisfies its
invariant and keeps its list in the order of use. -/
theorem inv_runCacheOps {K V : Type} [DecidableEq K] (max_size : Nat) :
    ∀ (ops : List (CacheOp K V)) (c : CLRUCache K V),
      runCacheOps ops (CLRUCache.new max_size) = some c →
      c.WF ∧ RecencyOrdered ops c.cacheItemsList := by
  intro ops
  induction ops using List.reverseRecOn with
  | nil =>
    intro c h
    have e : CLRUCache.new max_size = c := Option.some.inj h
    subst e
    exact ⟨WF_new max_size, RecencyOrdered_nil _⟩
  | append_singleton ops op ih =>
    intro c h
    rw [runCacheOps_append] at h
    cases h1 : runCacheOps ops (CLRUCache.new max_size) with
    | none => rw [h1] at h; cases h
    | some c1 =>
      rw [h1] at h
      obtain ⟨hwf, hr⟩ := ih c1 h1
      have hrun : op.run c1 = some c := by
        simp only [Option.some_bind, runCacheOps] at h
        cases h2 : op.run c1 with
        | none => rw [h2] at h; cases h
        | some c2 =>
          rw [h2] at h
          exact h
      exact inv_CacheOp_run ops op c1 c hwf hr hrun

/-! ## What `Put` does to the LRU cache -/

theorem filter_first_eq_self {K V : Type} [DecidableEq K] (l : List (ListNode K V)) (key : K)
    (habs : nodeOf l key = none) :
    (l.filter fun n => decide (n.first ≠ key)) = l := by
  rw [List.filter_eq_self]
  intro n hn
  have : n.first ≠ key := by
    intro h
    have := (nodeOf_isSome_iff l key).mpr (h ▸ List.mem_map_of_mem _ hn)
    rw [habs] at this
    cases this
  simp [this]

/-- In a list of nodes with different keys exactly one node stores a key of the list. -/
theorem length_filter_first {K V : Type} [DecidableEq K] (l : List (ListNode K V))
    (hk : (l.map ListNode.first).Nodup) (n : ListNode K V) (hn : n ∈ l) :
    (l.filter fun x => decide (x.first ≠ n.first)).length + 1 = l.length := by
  induction l with
  | nil => cases hn
  | cons x l ih =>
    rw [List.map_cons, List.nodup_cons] at hk
    rw [List.filter_cons]
    by_cases hx : x.first = n.first
    · have habs : nodeOf l n.first = none := by
        cases h : nodeOf l n.first with
        | none => rfl
        | some y =>
          have hmem := (nodeOf_isSome_iff l n.first).mp (by rw [h]; rfl)
          exact absurd (hx ▸ hmem) hk.1
      simp only [hx, ne_eq, not_true_eq_false, decide_False, Bool.false_eq_true, if_false]
      rw [filter_first_eq_self l n.first habs, List.length_cons]
    · have hn' : n ∈ l := by
        rcases List.mem_cons.mp hn with rfl | h
        · exact absurd rfl hx
        · exact h
      simp only [hx, ne_eq, not_false_eq_true, decide_True, if_true, List.length_cons]
      rw [ih hk.2 hn']

/-- Two caches under the class invariant whose lists store a key in the same node answer
`Exists` and `Get` for the key alike. -/
theorem Get_congr_of_WF {K V : Type} [DecidableEq K] (c c' : CLRUCache K V) (hc : c.WF)
    (hc' : c'.WF) (key : K)
    (h : nodeOf c'.cacheItemsList key = nodeOf c.cacheItemsList key) :
    c'.Exists key = c.Exists key ∧
      ∃ r c1 c2, c.Get key = some (r, c1) ∧ c'.Get key = some (r, c2) := by
  refine ⟨by rw [Exists_of_WF c hc, Exists_of_WF c' hc', h], ?_⟩
  cases hn : nodeOf c.cacheItemsList key with
  | none =>
    exact ⟨_, _, _, Get_of_WF_none c hc key hn, Get_of_WF_none c' hc' key (h.trans hn)⟩
  | some n =>
    exact ⟨_, _, _, (Get_of_WF_some c hc key n hn).1,
      (Get_of_WF_some c' hc' key n (h.trans hn)).1⟩

/-- With room for at least one entry the node `Put` pushes stays at the front. -/
theorem putList_eq {K V : Type} [DecidableEq K] (l : List (ListNode K V)) (addr : Nat)
    (key : K) (value : V) (maxSize : Nat) (hmax : 1 ≤ maxSize) :
    putList l addr key value maxSize =
      { addr := addr, first := key, second := value } ::
        (if (l.filter fun n => decide (n.first ≠ key)).length + 1 > maxSize then
          (l.filter fun n => decide (n.first ≠ key)).dropLast
        else l.filter fun n => decide (n.first ≠ key)) := by
  rw [putList]
  split
  · next h =>
    have hne : (l.filter fun n => decide (n.first ≠ key)) ≠ [] := by
      intro h0
      rw [h0] at h
      simp only [List.length_nil] at h
      omega
    rw [List.dropLast_cons_of_ne_nil hne]
  · rfl

/-- C23, as stated, fails: the copy the copy constructor makes of the cache that holds
the one entry `(1, 10)` has `maxSize = 2` and one entry, and `Exists(1)` holds on it, but
its map holds for the key `1` the iterator of the node of the source. `Put(1, 11)` hands
that iterator to `erase` on the list of the copy, which has no such node: the call is
undefined and leaves no cache on which `Exists(1)` holds and `Get(1)` returns `11`.
`Put(2, 20)` returns, and `Get(1)` on the result is undefined in the same way: the
entry of the key `1` is not kept with its value. -/
theorem CLRUCache_Put_counterexample :
    runCacheOps [CacheOp.put 1 10] (CLRUCache.new 2) = some lruSource ∧
      lruCopy =
        { cacheItemsList := [{ addr := 1, first := 1, second := 10 }],
          cacheItemsMap := [(1, 0)], maxSize := 2, nextAddr := 2 } ∧
      1 ≤ lruCopy.MaxSize ∧ lruCopy.Size ≤ lruCopy.MaxSize ∧ lruCopy.Exists 1 = true ∧
      lruCopy.Put 1 11 = none ∧
      (¬ ∃ c', lruCopy.Put 1 11 = some c' ∧ c'.Exists 1 = true ∧
        ∃ c'', c'.Get 1 = some (GetOutcome.value 11, c'')) ∧
      ∃ c', lruCopy.Put 2 20 = some c' ∧ c'.Exists 1 = true ∧ c'.Get 1 = none := by
  have hnone : lruCopy.Put 1 11 = none := by decide
  refine ⟨by decide, by decide, by decide, by decide, by decide, hnone, ?_, ?_⟩
  · rintro ⟨c', h, -⟩
    rw [hnone] at h
    cases h
  · exact ⟨_, rfl, by decide, by decide⟩

/-- C23, amended: for every cache built by a constructor of lines 42-48 and changed since
only by calls of its members `Put`, `Get`, `Erase`, `Clear`, `SetNull` and `SetSize`,
with `maxSize >= 1` and at most `maxSize` entries, and every key `k` and value `v`,
`Put(k, v)` returns and afterwards `Exists(k)` holds, `Get(k)` returns `v` and
`Size() <= maxSize`. When the cache was full and `k` was absent, one entry `e` is gone:
the one whose last `Put` or `Get` is older than that of every other entry; every key
other than `k` and `e` is answered by `Exists` and `Get` as before and the size is
unchanged. Otherwise every key other than `k` is answered as before, and the size grows
by one exactly when `k` was absent. -/
theorem CLRUCache_Put_spec {K V : Type} [DecidableEq K] (max_size : Nat)
    (ops : List (CacheOp K V)) (c : CLRUCache K V) (k : K) (v : V)
    (hrun : runCacheOps ops (CLRUCache.new max_size) = some c)
    (hmax : 1 ≤ c.MaxSize) (hsize : c.Size ≤ c.MaxSize) :
    ∃ c', c.Put k v = some c' ∧
      c'.Exists k = true ∧
      (∃ c'', c'.Get k = some (GetOutcome.value v, c'')) ∧
      c'.Size ≤ c'.MaxSize ∧ c'.MaxSize = c.MaxSize ∧
      ((c.Size = c.MaxSize ∧ c.Exists k = false) →
        c'.Size = c.Size ∧
        ∃ e, e ≠ k ∧ c.Exists e = true ∧ c'.Exists e = false ∧ 0 < lastUse ops e ∧
          (∀ k', k' ≠ e → c.Exists k' = true → lastUse ops e < lastUse ops k') ∧
          ∀ k', k' ≠ k → k' ≠ e →
            c'.Exists k' = c.Exists k' ∧
              ∃ r c1 c2, c.Get k' = some (r, c1) ∧ c'.Get k' = some (r, c2)) ∧
      (¬ (c.Size = c.MaxSize ∧ c.Exists k = false) →
        (c'.Size = if c.Exists k = true then c.Size else c.Size + 1) ∧
        ∀ k', k' ≠ k →
          c'.Exists k' = c.Exists k' ∧
            ∃ r c1 c2, c.Get k' = some (r, c1) ∧ c'.Get k' = some (r, c2)) := by
  obtain ⟨hc, hrec⟩ := inv_runCacheOps max_size ops c hrun
  obtain ⟨c', hput, hc', hlist, hms⟩ := Put_of_WF c hc k v
  rw [CLRUCache.MaxSize] at hmax
  rw [putList_eq _ _ _ _ _ hmax] at hlist
  have hS : c.Size = c.cacheItemsList.length := Size_of_WF c hc
  have hS' : c'.Size = c'.cacheItemsList.length := Size_of_WF c' hc'
  have hE : ∀ key, c.Exists key = (nodeOf c.cacheItemsList key).isSome := Exists_of_WF c hc
  have hE' : ∀ key, c'.Exists key = (nodeOf c'.cacheItemsList key).isSome := Exists_of_WF c' hc'
  have hflen : (c.cacheItemsList.filter fun n => decide (n.first ≠ k)).length ≤
      c.cacheItemsList.length := List.length_filter_le _ _
  have hnew : nodeOf c'.cacheItemsList k =
      some { addr := c.nextAddr, first := k, second := v } := by
    rw [hlist, nodeOf_cons, if_pos rfl]
  simp only [CLRUCache.MaxSize] at hsize ⊢
  rw [hS] at hsize
  refine ⟨c', hput, ?_, ⟨_, (Get_of_WF_some c' hc' k _ hnew).1⟩, ?_, hms, ?_, ?_⟩
  · rw [hE', hnew]
    rfl
  · rw [hS', hlist, hms, List.length_cons]
    split
    · rw [List.length_dropLast]
      omega
    · omega
  · rintro ⟨hfull, habs⟩
    rw [hS] at hfull
    have hnone : nodeOf c.cacheItemsList k = none := by
      rw [hE k] at habs
      cases h : nodeOf c.cacheItemsList k with
      | none => rfl
      | some n => rw [h] at habs; cases habs
    rw [filter_first_eq_self _ _ hnone, if_pos (by omega)] at hlist
    have hne : c.cacheItemsList ≠ [] := by
      intro h0
      rw [h0] at hfull
      simp only [List.length_nil] at hfull
      omega
    have hlast : c.cacheItemsList.getLast? = some (c.cacheItemsList.getLast hne) :=
      List.getLast?_eq_getLast _ hne
    have hmem : c.cacheItemsList.getLast hne ∈ c.cacheItemsList := List.getLast_mem hne
    have hdrop := dropLast_eq_filter _ hc.2.1 _ hlast
    have hek : (c.cacheItemsList.getLast hne).first ≠ k := by
      intro h
      have := nodeOf_of_mem _ hc.2.1 _ hmem
      rw [h, hnone] at this
      cases this
    refine ⟨?_, (c.cacheItemsList.getLast hne).first, hek, ?_, ?_, hrec.2 _ hmem, ?_, ?_⟩
    · rw [hS', hS, hlist, List.length_cons, List.length_dropLast]
      omega
    · rw [hE, nodeOf_of_mem _ hc.2.1 _ hmem]
      rfl
    · rw [hE', hlist, nodeOf_cons, if_neg (fun h => hek h.symm), hdrop, nodeOf_filter,
        if_pos rfl]
      rfl
    · intro k' hk' hex
      rw [hE k'] at hex
      cases hn : nodeOf c.cacheItemsList k' with
      | none => rw [hn] at hex; cases hex
      | some n =>
        obtain ⟨hnmem, hnfirst⟩ := nodeOf_eq_some _ _ _ hn
        have happ : c.cacheItemsList.dropLast ++ [c.cacheItemsList.getLast hne] =
            c.cacheItemsList := List.dropLast_append_getLast hne
        have hpw := hrec.1
        rw [← happ, List.pairwise_append] at hpw
        rw [← happ, List.mem_append] at hnmem
        rcases hnmem with hd | hl
        · have := hpw.2.2 n hd _ (List.mem_singleton_self _)
          rw [hnfirst] at this
          exact this
        · rw [List.mem_singleton] at hl
          rw [hl] at hnfirst
          exact absurd hnfirst.symm hk'
    · intro k' hk hk'
      apply Get_congr_of_WF c c' hc hc'
      rw [hlist, nodeOf_cons, if_neg (fun h => hk h.symm), hdrop, nodeOf_filter, if_neg hk']
  · intro hnot
    have hkeep : (if (c.cacheItemsList.filter fun n => decide (n.first ≠ k)).length + 1 >
          c.maxSize then
          (c.cacheItemsList.filter fun n => decide (n.first ≠ k)).dropLast
        else c.cacheItemsList.filter fun n => decide (n.first ≠ k)) =
        (c.cacheItemsList.filter fun n => decide (n.first ≠ k)) ∧
        (c.cacheItemsList.filter fun n => decide (n.first ≠ k)).length + 1 =
          if c.Exists k = true then c.cacheItemsList.length
          else c.cacheItemsList.length + 1 := by
      cases hn : nodeOf c.cacheItemsList k with
      | none =>
        have hex : c.Exists k = false := by rw [hE k, hn]; rfl
        have hlt : c.cacheItemsList.length ≠ c.maxSize := fun h =>
          hnot ⟨by rw [hS]; exact h, hex⟩
        rw [filter_first_eq_self _ _ hn, hex]
        exact ⟨if_neg (by omega), by simp⟩
      | some n =>
        obtain ⟨hnmem, hnfirst⟩ := nodeOf_eq_some _ _ _ hn
        have hex : c.Exists k = true := by rw [hE k, hn]; rfl
        have hlen := length_filter_first _ hc.2.1 n hnmem
        rw [hnfirst] at hlen
        rw [hex]
        exact ⟨if_neg (by omega), by simpa using hlen⟩
    rw [hkeep.1] at hlist
    constructor
    · rw [hS', hS, hlist, List.length_cons, hkeep.2]
    · intro k' hk
      apply Get_congr_of_WF c c' hc hc'
      rw [hlist, nodeOf_cons, if_neg (fun h => hk h.symm), nodeOf_filter, if_neg hk]

theorem CLRUCache_Put_spec_witness :
    runCacheOps [CacheOp.put 1 10, CacheOp.put 2 20, CacheOp.get 1] (CLRUCache.new 2) =
        some lruDemo ∧
      1 ≤ lruDemo.MaxSize ∧ lruDemo.Size ≤ lruDemo.MaxSize ∧
      lruDemo.Put 3 30 = some
        { cacheItemsList := [{ addr := 2, first := 3, second := 30 },
            { addr := 0, first := 1, second := 10 }],
          cacheItemsMap := [(3, 2), (1, 0)], maxSize := 2, nextAddr := 3 } ∧
      ∃ c', lruDemo.Put 3 30 = some c' ∧
        c'.Exists 3 = true ∧
        (∃ c'', c'.Get 3 = some (GetOutcome.value 30, c'')) ∧
        c'.Size ≤ c'.MaxSize ∧ c'.MaxSize = lruDemo.MaxSize ∧
        ((lruDemo.Size = lruDemo.MaxSize ∧ lruDemo.Exists 3 = false) →
          c'.Size = lruDemo.Size ∧
          ∃ e, e ≠ 3 ∧ lruDemo.Exists e = true ∧ c'.Exists e = false ∧
            0 < lastUse [CacheOp.put 1 10, CacheOp.put 2 20, CacheOp.get 1] e ∧
            (∀ k', k' ≠ e → lruDemo.Exists k' = true →
              lastUse [CacheOp.put 1 10, CacheOp.put 2 20, CacheOp.get 1] e <
                lastUse [CacheOp.put 1 10, CacheOp.put 2 20, CacheOp.get 1] k') ∧
            ∀ k', k' ≠ 3 → k' ≠ e →
              c'.Exists k' = lruDemo.Exists k' ∧
                ∃ r c1 c2, lruDemo.Get k' = some (r, c1) ∧ c'.Get k' = some (r, c2)) ∧
        (¬ (lruDemo.Size = lruDemo.MaxSize ∧ lruDemo.Exists 3 = false) →
          (c'.Size = if lruDemo.Exists 3 = true then lruDemo.Size else lruDemo.Size + 1) ∧
          ∀ k', k' ≠ 3 →
            c'.Exists k' = lruDemo.Exists k' ∧
              ∃ r c1 c2, lruDemo.Get k' = some (r, c1) ∧ c'.Get k' = some (r, c2)) :=
  ⟨by decide, by decide, by decide, by decide,
    CLRUCache_Put_spec 2 [CacheOp.put 1 10, CacheOp.put 2 20, CacheOp.get 1] lruDemo 3 30
      (by decide) (by decide) (by decide)⟩

/-! ## The blocks per cycle of the precomputer -/

/-- Truncating division by 10 in terms of the division that rounds down. -/
theorem tdiv_ten (n : Int) :
    n.tdiv 10 = if 0 ≤ n then n / 10 else -((-n) / 10) := by
  split
  · next h => exact Int.tdiv_eq_ediv h (by decide)
  · next h =>
    have h1 : (-n).tdiv 10 = (-n) / 10 := Int.tdiv_eq_ediv (by omega) (by decide)
    have h2 : (-n).tdiv 10 = -(n.tdiv 10) := Int.neg_tdiv _ _
    omega

/-- Rounding toward zero in terms of the division that rounds down. -/
theorem roundTowardZero10_eq (n : Int) :
    roundTowardZero10 n = if 0 ≤ n then 10 * (n / 10) else -(10 * ((-n) / 10)) := by
  rw [roundTowardZero10, tdiv_ten]
  split <;> omega

/-- What rounding toward zero to a multiple of 10 means: the result is a multiple of 10
between zero and the number, less than 10 away from it. -/
theorem roundTowardZero10_spec (n : Int) :
    10 ∣ roundTowardZero10 n ∧
      (0 ≤ n → 0 ≤ roundTowardZero10 n ∧ roundTowardZero10 n ≤ n ∧
        n < roundTowardZero10 n + 10) ∧
      (n ≤ 0 → roundTowardZero10 n ≤ 0 ∧ n ≤ roundTowardZero10 n ∧
        roundTowardZero10 n < n + 10) := by
  refine ⟨⟨n.tdiv 10, rfl⟩, ?_, ?_⟩
  · intro h
    rw [roundTowardZero10_eq]
    split <;> omega
  · intro h
    rw [roundTowardZero10_eq]
    split <;> omega

/-- The step of lines 80-81 rounds toward zero to a multiple of 10. -/
theorem sub_tmod_ten (n : Int) :
    (if n.tmod 10 ≠ 0 then n - n.tmod 10 else n) = roundTowardZero10 n := by
  have h := Int.tmod_def n 10
  rw [roundTowardZero10]
  split <;> omega

/-- For every `int` the member `SetBlocksPerCycle` returns, with the rounded value clamped
to the range from 100 to 2000. -/
theorem SetBlocksPerCycle_eq (p : Precompute) (n : Int) (hn : inInt32 n = true) :
    p.SetBlocksPerCycle n =
      some { p with nBlocksPerCycle :=
        if roundTowardZero10 n < 100 then 100
        else if roundTowardZero10 n > 2000 then 2000 else roundTowardZero10 n } := by
  have hr : inInt32 (roundTowardZero10 n) = true := by
    simp only [inInt32, Bool.and_eq_true, decide_eq_true_eq] at hn ⊢
    rw [roundTowardZero10_eq]
    split <;> omega
  simp only [Precompute.SetBlocksPerCycle, sub_tmod_ten, hr, Bool.not_true, Bool.false_eq_true,
    if_false, MIN_PRECOMPUTE_BPC, MAX_PRECOMPUTE_BPC]
  congr 2
  split <;> split <;> first | rfl | omega

/-- C24: for every `int` `n`, `SetBlocksPerCycle(n)` returns and afterwards
`GetBlocksPerCycle()` is a multiple of 10 between 100 and 2000: `n` rounded toward zero
to a multiple of 10 when that lies between 100 and 2000, 100 when it is smaller and 2000
when it is larger. -/
theorem SetBlocksPerCycle_spec (p : Precompute) (n : Int) (hn : inInt32 n = true) :
    ∃ p', p.SetBlocksPerCycle n = some p' ∧
      10 ∣ p'.GetBlocksPerCycle ∧ 100 ≤ p'.GetBlocksPerCycle ∧ p'.GetBlocksPerCycle ≤ 2000 ∧
      (100 ≤ roundTowardZero10 n → roundTowardZero10 n ≤ 2000 →
        p'.GetBlocksPerCycle = roundTowardZero10 n) ∧
      (roundTowardZero10 n < 100 → p'.GetBlocksPerCycle = 100) ∧
      (2000 < roundTowardZero10 n → p'.GetBlocksPerCycle = 2000) := by
  refine ⟨_, SetBlocksPerCycle_eq p n hn, ?_⟩
  simp only [Precompute.GetBlocksPerCycle]
  obtain ⟨q, hq⟩ := (roundTowardZero10_spec n).1
  refine ⟨?_, ?_, ?_, ?_, ?_, ?_⟩
  · split
    · exact ⟨10, rfl⟩
    · split
      · exact ⟨200, rfl⟩
      · exact ⟨q, hq⟩
  · split_ifs <;> omega
  · split_ifs <;> omega
  · intro h1 h2
    split_ifs <;> first | rfl | omega
  · intro h1
    rw [if_pos h1]
  · intro h1
    split_ifs <;> first | rfl | omega

theorem SetBlocksPerCycle_spec_witness :
    inInt32 (-1234567) = true ∧
      ∃ p', (Precompute.new).SetBlocksPerCycle (-1234567) = some p' ∧
        10 ∣ p'.GetBlocksPerCycle ∧ 100 ≤ p'.GetBlocksPerCycle ∧
        p'.GetBlocksPerCycle ≤ 2000 ∧
        (100 ≤ roundTowardZero10 (-1234567) → roundTowardZero10 (-1234567) ≤ 2000 →
          p'.GetBlocksPerCycle = roundTowardZero10 (-1234567)) ∧
        (roundTowardZero10 (-1234567) < 100 → p'.GetBlocksPerCycle = 100) ∧
        (2000 < roundTowardZero10 (-1234567) → p'.GetBlocksPerCycle = 2000) :=
  ⟨by decide, SetBlocksPerCycle_spec (Precompute.new) (-1234567) (by decide)⟩

end Pow
